import Mathlib

/-!
A verification development for `skip_list.hpp`.

The C++ class `SkipList<Key, Value>` is embedded as pure state passing over an
explicit heap.

* A `Node*` that is not null is an address (`Nat`) into `SkipList.heap`; the
  member `_head` lives inside the container object, so a cursor `Node* node`
  that may be `&_head` is a `NodeRef`.  A nullable `Node*` is an `Option Nat`.
* `new Node(n)` appends a slot to the heap, `delete p` empties the slot.
* Every access `node->forwards[level]` is checked: reading a slot that does
  not exist is `Fault.outOfBounds`, going through a pointer whose node has
  been deleted is `Fault.dangling`.
* `while` loops that chase pointers take fuel; the public operations supply
  `heap.length + 1` per level, and running out is `Fault.fuel`.
* `rand()` is an oracle: the `i`-th call made by one `insert` returns `rnd i`.
* `size_t _size` is a natural number kept below `2 ^ 64`, with wrap-around on
  `++` and `--`.
* `int` is the 32-bit signed integer: `toInt` is the conversion of a `size_t`
  value to `int` (the value modulo `2 ^ 32`, read as a signed number).  The
  initialiser `int level = max_level()-1` of `find` and `remove` is
  `topLevel`, and the cast `(int)max_level()` in the loop of `insert` is
  `toInt (max_level s)`.  A loop `for (level = top; level >= 0; --level)` runs
  `loopLevels` times: `top + 1` times, and not at all when `top` is negative.
-/

set_option autoImplicit false

/-- The ways in which an operation can fail to return normally. -/
inductive Fault where
  | outOfBounds
  | dangling
  | nullAccess
  | fuel
  deriving DecidableEq, Repr

/-- Equality of results is decidable, so that closed runs can be evaluated. -/
instance instDecidableEqExcept {ε α : Type} [DecidableEq ε] [DecidableEq α] :
    DecidableEq (Except ε α)
  | .ok a, .ok b => if h : a = b then isTrue (by rw [h]) else isFalse (fun e => h (by cases e; rfl))
  | .error a, .error b =>
    if h : a = b then isTrue (by rw [h]) else isFalse (fun e => h (by cases e; rfl))
  | .ok _, .error _ => isFalse (fun e => by cases e)
  | .error _, .ok _ => isFalse (fun e => by cases e)

/-- The `struct Node`: the `item` pair and the `forwards` vector. -/
structure Node (K V : Type) where
  item : K × V
  forwards : List (Option Nat)
  deriving DecidableEq, Repr

/-- A non-null `Node*`: either `&_head` or the address of a heap node. -/
inductive NodeRef where
  | head
  | heap (a : Nat)
  deriving DecidableEq, Repr

/-- The class `_Iterator`: it wraps the nullable pointer `_node`. -/
structure Iterator where
  _node : Option Nat
  deriving DecidableEq, Repr

/-- The class `SkipList`: the members `_head` and `_size`, and the heap that
holds the nodes allocated with `new`. -/
structure SkipList (K V : Type) where
  _head : Node K V
  _size : Nat
  heap : List (Option (Node K V))
  deriving DecidableEq, Repr

namespace SkipList

variable {K V : Type}

/-- The constructor `SkipList(size_t max_level)`: `_head(max_level)` builds
the head with `max_level` null forward pointers and a default item. -/
def construct [Inhabited K] [Inhabited V] (max_level : Nat) : SkipList K V :=
  { _head := { item := default, forwards := List.replicate max_level none }
    _size := 0
    heap := [] }

/-- `max_level()` is `_head.forwards.size()`. -/
def max_level (s : SkipList K V) : Nat := s._head.forwards.length

/-- `size()` returns `_size`. -/
def size (s : SkipList K V) : Nat := s._size

/-- `empty()` returns `_size > 0`. -/
def empty (s : SkipList K V) : Bool := decide (s._size > 0)

/-- Following a non-null `Node*` to the node it points to. -/
def deref (s : SkipList K V) : NodeRef → Except Fault (Node K V)
  | .head => .ok s._head
  | .heap a =>
    match s.heap[a]? with
    | some (some n) => .ok n
    | _ => .error .dangling

/-- Reading `node->forwards[level]`. -/
def forward (s : SkipList K V) (node : NodeRef) (level : Nat) : Except Fault (Option Nat) :=
  match deref s node with
  | .error f => .error f
  | .ok n =>
    match n.forwards[level]? with
    | some p => .ok p
    | none => .error .outOfBounds

/-- Writing `node->forwards[level] = p`. -/
def setForward (s : SkipList K V) (node : NodeRef) (level : Nat) (p : Option Nat) :
    Except Fault (SkipList K V) :=
  match deref s node with
  | .error f => .error f
  | .ok n =>
    if level < n.forwards.length then
      let n1 : Node K V := { n with forwards := n.forwards.set level p }
      match node with
      | .head => .ok { s with _head := n1 }
      | .heap a => .ok { s with heap := s.heap.set a (some n1) }
    else .error .outOfBounds

/-- Writing `it->second = value` for an iterator at address `a`. -/
def setValue (s : SkipList K V) (a : Nat) (value : V) : Except Fault (SkipList K V) :=
  match deref s (.heap a) with
  | .error f => .error f
  | .ok n => .ok { s with heap := s.heap.set a (some { n with item := (n.item.1, value) }) }

/-- The inner `while` loop of `find` at one level: `Sum.inl a` is the early
`return { fwd }`, `Sum.inr node` is the node at which the loop was left. -/
def findScan [LinearOrder K] (s : SkipList K V) (key : K) (level : Nat) :
    Nat → NodeRef → Except Fault (Nat ⊕ NodeRef)
  | 0, _ => .error .fuel
  | fuel + 1, node =>
    match forward s node level with
    | .error f => .error f
    | .ok none => .ok (.inr node)
    | .ok (some a) =>
      match deref s (.heap a) with
      | .error f => .error f
      | .ok fwd =>
        if fwd.item.1 = key then .ok (.inl a)
        else if fwd.item.1 > key then .ok (.inr node)
        else findScan s key level fuel (.heap a)

/-- The `for` loop of `find`: `n` is `level + 1`, so the loop body runs for
`level = n - 1` down to `0`. -/
def findLevels [LinearOrder K] (s : SkipList K V) (key : K) (fuel : Nat) :
    Nat → NodeRef → Except Fault Iterator
  | 0, _ => .ok ⟨none⟩
  | n + 1, node =>
    match findScan s key n fuel node with
    | .error f => .error f
    | .ok (.inl a) => .ok ⟨some a⟩
    | .ok (.inr node1) => findLevels s key fuel n node1

/-- The conversion of a `size_t` value to `int`: the value modulo `2 ^ 32`,
read as a signed 32-bit number. -/
def toInt (n : Nat) : Int :=
  if n % 2 ^ 32 < 2 ^ 31 then ((n % 2 ^ 32 : Nat) : Int) else ((n % 2 ^ 32 : Nat) : Int) - 2 ^ 32

/-- The initial value of `int level = max_level()-1`: the subtraction is done
in `size_t`, where `0 - 1` wraps to `2 ^ 64 - 1`, and its result is converted
to `int`.  It is negative for `max_level = 0` and, for instance, for
`max_level = 2 ^ 31 + 1`. -/
def topLevel (max_level : Nat) : Int :=
  toInt (if max_level = 0 then 2 ^ 64 - 1 else max_level - 1)

/-- How often the body of `for (int level = max_level()-1; level >= 0; --level)`
runs: `topLevel + 1` times, and not at all when `topLevel` is negative. -/
def loopLevels (max_level : Nat) : Nat := (topLevel max_level + 1).toNat

/-- The member `find(const Key&)`: its `for` loop starts at
`int level = max_level()-1`, so the body runs `loopLevels (max_level s)` times. -/
def find [LinearOrder K] (s : SkipList K V) (key : K) : Except Fault Iterator :=
  findLevels s key (s.heap.length + 1) (loopLevels (max_level s)) .head

/-- The coin-flip loop of `insert`: `while (level+1 < (int)max_level())`, one
`rand()` per iteration.  The result is the final `level` and the number of
calls of `rand()`.  The loop raises `level` only while `level + 1` is below an
`int`, so `level + 1` does not overflow. -/
def levelLoop (max_level : Nat) (rnd : Nat → Nat) : Nat → Nat → Nat → Except Fault (Nat × Nat)
  | 0, _, _ => .error .fuel
  | fuel + 1, level, draws =>
    if (level : Int) + 1 < toInt max_level then
      if rnd draws % 2 = 0 then levelLoop max_level rnd fuel (level + 1) (draws + 1)
      else .ok (level, draws + 1)
    else .ok (level, draws)

/-- `new Node(n)` followed by the assignment of `item`: the node is placed
at the first unused address. -/
def alloc (s : SkipList K V) (n : Nat) (item : K × V) : SkipList K V × Nat :=
  ({ s with heap := s.heap ++ [some { item := item, forwards := List.replicate n none }] },
    s.heap.length)

/-- The two assignments `node->forwards[level] = new_node;` and
`new_node->forwards[level] = fwd;` that link the new node in. -/
def splice (s : SkipList K V) (node : NodeRef) (level : Nat) (new_node : Nat)
    (fwd : Option Nat) : Except Fault (SkipList K V × NodeRef) :=
  match setForward s node level (some new_node) with
  | .error f => .error f
  | .ok s1 =>
    match setForward s1 (.heap new_node) level fwd with
    | .error f => .error f
    | .ok s2 => .ok (s2, node)

/-- The inner `while (true)` loop of `insert` at one level; the result holds
the node at which the loop was left. -/
def insertScan [LinearOrder K] (s : SkipList K V) (key : K) (level : Nat) (new_node : Nat) :
    Nat → NodeRef → Except Fault (SkipList K V × NodeRef)
  | 0, _ => .error .fuel
  | fuel + 1, node =>
    match forward s node level with
    | .error f => .error f
    | .ok none => splice s node level new_node none
    | .ok (some a) =>
      match deref s (.heap a) with
      | .error f => .error f
      | .ok fwd =>
        if fwd.item.1 > key then splice s node level new_node (some a)
        else insertScan s key level new_node fuel (.heap a)

/-- The `for` loop of `insert`: `n` is `level + 1`. -/
def insertLevels [LinearOrder K] (key : K) (new_node : Nat) (fuel : Nat) :
    Nat → SkipList K V → NodeRef → Except Fault (SkipList K V)
  | 0, s, _ => .ok s
  | n + 1, s, node =>
    match insertScan s key n new_node fuel node with
    | .error f => .error f
    | .ok (s1, node1) => insertLevels key new_node fuel n s1 node1

/-- The member `insert(const Key&, V&&)`. -/
def insert [LinearOrder K] (s : SkipList K V) (key : K) (value : V) (rnd : Nat → Nat) :
    Except Fault (SkipList K V × Iterator) :=
  match find s key with
  | .error f => .error f
  | .ok ⟨some a⟩ =>
    match setValue s a value with
    | .error f => .error f
    | .ok s1 => .ok (s1, ⟨some a⟩)
  | .ok ⟨none⟩ =>
    match levelLoop (max_level s) rnd (max_level s + 1) 0 0 with
    | .error f => .error f
    | .ok (level, _) =>
      let (s1, new_node) := alloc s (level + 1) (key, value)
      match insertLevels key new_node (s1.heap.length + 1) (level + 1) s1 .head with
      | .error f => .error f
      | .ok s2 => .ok ({ s2 with _size := (s2._size + 1) % 2 ^ 64 }, ⟨some new_node⟩)

/-- The inner `while` loop of `remove` at one level.  The result holds the
state, the node at which the loop was left, and the node unlinked at this
level, if any. -/
def removeScan [LinearOrder K] (s : SkipList K V) (key : K) (level : Nat) :
    Nat → NodeRef → Except Fault (SkipList K V × NodeRef × Option Nat)
  | 0, _ => .error .fuel
  | fuel + 1, node =>
    match forward s node level with
    | .error f => .error f
    | .ok none => .ok (s, node, none)
    | .ok (some a) =>
      match deref s (.heap a) with
      | .error f => .error f
      | .ok fwd =>
        if fwd.item.1 = key then
          match forward s (.heap a) level with
          | .error f => .error f
          | .ok nxt =>
            match setForward s node level nxt with
            | .error f => .error f
            | .ok s1 => .ok (s1, node, some a)
        else if fwd.item.1 > key then .ok (s, node, none)
        else removeScan s key level fuel (.heap a)

/-- The `for` loop of `remove`: `n` is `level + 1`, `target_node` is the
local variable of that name. -/
def removeLevels [LinearOrder K] (key : K) (fuel : Nat) :
    Nat → SkipList K V → NodeRef → Option Nat → Except Fault (SkipList K V × Option Nat)
  | 0, s, _, target_node => .ok (s, target_node)
  | n + 1, s, node, target_node =>
    match removeScan s key n fuel node with
    | .error f => .error f
    | .ok (s1, node1, some a) => removeLevels key fuel n s1 node1 (some a)
    | .ok (s1, node1, none) => removeLevels key fuel n s1 node1 target_node

/-- The statement `delete p`. -/
def free (s : SkipList K V) (a : Nat) : SkipList K V :=
  { s with heap := s.heap.set a none }

/-- The member `remove(const Key&)`: its `for` loop starts at
`int level = max_level()-1`, so the body runs `loopLevels (max_level s)` times. -/
def remove [LinearOrder K] (s : SkipList K V) (key : K) :
    Except Fault (SkipList K V × Iterator) :=
  match removeLevels key (s.heap.length + 1) (loopLevels (max_level s)) s .head none with
  | .error f => .error f
  | .ok (s1, none) => .ok (s1, ⟨none⟩)
  | .ok (s1, some target_node) =>
    match forward s1 (.heap target_node) 0 with
    | .error f => .error f
    | .ok nxt =>
      let s2 := free s1 target_node
      .ok ({ s2 with _size := (s2._size + 2 ^ 64 - 1) % 2 ^ 64 }, ⟨nxt⟩)

/-- The `while (node)` loop of `clear`.  The body sets the local pointer to
null before `delete node`, so nothing is deleted and no link is written. -/
def clearLoop (s : SkipList K V) : Nat → Option Nat → Except Fault Unit
  | 0, _ => .error .fuel
  | _ + 1, none => .ok ()
  | fuel + 1, some a =>
    match forward s (.heap a) 0 with
    | .error f => .error f
    | .ok fwd => clearLoop s fuel fwd

/-- The member `clear()`. -/
def clear (s : SkipList K V) : Except Fault (SkipList K V) :=
  match forward s .head 0 with
  | .error f => .error f
  | .ok node =>
    match clearLoop s (s.heap.length + 1) node with
    | .error f => .error f
    | .ok _ => .ok { s with _size := 0 }

/-- The member `begin()`. -/
def «begin» (s : SkipList K V) : Except Fault Iterator :=
  match forward s .head 0 with
  | .error f => .error f
  | .ok p => .ok ⟨p⟩

/-- The member `end()`. -/
def «end» (_s : SkipList K V) : Iterator := ⟨none⟩

end SkipList

namespace Iterator

variable {K V : Type}

/-- The conversion `operator bool()`. -/
def toBool (it : Iterator) : Bool := it._node.isSome

/-- The dereference `operator*()`: it throws on a null `_node`. -/
def star (s : SkipList K V) (it : Iterator) : Except Fault (K × V) :=
  match it._node with
  | none => .error .nullAccess
  | some a =>
    match SkipList.deref s (.heap a) with
    | .error f => .error f
    | .ok n => .ok n.item

/-- The increment `operator++()`. -/
def next (s : SkipList K V) (it : Iterator) : Except Fault Iterator :=
  match it._node with
  | none => .ok ⟨none⟩
  | some a =>
    match SkipList.forward s (.heap a) 0 with
    | .error f => .error f
    | .ok p => .ok ⟨p⟩

end Iterator

namespace SkipList

variable {K V : Type}

/-- The loop `for (; it != end(); ++it)` collecting `*it`. -/
def iterate (s : SkipList K V) : Nat → Iterator → Except Fault (List (K × V))
  | 0, _ => .error .fuel
  | fuel + 1, it =>
    if it = «end» s then .ok []
    else
      match it.star s with
      | .error f => .error f
      | .ok x =>
        match it.next s with
        | .error f => .error f
        | .ok it1 =>
          match iterate s fuel it1 with
          | .error f => .error f
          | .ok xs => .ok (x :: xs)

/-- One full iteration `for (auto& kv : sl)`. -/
def toList (s : SkipList K V) : Except Fault (List (K × V)) :=
  match «begin» s with
  | .error f => .error f
  | .ok it => iterate s (s.heap.length + 1) it

/-- The mutable `operator[]`: the result is the state and the address of
the node whose `second` the returned reference designates. -/
def subscript [LinearOrder K] [Inhabited V] (s : SkipList K V) (key : K) (rnd : Nat → Nat) :
    Except Fault (SkipList K V × Nat) :=
  match find s key with
  | .error f => .error f
  | .ok it =>
    let r : Except Fault (SkipList K V × Iterator) :=
      if !it.toBool then insert s key default rnd else .ok (s, it)
    match r with
    | .error f => .error f
    | .ok (s1, it1) =>
      match it1.star s1 with
      | .error f => .error f
      | .ok _ =>
        match it1._node with
        | none => .error .nullAccess
        | some a => .ok (s1, a)

/-- Reading through a reference `Value&` to the `second` of the node at `a`. -/
def readRef (s : SkipList K V) (a : Nat) : Except Fault V :=
  match deref s (.heap a) with
  | .error f => .error f
  | .ok n => .ok n.item.2

/-- An operation of a client program. -/
inductive Op (K V : Type) where
  | insert (key : K) (value : V) (rnd : Nat → Nat)
  | remove (key : K)

/-- One operation applied to a state, its returned iterator dropped. -/
def step [LinearOrder K] (s : SkipList K V) : Op K V → Except Fault (SkipList K V)
  | .insert key value rnd =>
    match insert s key value rnd with
    | .error f => .error f
    | .ok (s1, _) => .ok s1
  | .remove key =>
    match remove s key with
    | .error f => .error f
    | .ok (s1, _) => .ok s1

/-- A sequence of operations applied from a given state. -/
def runFrom [LinearOrder K] : SkipList K V → List (Op K V) → Except Fault (SkipList K V)
  | s, [] => .ok s
  | s, op :: ops =>
    match step s op with
    | .error f => .error f
    | .ok s1 => runFrom s1 ops

/-- A sequence of operations applied to a freshly constructed container. -/
def run [LinearOrder K] [Inhabited K] [Inhabited V] (max_level : Nat) (ops : List (Op K V)) :
    Except Fault (SkipList K V) :=
  runFrom (construct max_level) ops

end SkipList

/-! The abstraction: the entries a state represents -/

/-- An entry of the represented sequence: where the node lives, what it
holds, and how many forward slots it has. -/
structure Entry (K V : Type) where
  addr : Nat
  key : K
  val : V
  height : Nat

namespace SkipList

variable {K V : Type}

/-- The heap holds a live node for the entry. -/
def NodeAt (s : SkipList K V) (e : Entry K V) : Prop :=
  ∃ n, deref s (.heap e.addr) = .ok n ∧ n.item = (e.key, e.val) ∧
    n.forwards.length = e.height

/-- The level-`L` links starting with the pointer `p` run through exactly
the addresses of the list and end in null. -/
def Chain (s : SkipList K V) (L : Nat) : Option Nat → List Nat → Prop
  | p, [] => p = none
  | p, a :: rest => p = some a ∧ ∃ q, forward s (.heap a) L = .ok q ∧ Chain s L q rest

/-- The level-`L` links that leave `node` run through the list. -/
def ChainFrom (s : SkipList K V) (L : Nat) (node : NodeRef) (l : List Nat) : Prop :=
  ∃ p, forward s node L = .ok p ∧ Chain s L p l

/-- The node reached from `node` after walking along the list. -/
def lastRef : NodeRef → List Nat → NodeRef
  | node, [] => node
  | _, a :: rest => lastRef (.heap a) rest

/-- The entries that take part in level `L`. -/
def atLevel (L : Nat) (es : List (Entry K V)) : List (Entry K V) :=
  es.filter (fun e => decide (L < e.height))

/-- The addresses of a list of entries. -/
def addrs (es : List (Entry K V)) : List Nat := es.map (fun e => e.addr)

/-- The pairs of a list of entries. -/
def items (es : List (Entry K V)) : List (K × V) := es.map (fun e => (e.key, e.val))

/-- While an operation is at work: levels `n` and above are already linked
as for `es1`, the levels below `n` are still linked as for `es`. -/
structure Linked [LinearOrder K] (s : SkipList K V) (es es1 : List (Entry K V)) (n : Nat) :
    Prop where
  nodes : ∀ e, e ∈ es ∨ e ∈ es1 →
    NodeAt s e ∧ 1 ≤ e.height ∧ e.height ≤ loopLevels (max_level s)
  low : ∀ L, L < max_level s → L < n → ChainFrom s L .head (addrs (atLevel L es))
  high : ∀ L, L < max_level s → n ≤ L → ChainFrom s L .head (addrs (atLevel L es1))
  reach : 1 ≤ loopLevels (max_level s)

/-- The representation invariant: the state holds the entries `es`, in
strictly increasing key order, linked at every level; the level loops of
`find` and `remove` run at least once, and no node is higher than they reach. -/
structure Rep [LinearOrder K] (s : SkipList K V) (es : List (Entry K V)) : Prop where
  nodes : ∀ e ∈ es, NodeAt s e ∧ 1 ≤ e.height ∧ e.height ≤ loopLevels (max_level s)
  sorted : es.Pairwise (fun a b => a.key < b.key)
  levels : ∀ L, L < max_level s → ChainFrom s L .head (addrs (atLevel L es))
  reach : 1 ≤ loopLevels (max_level s)

/-- Where a descent may stand before the levels below `n` are scanned: at
the head, or at an entry with a smaller key that has a slot at level `n - 1`. -/
def CursorOK [LinearOrder K] (es : List (Entry K V)) (key : K) (n : Nat) (node : NodeRef) :
    Prop :=
  node = .head ∨ ∃ c ∈ es, node = .heap c.addr ∧ c.key < key ∧ n ≤ c.height

/-- The sequence after `insert(key, value)`: the pair takes the place of
an entry with the same key, or its sorted position. -/
def mInsert [LinearOrder K] (key : K) (value : V) (l : List (K × V)) : List (K × V) :=
  l.filter (fun p => decide (p.1 < key)) ++ (key, value) :: l.filter (fun p => decide (key < p.1))

/-- The sequence after `remove(key)`. -/
def mRemove [LinearOrder K] (key : K) (l : List (K × V)) : List (K × V) :=
  l.filter (fun p => decide (p.1 ≠ key))

/-- The sequence a program builds, whatever the random draws. -/
def model [LinearOrder K] : List (Op K V) → List (K × V) → List (K × V)
  | [], l => l
  | .insert key value _ :: ops, l => model ops (mInsert key value l)
  | .remove key :: ops, l => model ops (mRemove key l)

/-- The key an operation works on. -/
def Op.key : Op K V → K
  | .insert key _ _ => key
  | .remove key => key

/-- Assigning through a reference `Value&` to the `second` of the node at `a`. -/
def writeRef (s : SkipList K V) (a : Nat) (value : V) : Except Fault (SkipList K V) :=
  setValue s a value

/-- The program `insert(1, 10); insert(7, 70);` on which theorems are tried;
the second draw gives the node of key `7` two levels. -/
def sampleOps : List (Op Nat Nat) :=
  [Op.insert 1 10 (fun _ => 1), Op.insert 7 70 (fun _ => 0)]

/-- The state `sampleOps` ends in with `max_level = 2`. -/
def sampleState : SkipList Nat Nat :=
  ⟨⟨(0, 0), [some 0, some 1]⟩, 2, [some ⟨(1, 10), [some 1]⟩, some ⟨(7, 70), [none, none]⟩]⟩

/-- The defaulted move constructor `SkipList(SkipList&&)`: every member is
moved.  Moving `_head` moves its `forwards` vector, which leaves the vector
of the source empty; moving the `size_t` member `_size` copies it.  The
result is the new object and the moved-from source, both over the same heap. -/
def moveConstruct (a : SkipList K V) : SkipList K V × SkipList K V :=
  (a, { a with _head := { a._head with forwards := [] } })

/-- The heap holds a live node at address `a`. -/
def Live (s : SkipList K V) (a : Nat) : Prop := ∃ n, deref s (.heap a) = .ok n

/-- A call of a client program, with the random draws left open. -/
inductive Call (K V : Type) where
  | insert (key : K) (value : V)
  | remove (key : K)
  | subscript (key : K)

/-- What a caller sees through a returned iterator: nothing when it is
empty, otherwise the pair it designates. -/
def observe (s : SkipList K V) (it : Iterator) : Except Fault (Option (K × V)) :=
  if it.toBool then
    match it.star s with
    | .error f => .error f
    | .ok p => .ok (some p)
  else .ok none

/-- One call, with the draws `rnd` for its `rand()` calls: the new state
and what the caller sees through the returned iterator (for `operator[]`,
through the returned reference). -/
def call [LinearOrder K] [Inhabited V] (s : SkipList K V) (c : Call K V) (rnd : Nat → Nat) :
    Except Fault (SkipList K V × Option (K × V)) :=
  match c with
  | .insert key value =>
    match insert s key value rnd with
    | .error f => .error f
    | .ok (s1, it) =>
      match observe s1 it with
      | .error f => .error f
      | .ok o => .ok (s1, o)
  | .remove key =>
    match remove s key with
    | .error f => .error f
    | .ok (s1, it) =>
      match observe s1 it with
      | .error f => .error f
      | .ok o => .ok (s1, o)
  | .subscript key =>
    match subscript s key rnd with
    | .error f => .error f
    | .ok (s1, a) =>
      match observe s1 ⟨some a⟩ with
      | .error f => .error f
      | .ok o => .ok (s1, o)

/-- A sequence of calls from a given state; `draws i` are the draws of the
call number `i`.  The result is the last state and what each call returned. -/
def callAll [LinearOrder K] [Inhabited V] (draws : Nat → Nat → Nat) :
    Nat → SkipList K V → List (Call K V) → Except Fault (SkipList K V × List (Option (K × V)))
  | _, s, [] => .ok (s, [])
  | i, s, c :: cs =>
    match call s c (draws i) with
    | .error f => .error f
    | .ok (s1, o) =>
      match callAll draws (i + 1) s1 cs with
      | .error f => .error f
      | .ok (s2, os) => .ok (s2, o :: os)

/-- The sequence after one call and what the call returns, computed from
the sequence before alone. -/
def mCall [LinearOrder K] [Inhabited V] (l : List (K × V)) :
    Call K V → List (K × V) × Option (K × V)
  | .insert key value => (mInsert key value l, some (key, value))
  | .remove key =>
    (mRemove key l,
      if l.any (fun p => decide (p.1 = key)) then
        (l.filter (fun p => decide (key < p.1))).head?
      else none)
  | .subscript key =>
    match l.find? (fun p => decide (p.1 = key)) with
    | some p => (l, some p)
    | none => (mInsert key default l, some (key, default))

/-- The sequence after a list of calls and what they return. -/
def mCallAll [LinearOrder K] [Inhabited V] :
    List (K × V) → List (Call K V) → List (K × V) × List (Option (K × V))
  | l, [] => (l, [])
  | l, c :: cs => ((mCallAll (mCall l c).1 cs).1, (mCall l c).2 :: (mCallAll (mCall l c).1 cs).2)

/-- The invariant of a container whose level loops never run, `topLevel`
being negative: `find` and `remove` scan nothing, and every node has one
forward slot and was linked in at level `0`.  The state holds the entries
`es` in the order of the level-`0` links. -/
structure Flat (s : SkipList K V) (es : List (Entry K V)) : Prop where
  nodes : ∀ e ∈ es, NodeAt s e ∧ e.height = 1
  nodup : (addrs es).Nodup
  chain : ChainFrom s 0 .head (addrs es)
  stuck : loopLevels (max_level s) = 0
  pos : 1 ≤ max_level s

/-- The sequence after `insert(key, value)` in such a container: `find` finds
nothing, so a new pair is linked in before the first entry with a greater
key, whether or not the key is there already. -/
def flatInsert [LinearOrder K] (key : K) (value : V) (l : List (K × V)) : List (K × V) :=
  l.takeWhile (fun p => decide (¬ key < p.1)) ++
    (key, value) :: l.dropWhile (fun p => decide (¬ key < p.1))

/-- The sequence a program builds in such a container: `remove` finds
nothing and leaves the sequence as it is. -/
def flatModel [LinearOrder K] : List (Op K V) → List (K × V) → List (K × V)
  | [], l => l
  | .insert key value _ :: ops, l => flatModel ops (flatInsert key value l)
  | .remove _ :: ops, l => flatModel ops l

/-- The sequence after one call in such a container and what the call returns. -/
def flatCall [LinearOrder K] [Inhabited V] (l : List (K × V)) :
    Call K V → List (K × V) × Option (K × V)
  | .insert key value => (flatInsert key value l, some (key, value))
  | .remove _ => (l, none)
  | .subscript key => (flatInsert key default l, some (key, default))

/-- The sequence after a list of calls in such a container and what they return. -/
def flatCallAll [LinearOrder K] [Inhabited V] :
    List (K × V) → List (Call K V) → List (K × V) × List (Option (K × V))
  | l, [] => (l, [])
  | l, c :: cs =>
    ((flatCallAll (flatCall l c).1 cs).1, (flatCall l c).2 :: (flatCallAll (flatCall l c).1 cs).2)

end SkipList

/-! The conversion to `int` -/

namespace SkipList

theorem toInt_le (n : Nat) : toInt n ≤ (n : Int) := by
  unfold toInt
  split <;> omega

theorem topLevel_pos {m : Nat} (hm : 1 ≤ m) : topLevel m = toInt (m - 1) := by
  unfold topLevel
  rw [if_neg (by omega)]

theorem loopLevels_zero : loopLevels 0 = 0 := by decide

theorem loopLevels_le (m : Nat) : loopLevels m ≤ m := by
  rcases Nat.eq_zero_or_pos m with h | h
  · rw [h, loopLevels_zero]
  · unfold loopLevels
    rw [topLevel_pos h]
    unfold toInt
    split <;> omega

theorem toInt_le_loopLevels (m : Nat) (h : 1 ≤ loopLevels m) :
    toInt m ≤ (loopLevels m : Int) := by
  have hm : 1 ≤ m := le_trans h (loopLevels_le m)
  unfold loopLevels at *
  rw [topLevel_pos hm] at *
  unfold toInt at *
  split at h <;> split <;> omega

theorem toInt_nonpos (m : Nat) (hm : 1 ≤ m) (h : loopLevels m = 0) : toInt m ≤ 0 := by
  unfold loopLevels at *
  rw [topLevel_pos hm] at *
  unfold toInt at *
  split at h <;> split <;> omega

theorem loopLevels_pos_iff (m : Nat) : 1 ≤ loopLevels m ↔ 0 ≤ topLevel m := by
  unfold loopLevels
  omega

/-- Up to `max_level = 2 ^ 31` the level loops run once for every level. -/
theorem loopLevels_small (m : Nat) (h1 : 1 ≤ m) (h : m ≤ 2 ^ 31) : loopLevels m = m := by
  unfold loopLevels
  rw [topLevel_pos h1]
  unfold toInt
  split <;> omega

/-- The initial level is not negative for every `max_level` from `1` to
`2 ^ 31`. -/
theorem topLevel_small (m : Nat) (h1 : 1 ≤ m) (h : m ≤ 2 ^ 31) : 0 ≤ topLevel m := by
  rw [← loopLevels_pos_iff, loopLevels_small m h1 h]
  exact h1

/-- The initial level is negative for `max_level = 2 ^ 31 + 1`: it is then
`-2 ^ 31`, and the level loops do not run. -/
theorem topLevel_wrapped : topLevel (2 ^ 31 + 1) = -2 ^ 31 ∧ loopLevels (2 ^ 31 + 1) = 0 := by
  decide

end SkipList

/-! Reading and writing the heap -/

namespace SkipList

variable {K V : Type}

theorem deref_heap_lt {s : SkipList K V} {a : Nat} {n : Node K V}
    (h : deref s (.heap a) = .ok n) : s.heap[a]? = some (some n) := by
  simp only [deref] at h
  split at h
  · rename_i m hm
    cases h
    exact hm
  · cases h

theorem deref_heap_of_get {s : SkipList K V} {a : Nat} {n : Node K V}
    (h : s.heap[a]? = some (some n)) : deref s (.heap a) = .ok n := by
  unfold deref
  simp [h]

theorem forward_eq_ok {s : SkipList K V} {r : NodeRef} {L : Nat} {p : Option Nat} :
    forward s r L = .ok p ↔ ∃ n, deref s r = .ok n ∧ n.forwards[L]? = some p := by
  unfold forward
  cases hd : deref s r with
  | error f => simp
  | ok n =>
    simp only [Except.ok.injEq, exists_eq_left']
    split
    · rename_i q hq
      rw [hq]
      simp
    · rename_i hq
      rw [hq]
      simp

/-- What a successful write of a forward slot does to the state. -/
theorem setForward_ok {s s1 : SkipList K V} {r : NodeRef} {L : Nat} {p : Option Nat}
    (h : setForward s r L p = .ok s1) :
    ∃ n, deref s r = .ok n ∧ L < n.forwards.length ∧
      deref s1 r = .ok { n with forwards := n.forwards.set L p } ∧
      (∀ r1, r1 ≠ r → deref s1 r1 = deref s r1) ∧
      s1._size = s._size ∧ s1.heap.length = s.heap.length ∧ max_level s1 = max_level s := by
  unfold setForward at h
  cases hd : deref s r with
  | error f => rw [hd] at h; cases h
  | ok n =>
    rw [hd] at h
    simp only at h
    split at h
    · rename_i hL
      refine ⟨n, rfl, hL, ?_⟩
      cases r with
      | head =>
        simp only at h
        cases h
        refine ⟨rfl, ?_, rfl, rfl, ?_⟩
        · intro r1 hr1
          cases r1 with
          | head => exact absurd rfl hr1
          | heap b => rfl
        · simp only [deref] at hd
          cases hd
          simp [max_level]
      | heap a =>
        simp only at h
        cases h
        have hg := deref_heap_lt hd
        have hlt : a < s.heap.length := by
          rcases List.getElem?_eq_some_iff.mp hg with ⟨hlt, -⟩
          exact hlt
        refine ⟨?_, ?_, rfl, ?_, rfl⟩
        · apply deref_heap_of_get
          simp [List.getElem?_set_self hlt]
        · intro r1 hr1
          cases r1 with
          | head => rfl
          | heap b =>
            have hab : a ≠ b := fun e => hr1 (by rw [e])
            simp only [deref]
            rw [List.getElem?_set_ne hab]
        · simp
    · cases h

theorem setForward_total {s : SkipList K V} {r : NodeRef} {L : Nat} {q : Option Nat}
    (h : forward s r L = .ok q) (p : Option Nat) : ∃ s1, setForward s r L p = .ok s1 := by
  rcases forward_eq_ok.mp h with ⟨n, hn, hg⟩
  have hlt : L < n.forwards.length := by
    rcases List.getElem?_eq_some_iff.mp hg with ⟨hlt, -⟩
    exact hlt
  unfold setForward
  rw [hn]
  simp only [hlt, if_true]
  cases r <;> exact ⟨_, rfl⟩

theorem forward_setForward_same {s s1 : SkipList K V} {r : NodeRef} {L : Nat} {p : Option Nat}
    (h : setForward s r L p = .ok s1) : forward s1 r L = .ok p := by
  rcases setForward_ok h with ⟨n, -, hL, hd, -⟩
  apply forward_eq_ok.mpr
  exact ⟨_, hd, by simp [List.getElem?_set_self hL]⟩

theorem forward_setForward_other {s s1 : SkipList K V} {r : NodeRef} {L : Nat} {p : Option Nat}
    (h : setForward s r L p = .ok s1) (r1 : NodeRef) (L1 : Nat) (hne : r1 ≠ r ∨ L1 ≠ L) :
    forward s1 r1 L1 = forward s r1 L1 := by
  rcases setForward_ok h with ⟨n, hn, hL, hd, hoth, -⟩
  by_cases hr : r1 = r
  · subst hr
    have hL1 : L1 ≠ L := by
      rcases hne with h1 | h1
      · exact absurd rfl h1
      · exact h1
    unfold forward
    rw [hd, hn]
    simp only
    rw [List.getElem?_set_ne (Ne.symm hL1)]
  · unfold forward
    rw [hoth r1 hr]

theorem nodeAt_setForward {s s1 : SkipList K V} {r : NodeRef} {L : Nat} {p : Option Nat}
    (h : setForward s r L p = .ok s1) (e : Entry K V) : NodeAt s1 e ↔ NodeAt s e := by
  rcases setForward_ok h with ⟨n, hn, hL, hd, hoth, -⟩
  unfold NodeAt
  by_cases hr : NodeRef.heap e.addr = r
  · rw [hr, hd, hn]
    constructor
    · rintro ⟨m, hm, hi, hl⟩
      cases hm
      exact ⟨n, rfl, hi, by simpa using hl⟩
    · rintro ⟨m, hm, hi, hl⟩
      cases hm
      exact ⟨_, rfl, hi, by simpa using hl⟩
  · rw [hoth _ hr]

end SkipList

/-! Chains of forward links -/

namespace SkipList

variable {K V : Type}

theorem chain_frame {s s1 : SkipList K V} {L : Nat} :
    ∀ (l : List Nat) (p : Option Nat),
      (∀ a ∈ l, forward s1 (.heap a) L = forward s (.heap a) L) →
      Chain s L p l → Chain s1 L p l
  | [], _, _, h => h
  | a :: rest, p, hfr, h => by
    rcases h with ⟨hp, q, hq, hrest⟩
    refine ⟨hp, q, ?_, ?_⟩
    · rw [hfr a (List.mem_cons_self _ _)]
      exact hq
    · exact chain_frame rest q (fun b hb => hfr b (List.mem_cons_of_mem _ hb)) hrest

theorem chainFrom_cons {s : SkipList K V} {L : Nat} {r : NodeRef} {a : Nat} {l : List Nat} :
    ChainFrom s L r (a :: l) ↔ forward s r L = .ok (some a) ∧ ChainFrom s L (.heap a) l := by
  constructor
  · rintro ⟨p, hp, hpa, q, hq, hc⟩
    subst hpa
    exact ⟨hp, q, hq, hc⟩
  · rintro ⟨hp, q, hq, hc⟩
    exact ⟨_, hp, rfl, q, hq, hc⟩

theorem chainFrom_nil {s : SkipList K V} {L : Nat} {r : NodeRef} :
    ChainFrom s L r [] ↔ forward s r L = .ok none := by
  constructor
  · rintro ⟨p, hp, hpa⟩
    cases hpa
    exact hp
  · intro hp
    exact ⟨_, hp, rfl⟩

theorem lastRef_append (r : NodeRef) (x y : List Nat) :
    lastRef r (x ++ y) = lastRef (lastRef r x) y := by
  induction x generalizing r with
  | nil => rfl
  | cons a x ih => exact ih (.heap a)

theorem lastRef_cases (r : NodeRef) (x : List Nat) :
    (x = [] ∧ lastRef r x = r) ∨ ∃ a ∈ x, lastRef r x = .heap a := by
  induction x generalizing r with
  | nil => exact Or.inl ⟨rfl, rfl⟩
  | cons a x ih =>
    right
    rcases ih (.heap a) with ⟨hx, hl⟩ | ⟨b, hb, hl⟩
    · exact ⟨a, List.mem_cons_self _ _, hl⟩
    · exact ⟨b, List.mem_cons_of_mem _ hb, hl⟩

theorem chainFrom_split {s : SkipList K V} {L : Nat} :
    ∀ (x y : List Nat) (r : NodeRef),
      ChainFrom s L r (x ++ y) → ChainFrom s L (lastRef r x) y
  | [], _, _, h => h
  | a :: x, y, r, h => by
    have h1 : ChainFrom s L r (a :: (x ++ y)) := h
    exact chainFrom_split x y (.heap a) (chainFrom_cons.mp h1).2

/-- Changing what the last node of a prefix points to: the prefix stays
linked when no other node of it is written. -/
theorem chainFrom_relink {s s1 : SkipList K V} {L : Nat} :
    ∀ (x y y1 : List Nat) (r : NodeRef),
      (r :: x.map NodeRef.heap).Nodup →
      (∀ q ∈ r :: x.map NodeRef.heap, q ≠ lastRef r x → forward s1 q L = forward s q L) →
      ChainFrom s L r (x ++ y) → ChainFrom s1 L (lastRef r x) y1 →
      ChainFrom s1 L r (x ++ y1)
  | [], _, _, _, _, _, _, h1 => h1
  | a :: x, y, y1, r, hnd, hfr, h, h1 => by
    have h0 : ChainFrom s L r (a :: (x ++ y)) := h
    rcases chainFrom_cons.mp h0 with ⟨hr, hrest⟩
    have hnd1 : (NodeRef.heap a :: x.map NodeRef.heap).Nodup := (List.nodup_cons.mp hnd).2
    have hrne : r ≠ lastRef (.heap a) x := by
      intro e
      have hmem : lastRef (.heap a) x ∈ NodeRef.heap a :: x.map NodeRef.heap := by
        rcases lastRef_cases (.heap a) x with ⟨-, hl⟩ | ⟨b, hb, hl⟩
        · rw [hl]
          exact List.mem_cons_self _ _
        · rw [hl]
          exact List.mem_cons_of_mem _ (List.mem_map_of_mem _ hb)
      rw [← e] at hmem
      exact (List.nodup_cons.mp hnd).1 (by simpa using hmem)
    have ih := chainFrom_relink x y y1 (.heap a) hnd1
      (fun q hq hne => hfr q (List.mem_cons_of_mem _ hq) hne) hrest h1
    show ChainFrom s1 L r (a :: (x ++ y1))
    refine chainFrom_cons.mpr ⟨?_, ih⟩
    rw [hfr r (List.mem_cons_self _ _) hrne]
    exact hr

theorem chainFrom_frame_mem {s s1 : SkipList K V} {L : Nat} {r : NodeRef} {l : List Nat}
    (hr : forward s1 r L = forward s r L)
    (hfr : ∀ a ∈ l, forward s1 (.heap a) L = forward s (.heap a) L) (h : ChainFrom s L r l) :
    ChainFrom s1 L r l := by
  rcases h with ⟨p, hp, hc⟩
  exact ⟨p, by rw [hr]; exact hp, chain_frame l p hfr hc⟩

theorem chainFrom_frame {s s1 : SkipList K V} {L : Nat} {r : NodeRef} {l : List Nat}
    (hfr : ∀ q, forward s1 q L = forward s q L) (h : ChainFrom s L r l) :
    ChainFrom s1 L r l := by
  rcases h with ⟨p, hp, hc⟩
  exact ⟨p, by rw [hfr]; exact hp, chain_frame l p (fun a _ => hfr _) hc⟩

/-! The scans of one level -/

theorem nodeAt_key {s : SkipList K V} {e : Entry K V} (h : NodeAt s e) :
    ∃ n, deref s (.heap e.addr) = .ok n ∧ n.item.1 = e.key := by
  rcases h with ⟨n, hn, hi, -⟩
  exact ⟨n, hn, by rw [hi]⟩

theorem findScan_spec [LinearOrder K] {s : SkipList K V} {key : K} {L : Nat} :
    ∀ (m t : List (Entry K V)) (fuel : Nat) (node : NodeRef),
      (∀ e ∈ m, e.key < key) → (∀ e, t.head? = some e → ¬ e.key < key) →
      ChainFrom s L node (addrs (m ++ t)) → (∀ e ∈ m ++ t, NodeAt s e) →
      m.length < fuel →
      findScan s key L fuel node = .ok
        (match t with
          | [] => .inr (lastRef node (addrs m))
          | e :: _ => if e.key = key then .inl e.addr else .inr (lastRef node (addrs m)))
  | _, _, 0, _, _, _, _, _, hf => absurd hf (Nat.not_lt_zero _)
  | [], [], fuel + 1, node, _, _, hc, _, _ => by
    have hfw : forward s node L = .ok none := chainFrom_nil.mp hc
    simp only [findScan, hfw, addrs, List.map_nil, lastRef]
  | [], e :: t, fuel + 1, node, _, ht, hc, hn, _ => by
    have hc1 : ChainFrom s L node (e.addr :: addrs t) := hc
    have hfw := (chainFrom_cons.mp hc1).1
    rcases nodeAt_key (hn e (by simp)) with ⟨n, hd, hk⟩
    have hnlt : ¬ e.key < key := ht e rfl
    simp only [findScan, hfw, hd, hk, addrs, List.map_nil, lastRef]
    by_cases heq : e.key = key
    · simp [heq]
    · have hgt : e.key > key := lt_of_le_of_ne (not_lt.mp hnlt) (Ne.symm heq)
      simp [heq, hgt]
  | c :: m, t, fuel + 1, node, hm, ht, hc, hn, hf => by
    have hc1 : ChainFrom s L node (c.addr :: addrs (m ++ t)) := hc
    rcases chainFrom_cons.mp hc1 with ⟨hfw, hrest⟩
    rcases nodeAt_key (hn c (by simp)) with ⟨n, hd, hk⟩
    have hlt : c.key < key := hm c (List.mem_cons_self _ _)
    have ih := findScan_spec m t fuel (.heap c.addr)
      (fun e he => hm e (List.mem_cons_of_mem _ he)) ht hrest
      (fun e he => hn e (List.mem_cons_of_mem _ he)) (by simpa using hf)
    simp only [findScan, hfw, hd, hk, ne_of_lt hlt, not_lt_of_gt hlt, if_false, gt_iff_lt]
    rw [ih]
    rfl

end SkipList

namespace SkipList

variable {K V : Type}

theorem chain_head {s : SkipList K V} {L : Nat} {p : Option Nat} {l : List Nat}
    (h : Chain s L p l) : p = l.head? := by
  cases l with
  | nil => exact h
  | cons a l => exact h.1

theorem chainFrom_forward {s : SkipList K V} {L : Nat} {r : NodeRef} {l : List Nat}
    (h : ChainFrom s L r l) : forward s r L = .ok l.head? := by
  rcases h with ⟨p, hp, hc⟩
  rw [hp, chain_head hc]

theorem insertScan_spec [LinearOrder K] {s : SkipList K V} {key : K} {L : Nat} (new_node : Nat) :
    ∀ (m t : List (Entry K V)) (fuel : Nat) (node : NodeRef),
      (∀ e ∈ m, ¬ key < e.key) → (∀ e, t.head? = some e → key < e.key) →
      ChainFrom s L node (addrs (m ++ t)) → (∀ e ∈ m ++ t, NodeAt s e) →
      m.length < fuel →
      insertScan s key L new_node fuel node =
        splice s (lastRef node (addrs m)) L new_node (addrs t).head?
  | _, _, 0, _, _, _, _, _, hf => absurd hf (Nat.not_lt_zero _)
  | [], [], fuel + 1, node, _, _, hc, _, _ => by
    have hfw : forward s node L = .ok none := chainFrom_nil.mp hc
    simp only [insertScan, hfw, addrs, List.map_nil, lastRef, List.head?_nil]
  | [], e :: t, fuel + 1, node, _, ht, hc, hn, _ => by
    have hc1 : ChainFrom s L node (e.addr :: addrs t) := hc
    have hfw := (chainFrom_cons.mp hc1).1
    rcases nodeAt_key (hn e (by simp)) with ⟨n, hd, hk⟩
    have hgt : key < e.key := ht e rfl
    simp only [insertScan, hfw, hd, hk, addrs, List.map_nil, lastRef, gt_iff_lt, hgt, if_true,
      List.map_cons, List.head?_cons]
  | c :: m, t, fuel + 1, node, hm, ht, hc, hn, hf => by
    have hc1 : ChainFrom s L node (c.addr :: addrs (m ++ t)) := hc
    rcases chainFrom_cons.mp hc1 with ⟨hfw, hrest⟩
    rcases nodeAt_key (hn c (by simp)) with ⟨n, hd, hk⟩
    have hle : ¬ key < c.key := hm c (List.mem_cons_self _ _)
    have ih := insertScan_spec new_node m t fuel (.heap c.addr)
      (fun e he => hm e (List.mem_cons_of_mem _ he)) ht hrest
      (fun e he => hn e (List.mem_cons_of_mem _ he)) (by simpa using hf)
    simp only [insertScan, hfw, hd, hk, hle, if_false, gt_iff_lt]
    rw [ih]
    rfl

theorem removeScan_spec [LinearOrder K] {s : SkipList K V} {key : K} {L : Nat} :
    ∀ (m t : List (Entry K V)) (fuel : Nat) (node : NodeRef),
      (∀ e ∈ m, e.key < key) → (∀ e, t.head? = some e → ¬ e.key < key) →
      ChainFrom s L node (addrs (m ++ t)) → (∀ e ∈ m ++ t, NodeAt s e) →
      m.length < fuel →
      removeScan s key L fuel node =
        (match t with
          | [] => .ok (s, lastRef node (addrs m), none)
          | e :: t1 =>
            if e.key = key then
              match setForward s (lastRef node (addrs m)) L (addrs t1).head? with
              | .error f => .error f
              | .ok s1 => .ok (s1, lastRef node (addrs m), some e.addr)
            else .ok (s, lastRef node (addrs m), none))
  | _, _, 0, _, _, _, _, _, hf => absurd hf (Nat.not_lt_zero _)
  | [], [], fuel + 1, node, _, _, hc, _, _ => by
    have hfw : forward s node L = .ok none := chainFrom_nil.mp hc
    simp only [removeScan, hfw, addrs, List.map_nil, lastRef]
  | [], e :: t, fuel + 1, node, _, ht, hc, hn, _ => by
    have hc1 : ChainFrom s L node (e.addr :: addrs t) := hc
    rcases chainFrom_cons.mp hc1 with ⟨hfw, hrest⟩
    have hnx := chainFrom_forward hrest
    rcases nodeAt_key (hn e (by simp)) with ⟨n, hd, hk⟩
    have hnlt : ¬ e.key < key := ht e rfl
    simp only [removeScan, hfw, hd, hk, addrs, List.map_nil, lastRef]
    by_cases heq : e.key = key
    · simp only [heq, if_true]
      have hnx1 : forward s (.heap e.addr) L = .ok (List.map (fun e => e.addr) t).head? := hnx
      rw [hnx1]
    · have hgt : e.key > key := lt_of_le_of_ne (not_lt.mp hnlt) (Ne.symm heq)
      simp [heq, hgt]
  | c :: m, t, fuel + 1, node, hm, ht, hc, hn, hf => by
    have hc1 : ChainFrom s L node (c.addr :: addrs (m ++ t)) := hc
    rcases chainFrom_cons.mp hc1 with ⟨hfw, hrest⟩
    rcases nodeAt_key (hn c (by simp)) with ⟨n, hd, hk⟩
    have hlt : c.key < key := hm c (List.mem_cons_self _ _)
    have ih := removeScan_spec m t fuel (.heap c.addr)
      (fun e he => hm e (List.mem_cons_of_mem _ he)) ht hrest
      (fun e he => hn e (List.mem_cons_of_mem _ he)) (by simpa using hf)
    simp only [removeScan, hfw, hd, hk, ne_of_lt hlt, not_lt_of_gt hlt, if_false, gt_iff_lt]
    rw [ih]
    rfl

end SkipList

/-! Sorted lists of entries -/

namespace SkipList

variable {K V : Type}

theorem sorted_filter_split [LinearOrder K] (key : K) :
    ∀ (l : List (Entry K V)), l.Pairwise (fun a b => a.key < b.key) →
      l = l.filter (fun e => decide (e.key < key)) ++ l.filter (fun e => decide (¬ e.key < key))
  | [], _ => rfl
  | a :: l, hs => by
    rcases List.pairwise_cons.mp hs with ⟨ha, hl⟩
    by_cases hk : a.key < key
    · have ih := sorted_filter_split key l hl
      simp only [List.filter_cons, hk, decide_True, if_true, not_true_eq_false, decide_False,
        Bool.false_eq_true, if_false, List.cons_append]
      rw [← ih]
    · have h1 : l.filter (fun e => decide (e.key < key)) = [] := by
        apply List.filter_eq_nil_iff.mpr
        intro e he
        have := ha e he
        simp only [decide_eq_true_eq, not_lt]
        exact le_trans (not_lt.mp hk) (le_of_lt this)
      have h2 : l.filter (fun e => decide (¬ e.key < key)) = l := by
        apply List.filter_eq_self.mpr
        intro e he
        have := ha e he
        simp only [decide_eq_true_eq, not_lt]
        exact le_trans (not_lt.mp hk) (le_of_lt this)
      simp only [List.filter_cons, hk, decide_False, Bool.false_eq_true, if_false,
        not_false_eq_true, decide_True, if_true, h1, h2, List.nil_append]

theorem sorted_key_inj [LinearOrder K] :
    ∀ (l : List (Entry K V)), l.Pairwise (fun a b => a.key < b.key) →
      ∀ e1 ∈ l, ∀ e2 ∈ l, e1.key = e2.key → e1 = e2
  | [], _, _, h1, _, _, _ => by cases h1
  | a :: l, hs, e1, h1, e2, h2, hk => by
    rcases List.pairwise_cons.mp hs with ⟨ha, hl⟩
    rcases List.mem_cons.mp h1 with rfl | h1
    · rcases List.mem_cons.mp h2 with rfl | h2
      · rfl
      · exact absurd hk (ne_of_lt (ha e2 h2))
    · rcases List.mem_cons.mp h2 with h2 | h2
      · rw [h2] at hk
        exact absurd hk.symm (ne_of_lt (ha e1 h1))
      · exact sorted_key_inj l hl e1 h1 e2 h2 hk

theorem sorted_nodup [LinearOrder K] {l : List (Entry K V)}
    (hs : l.Pairwise (fun a b => a.key < b.key)) : l.Nodup :=
  List.Pairwise.imp (fun {a b} (h : a.key < b.key) => fun e => by
    rw [e] at h
    exact lt_irrefl _ h) hs

theorem nodeAt_addr_key {s : SkipList K V} {e1 e2 : Entry K V} (h1 : NodeAt s e1)
    (h2 : NodeAt s e2) (ha : e1.addr = e2.addr) : e1.key = e2.key := by
  rcases h1 with ⟨n1, hn1, hi1, -⟩
  rcases h2 with ⟨n2, hn2, hi2, -⟩
  rw [ha, hn2] at hn1
  cases hn1
  rw [hi2] at hi1
  exact (congrArg Prod.fst hi1).symm

theorem addrs_nodup [LinearOrder K] {s : SkipList K V} {l : List (Entry K V)}
    (hs : l.Pairwise (fun a b => a.key < b.key)) (hn : ∀ e ∈ l, NodeAt s e) :
    (addrs l).Nodup := by
  unfold addrs
  apply List.Nodup.map_on _ (sorted_nodup hs)
  intro e1 h1 e2 h2 ha
  exact sorted_key_inj l hs e1 h1 e2 h2 (nodeAt_addr_key (hn e1 h1) (hn e2 h2) ha)

theorem atLevel_sublist (L : Nat) (es : List (Entry K V)) : (atLevel L es).Sublist es :=
  List.filter_sublist _

theorem mem_atLevel {L : Nat} {es : List (Entry K V)} {e : Entry K V} :
    e ∈ atLevel L es ↔ e ∈ es ∧ L < e.height := by
  simp [atLevel, List.mem_filter]

theorem addrs_append (x y : List (Entry K V)) : addrs (x ++ y) = addrs x ++ addrs y := by
  simp [addrs]

theorem mem_addrs {a : Nat} {l : List (Entry K V)} : a ∈ addrs l ↔ ∃ e ∈ l, e.addr = a := by
  simp [addrs]

theorem head_nodup_of_addrs {l : List Nat} (h : l.Nodup) :
    (NodeRef.head :: l.map NodeRef.heap).Nodup := by
  refine List.nodup_cons.mpr ⟨by simp, ?_⟩
  exact List.Nodup.map (fun a b e => by cases e; rfl) h

/-- The shape of one level around the place where a descent stands: the
entries up to the cursor, the entries still below the key, and the rest. -/
theorem level_split [LinearOrder K] {es : List (Entry K V)} {key : K} {L : Nat}
    {node : NodeRef} (hs : es.Pairwise (fun a b => a.key < b.key))
    (hc : CursorOK es key (L + 1) node) :
    ∃ d m, atLevel L es = d ++ m ++ (atLevel L es).filter (fun e => decide (¬ e.key < key)) ∧
      (atLevel L es).filter (fun e => decide (e.key < key)) = d ++ m ∧
      node = lastRef .head (addrs d) := by
  have hsl : (atLevel L es).Pairwise (fun a b => a.key < b.key) :=
    List.Pairwise.sublist (atLevel_sublist L es) hs
  have hsplit := sorted_filter_split key (atLevel L es) hsl
  rcases hc with rfl | ⟨c, hc, rfl, hck, hch⟩
  · refine ⟨[], (atLevel L es).filter (fun e => decide (e.key < key)), ?_, rfl, rfl⟩
    simpa using hsplit
  · have hmem : c ∈ (atLevel L es).filter (fun e => decide (e.key < key)) := by
      apply List.mem_filter.mpr
      exact ⟨mem_atLevel.mpr ⟨hc, hch⟩, by simpa using hck⟩
    rcases List.append_of_mem hmem with ⟨d0, m, hdm⟩
    refine ⟨d0 ++ [c], m, ?_, ?_, ?_⟩
    · have h1 : d0 ++ [c] ++ m = d0 ++ c :: m := by simp
      rw [h1, ← hdm]
      exact hsplit
    · rw [hdm]
      simp
    · rw [addrs_append, lastRef_append]
      rfl

end SkipList

/-! The descent of `find` -/

namespace SkipList

variable {K V : Type}

/-- Everything a scan of level `L` needs to know about the links it walks. -/
theorem scan_setup [LinearOrder K] {s : SkipList K V} {es : List (Entry K V)} {key : K}
    {L : Nat} {node : NodeRef} (hs : es.Pairwise (fun a b => a.key < b.key))
    (hn : ∀ e ∈ es, NodeAt s e) (hch : ChainFrom s L .head (addrs (atLevel L es)))
    (hc : CursorOK es key (L + 1) node) :
    ∃ d m T, atLevel L es = d ++ m ++ T ∧
      T = (atLevel L es).filter (fun e => decide (¬ e.key < key)) ∧
      (atLevel L es).filter (fun e => decide (e.key < key)) = d ++ m ∧
      node = lastRef .head (addrs d) ∧
      lastRef node (addrs m) = lastRef .head (addrs (d ++ m)) ∧
      ChainFrom s L node (addrs (m ++ T)) ∧
      (∀ e ∈ m, e.key < key) ∧ (∀ e ∈ T, ¬ e.key < key) ∧
      (∀ e ∈ m ++ T, NodeAt s e) ∧ m.length ≤ es.length ∧
      CursorOK es key L (lastRef node (addrs m)) := by
  rcases level_split hs hc with ⟨d, m, h1, h2, h3⟩
  have hsub : ∀ e ∈ d ++ m, e ∈ es ∧ L < e.height ∧ e.key < key := by
    intro e he
    rw [← h2] at he
    rcases List.mem_filter.mp he with ⟨h4, h5⟩
    exact ⟨(mem_atLevel.mp h4).1, (mem_atLevel.mp h4).2, by simpa using h5⟩
  have hT : ∀ e ∈ (atLevel L es).filter (fun e => decide (¬ e.key < key)),
      e ∈ es ∧ ¬ e.key < key := by
    intro e he
    rcases List.mem_filter.mp he with ⟨h4, h5⟩
    exact ⟨(mem_atLevel.mp h4).1, by simpa using h5⟩
  have hlast : lastRef node (addrs m) = lastRef .head (addrs (d ++ m)) := by
    rw [addrs_append, lastRef_append, ← h3]
  refine ⟨d, m, _, h1, rfl, h2, h3, hlast, ?_, ?_, ?_, ?_, ?_, ?_⟩
  · rw [h1, List.append_assoc, addrs_append] at hch
    rw [h3]
    exact chainFrom_split _ _ _ hch
  · intro e he
    exact (hsub e (List.mem_append_right _ he)).2.2
  · intro e he
    exact (hT e he).2
  · intro e he
    rcases List.mem_append.mp he with h | h
    · exact hn e (hsub e (List.mem_append_right _ h)).1
    · exact hn e (hT e h).1
  · have hl : (d ++ m).length ≤ es.length := by
      rw [← h2]
      exact le_trans (List.length_filter_le _ _) (List.length_filter_le _ _)
    rw [List.length_append] at hl
    omega
  · rw [hlast]
    rcases lastRef_cases .head (addrs (d ++ m)) with ⟨-, hl⟩ | ⟨a, ha, hl⟩
    · exact Or.inl hl
    · rcases mem_addrs.mp ha with ⟨e, he, rfl⟩
      rcases hsub e he with ⟨h4, h5, h6⟩
      exact Or.inr ⟨e, h4, hl, h6, by omega⟩

theorem cursorOK_head [LinearOrder K] (es : List (Entry K V)) (key : K) (n : Nat) :
    CursorOK es key n .head := Or.inl rfl

/-- With the key present, the descent returns the node that holds it. -/
theorem findLevels_found [LinearOrder K] {s : SkipList K V} {es : List (Entry K V)} {key : K}
    {fuel : Nat} (hr : Rep s es) (hf : es.length < fuel) (e0 : Entry K V) (he0 : e0 ∈ es)
    (hk0 : e0.key = key) :
    ∀ (n : Nat) (node : NodeRef), 1 ≤ n → n ≤ max_level s → CursorOK es key n node →
      findLevels s key fuel n node = .ok ⟨some e0.addr⟩
  | 0, _, h1, _, _ => absurd h1 (by omega)
  | L + 1, node, _, hL, hc => by
    rcases scan_setup hr.sorted (fun e he => (hr.nodes e he).1) (hr.levels L (by omega)) hc with
      ⟨d, m, T, h1, hT, h2, h3, hlast, hchain, hm, hTk, hnodes, hlen, hc1⟩
    have hscan := findScan_spec m T fuel node hm
      (fun e he => hTk e (List.mem_of_mem_head? he)) hchain hnodes (by omega)
    have hTs : T.Pairwise (fun a b => a.key < b.key) := by
      rw [hT]
      exact List.Pairwise.sublist
        (List.Sublist.trans (List.filter_sublist _) (atLevel_sublist L es)) hr.sorted
    have hTmem : ∀ e ∈ T, e ∈ atLevel L es := by
      intro e he
      rw [hT] at he
      exact (List.mem_filter.mp he).1
    simp only [findLevels, hscan]
    by_cases hh : L < e0.height
    · have he0T : e0 ∈ T := by
        rw [hT]
        apply List.mem_filter.mpr
        refine ⟨mem_atLevel.mpr ⟨he0, hh⟩, ?_⟩
        simp [hk0]
      cases T with
      | nil => cases he0T
      | cons h T1 =>
        have hhe : h = e0 := by
          rcases List.mem_cons.mp he0T with h4 | h4
          · exact h4.symm
          · have h5 := (List.pairwise_cons.mp hTs).1 e0 h4
            have h6 := hTk h (List.mem_cons_self _ _)
            rw [hk0] at h5
            exact absurd h5 h6
        subst hhe
        simp [hk0]
    · have hL1 : 1 ≤ L := by
        have := (hr.nodes e0 he0).2.1
        omega
      have ih := findLevels_found hr hf e0 he0 hk0 L _ hL1 (by omega) hc1
      cases T with
      | nil => simpa using ih
      | cons h T1 =>
        have hne : h.key ≠ key := by
          intro e
          have hmem := hTmem h (List.mem_cons_self _ _)
          have := sorted_key_inj es hr.sorted h (mem_atLevel.mp hmem).1 e0 he0 (by rw [e, hk0])
          rw [this] at hmem
          exact hh (mem_atLevel.mp hmem).2
        simpa [hne] using ih

/-- With the key absent, the descent returns the null iterator. -/
theorem findLevels_absent [LinearOrder K] {s : SkipList K V} {es : List (Entry K V)} {key : K}
    {fuel : Nat} (hr : Rep s es) (hf : es.length < fuel) (habs : ∀ e ∈ es, e.key ≠ key) :
    ∀ (n : Nat) (node : NodeRef), n ≤ max_level s → CursorOK es key n node →
      findLevels s key fuel n node = .ok ⟨none⟩
  | 0, _, _, _ => rfl
  | L + 1, node, hL, hc => by
    rcases scan_setup hr.sorted (fun e he => (hr.nodes e he).1) (hr.levels L (by omega)) hc with
      ⟨d, m, T, h1, hT, h2, h3, hlast, hchain, hm, hTk, hnodes, hlen, hc1⟩
    have hscan := findScan_spec m T fuel node hm
      (fun e he => hTk e (List.mem_of_mem_head? he)) hchain hnodes (by omega)
    have ih := findLevels_absent hr hf habs L _ (by omega) hc1
    simp only [findLevels, hscan]
    cases T with
    | nil => simpa using ih
    | cons h T1 =>
      have hmem : h ∈ es := by
        have : h ∈ (atLevel L es).filter (fun e => decide (¬ e.key < key)) := by
          rw [← hT]
          exact List.mem_cons_self _ _
        exact (mem_atLevel.mp (List.mem_filter.mp this).1).1
      simpa [habs h hmem] using ih

/-- A represented state holds no more entries than the heap has slots. -/
theorem rep_length_le [LinearOrder K] {s : SkipList K V} {es : List (Entry K V)}
    (hr : Rep s es) : es.length ≤ s.heap.length := by
  have hnd : (addrs es).Nodup := addrs_nodup hr.sorted (fun e he => (hr.nodes e he).1)
  have hlt : ∀ a ∈ addrs es, a ∈ List.range s.heap.length := by
    intro a ha
    rcases mem_addrs.mp ha with ⟨e, he, rfl⟩
    rcases (hr.nodes e he).1 with ⟨n, hn, -⟩
    have := deref_heap_lt hn
    rcases List.getElem?_eq_some_iff.mp this with ⟨hlt, -⟩
    exact List.mem_range.mpr hlt
  have h1 := (List.subperm_of_subset hnd hlt).length_le
  simpa [addrs] using h1

theorem find_found [LinearOrder K] {s : SkipList K V} {es : List (Entry K V)} {key : K}
    (hr : Rep s es) (_hml : 1 ≤ max_level s) (e0 : Entry K V) (he0 : e0 ∈ es)
    (hk0 : e0.key = key) : find s key = .ok ⟨some e0.addr⟩ :=
  findLevels_found hr (Nat.lt_succ_of_le (rep_length_le hr)) e0 he0 hk0
    (loopLevels (max_level s)) .head hr.reach (loopLevels_le _) (cursorOK_head _ _ _)

theorem find_absent [LinearOrder K] {s : SkipList K V} {es : List (Entry K V)} {key : K}
    (hr : Rep s es) (habs : ∀ e ∈ es, e.key ≠ key) : find s key = .ok ⟨none⟩ :=
  findLevels_absent hr (Nat.lt_succ_of_le (rep_length_le hr)) habs
    (loopLevels (max_level s)) .head (loopLevels_le _) (cursorOK_head _ _ _)

end SkipList

/-! Iteration over a represented state -/

namespace SkipList

variable {K V : Type}

theorem atLevel_zero [LinearOrder K] {s : SkipList K V} {es : List (Entry K V)}
    (hr : Rep s es) : atLevel 0 es = es := by
  apply List.filter_eq_self.mpr
  intro e he
  have := (hr.nodes e he).2.1
  simp only [decide_eq_true_eq]
  omega

theorem iterate_chain {s : SkipList K V} :
    ∀ (l : List (Entry K V)) (fuel : Nat) (p : Option Nat),
      Chain s 0 p (addrs l) → (∀ e ∈ l, NodeAt s e) → l.length < fuel →
      iterate s fuel ⟨p⟩ = .ok (items l)
  | _, 0, _, _, _, hf => absurd hf (Nat.not_lt_zero _)
  | [], fuel + 1, p, hc, _, _ => by
    have hp : p = none := hc
    subst hp
    simp [iterate, «end», items]
  | e :: l, fuel + 1, p, hc, hn, hf => by
    have hc1 : Chain s 0 p (e.addr :: addrs l) := hc
    rcases hc1 with ⟨hp, q, hq, hrest⟩
    subst hp
    rcases hn e (List.mem_cons_self _ _) with ⟨n, hd, hi, -⟩
    have ih := iterate_chain l fuel q hrest (fun x hx => hn x (List.mem_cons_of_mem _ hx))
      (by simpa using hf)
    have hne : (⟨some e.addr⟩ : Iterator) ≠ «end» s := by
      intro h
      cases h
    simp only [iterate, hne, if_false, Iterator.star, hd, Iterator.next, hq, ih, hi, items,
      List.map_cons]

theorem toList_rep [LinearOrder K] {s : SkipList K V} {es : List (Entry K V)}
    (hr : Rep s es) (hml : 1 ≤ max_level s) : toList s = .ok (items es) := by
  rcases hr.levels 0 (by omega) with ⟨p, hp, hc⟩
  rw [atLevel_zero hr] at hc
  have h1 := iterate_chain es (s.heap.length + 1) p hc (fun e he => (hr.nodes e he).1)
    (Nat.lt_succ_of_le (rep_length_le hr))
  simp only [toList, «begin», hp, h1]

end SkipList

/-! Linking a new node in at one level -/

namespace SkipList

variable {K V : Type}

theorem forward_of_nodeAt {s : SkipList K V} {e : Entry K V} {L : Nat} (h : NodeAt s e)
    (hL : L < e.height) : ∃ q, forward s (.heap e.addr) L = .ok q := by
  rcases h with ⟨n, hn, -, hl⟩
  have hlt : L < n.forwards.length := by omega
  exact ⟨n.forwards[L], forward_eq_ok.mpr ⟨n, hn, List.getElem?_eq_getElem hlt⟩⟩

theorem splice_ok {s : SkipList K V} {node : NodeRef} {L new_node : Nat} {q0 q1 : Option Nat}
    (h0 : forward s node L = .ok q0) (h1 : forward s (.heap new_node) L = .ok q1)
    (hne : node ≠ .heap new_node) (fwd : Option Nat) :
    ∃ s2, splice s node L new_node fwd = .ok (s2, node) ∧
      forward s2 node L = .ok (some new_node) ∧
      forward s2 (.heap new_node) L = .ok fwd ∧
      (∀ q L1, (q ≠ node ∧ q ≠ .heap new_node) ∨ L1 ≠ L → forward s2 q L1 = forward s q L1) ∧
      (∀ e, NodeAt s2 e ↔ NodeAt s e) ∧
      s2._size = s._size ∧ s2.heap.length = s.heap.length ∧ max_level s2 = max_level s := by
  rcases setForward_total h0 (some new_node) with ⟨s1, hs1⟩
  have h1a : forward s1 (.heap new_node) L = .ok q1 := by
    rw [forward_setForward_other hs1 _ _ (Or.inl (Ne.symm hne))]
    exact h1
  rcases setForward_total h1a fwd with ⟨s2, hs2⟩
  rcases setForward_ok hs1 with ⟨-, -, -, -, -, ha1, hb1, hc1⟩
  rcases setForward_ok hs2 with ⟨-, -, -, -, -, ha2, hb2, hc2⟩
  refine ⟨s2, ?_, ?_, forward_setForward_same hs2, ?_, ?_, ?_, ?_, ?_⟩
  · simp only [splice, hs1, hs2]
  · rw [forward_setForward_other hs2 _ _ (Or.inl hne)]
    exact forward_setForward_same hs1
  · intro q L1 hq
    rcases hq with ⟨hq1, hq2⟩ | hL1
    · rw [forward_setForward_other hs2 _ _ (Or.inl hq2),
        forward_setForward_other hs1 _ _ (Or.inl hq1)]
    · rw [forward_setForward_other hs2 _ _ (Or.inr hL1),
        forward_setForward_other hs1 _ _ (Or.inr hL1)]
  · intro e
    rw [nodeAt_setForward hs2, nodeAt_setForward hs1]
  · rw [ha2, ha1]
  · rw [hb2, hb1]
  · rw [hc2, hc1]

theorem atLevel_filter (L : Nat) (p : Entry K V → Bool) (es : List (Entry K V)) :
    atLevel L (es.filter p) = (atLevel L es).filter p := by
  simp only [atLevel, List.filter_filter]
  congr 1
  funext e
  exact Bool.and_comm _ _

theorem atLevel_append (L : Nat) (x y : List (Entry K V)) :
    atLevel L (x ++ y) = atLevel L x ++ atLevel L y := by
  simp [atLevel]

theorem atLevel_cons_pos {L : Nat} {e : Entry K V} (h : L < e.height) (x : List (Entry K V)) :
    atLevel L (e :: x) = e :: atLevel L x := by
  simp [atLevel, List.filter_cons, h]

theorem atLevel_cons_neg {L : Nat} {e : Entry K V} (h : ¬ L < e.height)
    (x : List (Entry K V)) : atLevel L (e :: x) = atLevel L x := by
  simp [atLevel, List.filter_cons, h]

theorem filter_above_eq [LinearOrder K] {key : K} {l : List (Entry K V)}
    (habs : ∀ e ∈ l, e.key ≠ key) :
    l.filter (fun e => decide (key < e.key)) = l.filter (fun e => decide (¬ e.key < key)) := by
  apply List.filter_congr
  intro e he
  have hne := habs e he
  by_cases h : key < e.key
  · simp [h, not_lt_of_gt h]
  · have : e.key < key := lt_of_le_of_ne (not_lt.mp h) hne
    simp [h, this]

/-- The cursor of a descent is a node other than any node that lies beyond
the entries below the key. -/
theorem cursor_ne_of_mem [LinearOrder K] {s : SkipList K V} {l : List (Entry K V)}
    {x : List (Entry K V)} {e : Entry K V}
    (hs : l.Pairwise (fun a b => a.key < b.key)) (hn : ∀ e ∈ l, NodeAt s e)
    (hx : ∀ c ∈ x, c ∈ l) (he : e ∈ l) (hex : e ∉ x) :
    lastRef .head (addrs x) ≠ .heap e.addr := by
  rcases lastRef_cases .head (addrs x) with ⟨-, hl⟩ | ⟨a, ha, hl⟩
  · rw [hl]
    intro h
    cases h
  · rw [hl]
    intro h
    cases h
    rcases mem_addrs.mp ha with ⟨c, hc, hca⟩
    have hk := nodeAt_addr_key (hn c (hx c hc)) (hn e he) hca
    have := sorted_key_inj l hs c (hx c hc) e he hk
    rw [this] at hc
    exact hex hc

end SkipList

namespace SkipList

variable {K V : Type}

/-- One turn of the `for` loop of `insert`: the new node is linked in at
level `L`, every other level keeps its links. -/
theorem insert_level [LinearOrder K] {s : SkipList K V} {es es1 : List (Entry K V)} {key : K}
    {L : Nat} {node : NodeRef} {e1 : Entry K V} (hlk : Linked s es es1 (L + 1))
    (hs : es.Pairwise (fun a b => a.key < b.key)) (habs : ∀ e ∈ es, e.key ≠ key)
    (hes1 : es1 = es.filter (fun e => decide (e.key < key)) ++
      e1 :: es.filter (fun e => decide (key < e.key)))
    (hfresh : ∀ e ∈ es, e.addr ≠ e1.addr) (hL : L < e1.height)
    (hc : CursorOK es key (L + 1) node) (fuel : Nat) (hf : es.length < fuel) :
    ∃ s2 node1, insertScan s key L e1.addr fuel node = .ok (s2, node1) ∧
      Linked s2 es es1 L ∧ CursorOK es key L node1 ∧
      s2._size = s._size ∧ s2.heap.length = s.heap.length ∧ max_level s2 = max_level s := by
  have he1 : e1 ∈ es1 := by
    rw [hes1]
    simp
  have hne1 : NodeAt s e1 := (hlk.nodes e1 (Or.inr he1)).1
  have hLm : L < max_level s :=
    lt_of_lt_of_le hL (le_trans (hlk.nodes e1 (Or.inr he1)).2.2 (loopLevels_le _))
  have hnodes_es : ∀ e ∈ es, NodeAt s e := fun e he => (hlk.nodes e (Or.inl he)).1
  rcases scan_setup hs hnodes_es (hlk.low L hLm (by omega)) hc with
    ⟨d, m, T, h1, hT, h2, h3, hlast, hchain, hm, hTk, hnodes, hlen, hc1⟩
  have hTes : ∀ e ∈ T, e ∈ es := by
    intro e he
    rw [hT] at he
    exact (mem_atLevel.mp (List.mem_filter.mp he).1).1
  have hdm : ∀ e ∈ d ++ m, e ∈ es ∧ e.key < key := by
    intro e he
    rw [← h2] at he
    rcases List.mem_filter.mp he with ⟨h4, h5⟩
    exact ⟨(mem_atLevel.mp h4).1, by simpa using h5⟩
  have hscan := insertScan_spec e1.addr m T fuel node (fun e he => not_lt_of_gt (hm e he))
    (fun e he => by
      have h4 := List.mem_of_mem_head? he
      exact lt_of_le_of_ne (not_lt.mp (hTk e h4)) (Ne.symm (habs e (hTes e h4))))
    hchain hnodes (by omega)
  have hcur : ChainFrom s L (lastRef node (addrs m)) (addrs T) := by
    rw [addrs_append] at hchain
    exact chainFrom_split _ _ _ hchain
  rcases hcur with ⟨p0, hp0, hcT⟩
  have hp0eq : p0 = (addrs T).head? := chain_head hcT
  rcases forward_of_nodeAt hne1 hL with ⟨q1, hq1⟩
  have hcne : lastRef node (addrs m) ≠ .heap e1.addr := by
    rcases hc1 with h | ⟨c, hc, h, -, -⟩
    · rw [h]
      intro e
      cases e
    · rw [h]
      intro e
      exact hfresh c hc (NodeRef.heap.inj e)
  rcases splice_ok hp0 hq1 hcne (addrs T).head? with
    ⟨s2, hsp, hf1, hf2, hfr, hna, hsz, hhl, hml⟩
  refine ⟨s2, lastRef node (addrs m), by rw [hscan, hsp], ?_, hc1, hsz, hhl, hml⟩
  constructor
  · intro e he
    rw [hna, hml]
    exact hlk.nodes e he
  · intro L1 hL1 hlt
    rw [hml] at hL1
    exact chainFrom_frame (fun q => hfr q L1 (Or.inr (by omega))) (hlk.low L1 hL1 (by omega))
  · intro L1 hL1 hge
    rw [hml] at hL1
    by_cases hLL : L1 = L
    · subst hLL
      have hshape : atLevel L1 es1 = (d ++ m) ++ e1 :: T := by
        rw [hes1, atLevel_append, atLevel_cons_pos hL, atLevel_filter, atLevel_filter, h2,
          filter_above_eq (fun e he => habs e (mem_atLevel.mp he).1), ← hT]
      rw [hshape, addrs_append]
      have hsdm : (d ++ m).Pairwise (fun a b => a.key < b.key) := by
        rw [← h2]
        exact List.Pairwise.sublist
          (List.Sublist.trans (List.filter_sublist _) (atLevel_sublist L1 es)) hs
      have hnd := head_nodup_of_addrs
        (addrs_nodup hsdm (fun e he => hnodes_es e (hdm e he).1))
      apply chainFrom_relink (addrs (d ++ m)) (addrs T) (addrs (e1 :: T)) .head hnd
      · intro q hq hqne
        apply hfr q L1 (Or.inl ⟨?_, ?_⟩)
        · rw [hlast]
          exact hqne
        · rcases List.mem_cons.mp hq with h | h
          · rw [h]
            intro e
            cases e
          · rcases List.mem_map.mp h with ⟨a, ha, rfl⟩
            rcases mem_addrs.mp ha with ⟨c, hc, rfl⟩
            intro e
            exact hfresh c (hdm c hc).1 (NodeRef.heap.inj e)
      · have := hlk.low L1 hLm (by omega)
        rw [h1, addrs_append] at this
        exact this
      · rw [← hlast]
        show ChainFrom s2 L1 (lastRef node (addrs m)) (e1.addr :: addrs T)
        refine chainFrom_cons.mpr ⟨hf1, _, hf2, ?_⟩
        rw [← hp0eq]
        apply chain_frame (addrs T) p0 _ hcT
        intro a ha
        rcases mem_addrs.mp ha with ⟨e, he, rfl⟩
        apply hfr _ L1 (Or.inl ⟨?_, ?_⟩)
        · rw [hlast]
          refine Ne.symm (cursor_ne_of_mem hs hnodes_es (fun c hc => (hdm c hc).1) (hTes e he) ?_)
          intro hmem
          exact hTk e he (hdm e hmem).2
        · intro h
          exact hfresh e (hTes e he) (NodeRef.heap.inj h)
    · exact chainFrom_frame (fun q => hfr q L1 (Or.inr hLL)) (hlk.high L1 hL1 (by omega))
  · rw [hml]
    exact hlk.reach

/-- The `for` loop of `insert` links the new node in at every level below
its height. -/
theorem insertLevels_spec [LinearOrder K] {es es1 : List (Entry K V)} {key : K}
    {e1 : Entry K V} (hs : es.Pairwise (fun a b => a.key < b.key))
    (habs : ∀ e ∈ es, e.key ≠ key)
    (hes1 : es1 = es.filter (fun e => decide (e.key < key)) ++
      e1 :: es.filter (fun e => decide (key < e.key)))
    (hfresh : ∀ e ∈ es, e.addr ≠ e1.addr) (fuel : Nat) (hf : es.length < fuel) :
    ∀ (n : Nat) (s : SkipList K V) (node : NodeRef), n ≤ e1.height → Linked s es es1 n →
      CursorOK es key n node →
      ∃ s2, insertLevels key e1.addr fuel n s node = .ok s2 ∧ Linked s2 es es1 0 ∧
        s2._size = s._size ∧ s2.heap.length = s.heap.length ∧ max_level s2 = max_level s
  | 0, s, _, _, hlk, _ => ⟨s, rfl, hlk, rfl, rfl, rfl⟩
  | L + 1, s, node, hn, hlk, hc => by
    rcases insert_level hlk hs habs hes1 hfresh (by omega) hc fuel hf with
      ⟨s1, node1, hscan, hlk1, hc1, hsz, hhl, hml⟩
    rcases insertLevels_spec hs habs hes1 hfresh fuel hf L s1 node1 (by omega) hlk1 hc1 with
      ⟨s2, hrun, hlk2, hsz2, hhl2, hml2⟩
    refine ⟨s2, ?_, hlk2, by rw [hsz2, hsz], by rw [hhl2, hhl], by rw [hml2, hml]⟩
    simp only [insertLevels, hscan, hrun]

end SkipList

/-! The whole of `insert` -/

namespace SkipList

variable {K V : Type}

/-- The coin-flip loop returns a level below `max_level` after at most
`max_level - 1` calls of `rand()`; a level it has raised is below
`(int)max_level()`. -/
theorem levelLoop_spec (ml : Nat) (rnd : Nat → Nat) :
    ∀ (fuel level : Nat), level + 1 ≤ ml → ml - level ≤ fuel →
      ∃ l d, levelLoop ml rnd fuel level level = .ok (l, d) ∧ level ≤ l ∧ l + 1 ≤ ml ∧
        d ≤ ml - 1 ∧ l ≤ d ∧ (l = level ∨ (l : Int) + 1 ≤ toInt ml)
  | 0, level, h1, h2 => absurd h2 (by omega)
  | fuel + 1, level, h1, h2 => by
    have hle := toInt_le ml
    by_cases hlt : (level : Int) + 1 < toInt ml
    · by_cases hr : rnd level % 2 = 0
      · rcases levelLoop_spec ml rnd fuel (level + 1) (by omega) (by omega) with
          ⟨l, d, h, h3, h4, h5, h6, h7⟩
        refine ⟨l, d, by simp only [levelLoop, hlt, hr, if_true, h], by omega, h4, h5, h6,
          Or.inr ?_⟩
        rcases h7 with h7 | h7
        · omega
        · exact h7
      · exact ⟨level, level + 1, by simp only [levelLoop, hlt, hr, if_true, if_false],
          le_refl _, h1, by omega, by omega, Or.inl rfl⟩
    · exact ⟨level, level, by simp only [levelLoop, hlt, if_false], le_refl _, h1, by omega,
        le_refl _, Or.inl rfl⟩

/-- With `(int)max_level()` not positive the loop stops at once, without a
call of `rand()`. -/
theorem levelLoop_flat (ml : Nat) (rnd : Nat → Nat) (fuel : Nat) (h : toInt ml ≤ 0) :
    levelLoop ml rnd (fuel + 1) 0 0 = .ok (0, 0) := by
  have hlt : ¬ ((0 : Nat) : Int) + 1 < toInt ml := by omega
  simp only [levelLoop, hlt, if_false]

theorem deref_alloc_new (s : SkipList K V) (h : Nat) (item : K × V) :
    deref (alloc s h item).1 (.heap s.heap.length) =
      .ok { item := item, forwards := List.replicate h none } := by
  apply deref_heap_of_get
  simp [alloc]

theorem deref_alloc_old (s : SkipList K V) (h : Nat) (item : K × V) (r : NodeRef)
    (hr : r ≠ .heap s.heap.length) : deref (alloc s h item).1 r = deref s r := by
  cases r with
  | head => rfl
  | heap a =>
    have ha : a ≠ s.heap.length := fun e => hr (by rw [e])
    simp only [deref, alloc]
    rcases Nat.lt_or_gt_of_ne ha with hlt | hgt
    · rw [List.getElem?_append_left hlt]
    · rw [List.getElem?_eq_none (by simp; omega), List.getElem?_eq_none (by omega)]

theorem forward_congr {s s1 : SkipList K V} {r : NodeRef} (h : deref s1 r = deref s r)
    (L : Nat) : forward s1 r L = forward s r L := by
  unfold forward
  rw [h]

theorem max_level_congr {s s1 : SkipList K V} (h : deref s1 .head = deref s .head) :
    max_level s1 = max_level s := by
  simp only [deref, Except.ok.injEq] at h
  unfold max_level
  rw [h]

theorem nodeAt_congr {s s1 : SkipList K V} {e : Entry K V}
    (h : deref s1 (.heap e.addr) = deref s (.heap e.addr)) : NodeAt s1 e ↔ NodeAt s e := by
  unfold NodeAt
  rw [h]

theorem nodeAt_addr_lt {s : SkipList K V} {e : Entry K V} (h : NodeAt s e) :
    e.addr < s.heap.length := by
  rcases h with ⟨n, hn, -⟩
  rcases List.getElem?_eq_some_iff.mp (deref_heap_lt hn) with ⟨hlt, -⟩
  exact hlt

/-- A state that reads like a represented state represents the same entries. -/
theorem rep_congr [LinearOrder K] {s s1 : SkipList K V} {es : List (Entry K V)}
    (h : ∀ r, deref s1 r = deref s r) (hr : Rep s es) : Rep s1 es := by
  have hml := max_level_congr (h .head)
  constructor
  · intro e he
    rw [nodeAt_congr (h _), hml]
    exact hr.nodes e he
  · exact hr.sorted
  · intro L hL
    rw [hml] at hL
    exact chainFrom_frame (fun q => forward_congr (h q) L) (hr.levels L hL)
  · rw [hml]
    exact hr.reach

theorem sorted_insert [LinearOrder K] {es : List (Entry K V)} {key : K} (e1 : Entry K V)
    (hs : es.Pairwise (fun a b => a.key < b.key)) (hk : e1.key = key) :
    (es.filter (fun e => decide (e.key < key)) ++
      e1 :: es.filter (fun e => decide (key < e.key))).Pairwise (fun a b => a.key < b.key) := by
  apply List.pairwise_append.mpr
  refine ⟨List.Pairwise.filter _ hs, ?_, ?_⟩
  · apply List.pairwise_cons.mpr
    refine ⟨?_, List.Pairwise.filter _ hs⟩
    intro b hb
    rw [hk]
    simpa using (List.mem_filter.mp hb).2
  · intro a ha b hb
    have h1 : a.key < key := by simpa using (List.mem_filter.mp ha).2
    rcases List.mem_cons.mp hb with h | h
    · rw [h, hk]
      exact h1
    · have h2 : key < b.key := by simpa using (List.mem_filter.mp h).2
      exact lt_trans h1 h2

theorem sorted_split_absent [LinearOrder K] {es : List (Entry K V)} {key : K}
    (hs : es.Pairwise (fun a b => a.key < b.key)) (habs : ∀ e ∈ es, e.key ≠ key) :
    es = es.filter (fun e => decide (e.key < key)) ++
      es.filter (fun e => decide (key < e.key)) := by
  rw [filter_above_eq habs]
  exact sorted_filter_split key es hs

theorem rep_of_linked [LinearOrder K] {s : SkipList K V} {es es1 : List (Entry K V)}
    (h : Linked s es es1 0) (hs : es1.Pairwise (fun a b => a.key < b.key)) : Rep s es1 :=
  ⟨fun e he => h.nodes e (Or.inr he), hs, fun L hL => h.high L hL (Nat.zero_le _), h.reach⟩

/-- Inserting an absent key: the new entry takes its sorted position. -/
theorem insert_absent [LinearOrder K] {s : SkipList K V} {es : List (Entry K V)} {key : K}
    (hr : Rep s es) (hml : 1 ≤ max_level s) (habs : ∀ e ∈ es, e.key ≠ key) (value : V)
    (rnd : Nat → Nat) :
    ∃ s2 l d, levelLoop (max_level s) rnd (max_level s + 1) 0 0 = .ok (l, d) ∧
      l + 1 ≤ max_level s ∧ d ≤ max_level s - 1 ∧
      insert s key value rnd = .ok (s2, ⟨some s.heap.length⟩) ∧
      Rep s2 (es.filter (fun e => decide (e.key < key)) ++
        ⟨s.heap.length, key, value, l + 1⟩ :: es.filter (fun e => decide (key < e.key))) ∧
      s2._size = (s._size + 1) % 2 ^ 64 ∧ max_level s2 = max_level s := by
  have hfind := find_absent hr habs
  rcases levelLoop_spec (max_level s) rnd (max_level s + 1) 0 hml (by omega) with
    ⟨l, d, hloop, -, hl, hd, -, hcap⟩
  have hlr : l + 1 ≤ loopLevels (max_level s) := by
    have h1 := hr.reach
    have h2 := toInt_le_loopLevels (max_level s) h1
    omega
  let e1 : Entry K V := ⟨s.heap.length, key, value, l + 1⟩
  let es1 := es.filter (fun e => decide (e.key < key)) ++
    e1 :: es.filter (fun e => decide (key < e.key))
  have hfresh : ∀ e ∈ es, e.addr ≠ e1.addr := by
    intro e he
    exact ne_of_lt (nodeAt_addr_lt (hr.nodes e he).1)
  have hold : ∀ e ∈ es, deref (alloc s (l + 1) (key, value)).1 (.heap e.addr) =
      deref s (.heap e.addr) := by
    intro e he
    apply deref_alloc_old
    intro h
    exact hfresh e he (NodeRef.heap.inj h)
  have hmem1 : ∀ e ∈ es1, e = e1 ∨ e ∈ es := by
    intro e he
    rcases List.mem_append.mp he with h | h
    · exact Or.inr (List.mem_filter.mp h).1
    · rcases List.mem_cons.mp h with h | h
      · exact Or.inl h
      · exact Or.inr (List.mem_filter.mp h).1
  have hmlA : max_level (alloc s (l + 1) (key, value)).1 = max_level s := rfl
  have hframe : ∀ L, ChainFrom s L .head (addrs (atLevel L es)) →
      ChainFrom (alloc s (l + 1) (key, value)).1 L .head (addrs (atLevel L es)) := by
    intro L hch
    apply chainFrom_frame_mem (forward_congr (deref_alloc_old s _ _ _ (by simp)) L) _ hch
    intro a ha
    rcases mem_addrs.mp ha with ⟨e, he, rfl⟩
    exact forward_congr (hold e (mem_atLevel.mp he).1) L
  have hlk : Linked (alloc s (l + 1) (key, value)).1 es es1 (l + 1) := by
    constructor
    · intro e he
      have hcases : e = e1 ∨ e ∈ es := by
        rcases he with h | h
        · exact Or.inr h
        · exact hmem1 e h
      rcases hcases with h | h
      · rw [h, hmlA]
        refine ⟨⟨_, deref_alloc_new s (l + 1) (key, value), rfl, by simp⟩, ?_, hlr⟩
        show 1 ≤ l + 1
        omega
      · rw [nodeAt_congr (hold e h), hmlA]
        exact hr.nodes e h
    · intro L hL _
      exact hframe L (hr.levels L hL)
    · intro L hL hge
      have hshape : atLevel L es1 = atLevel L es := by
        have hnot : ¬ L < e1.height := by
          show ¬ L < l + 1
          omega
        show atLevel L (es.filter (fun e => decide (e.key < key)) ++
          e1 :: es.filter (fun e => decide (key < e.key))) = atLevel L es
        rw [atLevel_append, atLevel_cons_neg hnot, ← atLevel_append, ← sorted_split_absent
          hr.sorted habs]
      rw [hshape]
      exact hframe L (hr.levels L hL)
    · rw [hmlA]
      exact hr.reach
  rcases insertLevels_spec hr.sorted habs rfl hfresh (s.heap.length + 1 + 1)
      (by have := rep_length_le hr; omega) (l + 1) _ .head (le_refl _) hlk
      (cursorOK_head _ _ _) with ⟨s2, hrun, hlk2, hsz, hhl, hml2⟩
  have hrep : Rep s2 es1 := rep_of_linked hlk2 (sorted_insert e1 hr.sorted rfl)
  refine ⟨{ s2 with _size := (s2._size + 1) % 2 ^ 64 }, l, d, hloop, hl, hd, ?_, ?_, ?_, ?_⟩
  · have hlen : (alloc s (l + 1) (key, value)).1.heap.length = s.heap.length + 1 := by
      simp [alloc]
    have hrun1 : insertLevels key (alloc s (l + 1) (key, value)).2 (s.heap.length + 1 + 1)
        (l + 1) (alloc s (l + 1) (key, value)).1 .head = .ok s2 := hrun
    simp only [insert, hfind, hloop, hlen, hrun1]
    rfl
  · exact rep_congr (fun r => by cases r <;> rfl) hrep
  · show (s2._size + 1) % 2 ^ 64 = (s._size + 1) % 2 ^ 64
    rw [hsz]
    rfl
  · exact hml2

end SkipList

namespace SkipList

variable {K V : Type}

theorem sorted_split_mem [LinearOrder K] :
    ∀ (l : List (Entry K V)), l.Pairwise (fun a b => a.key < b.key) → ∀ e0 ∈ l,
      l = l.filter (fun e => decide (e.key < e0.key)) ++
        e0 :: l.filter (fun e => decide (e0.key < e.key))
  | [], _, _, h => by cases h
  | a :: l, hs, e0, h0 => by
    rcases List.pairwise_cons.mp hs with ⟨ha, hl⟩
    rcases List.mem_cons.mp h0 with h | h
    · subst h
      have h1 : l.filter (fun e => decide (e.key < e0.key)) = [] := by
        apply List.filter_eq_nil_iff.mpr
        intro e he
        simpa using le_of_lt (ha e he)
      have h2 : l.filter (fun e => decide (e0.key < e.key)) = l := by
        apply List.filter_eq_self.mpr
        intro e he
        simpa using ha e he
      simp [List.filter_cons, h1, h2]
    · have hlt : a.key < e0.key := ha e0 h
      have ih := sorted_split_mem l hl e0 h
      simp only [List.filter_cons, hlt, decide_True, if_true, not_lt_of_gt hlt, decide_False,
        Bool.false_eq_true, if_false, List.cons_append]
      rw [← ih]

/-- What a successful write of the value does to the state. -/
theorem setValue_ok {s : SkipList K V} {a : Nat} {n : Node K V}
    (h : deref s (.heap a) = .ok n) (value : V) :
    ∃ s1, setValue s a value = .ok s1 ∧
      deref s1 (.heap a) = .ok { n with item := (n.item.1, value) } ∧
      (∀ r, r ≠ .heap a → deref s1 r = deref s r) ∧
      s1._size = s._size ∧ s1.heap.length = s.heap.length := by
  have hg := deref_heap_lt h
  have hlt : a < s.heap.length := by
    rcases List.getElem?_eq_some_iff.mp hg with ⟨hlt, -⟩
    exact hlt
  refine ⟨{ s with heap := s.heap.set a (some { n with item := (n.item.1, value) }) },
    by simp only [setValue, h], ?_, ?_, rfl, by simp⟩
  · apply deref_heap_of_get
    simp [List.getElem?_set_self hlt]
  · intro r hr
    cases r with
    | head => rfl
    | heap b =>
      have hab : a ≠ b := fun e => hr (by rw [e])
      simp only [deref]
      rw [List.getElem?_set_ne hab]

/-- Overwriting the value of a represented entry in place. -/
theorem setValue_rep [LinearOrder K] {s : SkipList K V} {es : List (Entry K V)} {key : K}
    (hr : Rep s es) (e0 : Entry K V) (he0 : e0 ∈ es) (hk0 : e0.key = key) (value : V) :
    ∃ s2, setValue s e0.addr value = .ok s2 ∧
      Rep s2 (es.filter (fun e => decide (e.key < key)) ++
        ⟨e0.addr, key, value, e0.height⟩ :: es.filter (fun e => decide (key < e.key))) ∧
      s2._size = s._size ∧ max_level s2 = max_level s := by
  rcases (hr.nodes e0 he0).1 with ⟨n, hn, hi, hlen⟩
  rcases setValue_ok hn value with ⟨s2, hset, hd, hoth, hsz, hhl⟩
  have hfw : ∀ q L, forward s2 q L = forward s q L := by
    intro q L
    by_cases hq : q = .heap e0.addr
    · subst hq
      unfold forward
      rw [hd, hn]
    · exact forward_congr (hoth q hq) L
  have hmlv : max_level s2 = max_level s :=
    max_level_congr (hoth .head (by intro h; cases h))
  refine ⟨s2, hset, ?_, hsz, hmlv⟩
  subst hk0
  have hsplit := sorted_split_mem es hr.sorted e0 he0
  constructor
  · intro e he
    rw [hmlv]
    rcases List.mem_append.mp he with h | h
    · have hmem := (List.mem_filter.mp h).1
      have hlt : e.key < e0.key := by simpa using (List.mem_filter.mp h).2
      have hne : NodeRef.heap e.addr ≠ .heap e0.addr := by
        intro h1
        have := nodeAt_addr_key (hr.nodes e hmem).1 (hr.nodes e0 he0).1 (NodeRef.heap.inj h1)
        exact absurd this (ne_of_lt hlt)
      rw [nodeAt_congr (hoth _ hne)]
      exact hr.nodes e hmem
    · rcases List.mem_cons.mp h with h | h
      · rw [h]
        refine ⟨⟨_, hd, ?_, hlen⟩, (hr.nodes e0 he0).2⟩
        show (n.item.1, value) = (e0.key, value)
        rw [hi]
      · have hmem := (List.mem_filter.mp h).1
        have hlt : e0.key < e.key := by simpa using (List.mem_filter.mp h).2
        have hne : NodeRef.heap e.addr ≠ .heap e0.addr := by
          intro h1
          have := nodeAt_addr_key (hr.nodes e hmem).1 (hr.nodes e0 he0).1 (NodeRef.heap.inj h1)
          exact absurd this.symm (ne_of_lt hlt)
        rw [nodeAt_congr (hoth _ hne)]
        exact hr.nodes e hmem
  · exact sorted_insert _ hr.sorted rfl
  · intro L hL
    rw [hmlv] at hL
    have hshape : addrs (atLevel L (es.filter (fun e => decide (e.key < e0.key)) ++
        ⟨e0.addr, e0.key, value, e0.height⟩ :: es.filter (fun e => decide (e0.key < e.key)))) =
        addrs (atLevel L es) := by
      conv_rhs => rw [hsplit]
      by_cases hh : L < e0.height
      · rw [atLevel_append, atLevel_append, atLevel_cons_pos hh,
          atLevel_cons_pos (by exact hh), addrs_append, addrs_append]
        rfl
      · rw [atLevel_append, atLevel_append, atLevel_cons_neg hh,
          atLevel_cons_neg (by exact hh)]
    rw [hshape]
    exact chainFrom_frame (fun q => hfw q L) (hr.levels L hL)
  · rw [hmlv]
    exact hr.reach

end SkipList

namespace SkipList

variable {K V : Type}

/-- Inserting a present key: the value is overwritten in place. -/
theorem insert_present [LinearOrder K] {s : SkipList K V} {es : List (Entry K V)} {key : K}
    (hr : Rep s es) (hml : 1 ≤ max_level s) (e0 : Entry K V) (he0 : e0 ∈ es)
    (hk0 : e0.key = key) (value : V) (rnd : Nat → Nat) :
    ∃ s2, insert s key value rnd = .ok (s2, ⟨some e0.addr⟩) ∧
      Rep s2 (es.filter (fun e => decide (e.key < key)) ++
        ⟨e0.addr, key, value, e0.height⟩ :: es.filter (fun e => decide (key < e.key))) ∧
      s2._size = s._size ∧ max_level s2 = max_level s := by
  have hfind := find_found hr hml e0 he0 hk0
  rcases setValue_rep hr e0 he0 hk0 value with ⟨s2, hset, hrep, hsz, hmlv⟩
  exact ⟨s2, by simp only [insert, hfind, hset], hrep, hsz, hmlv⟩

end SkipList

/-! The descent of `remove` -/

namespace SkipList

variable {K V : Type}

/-- Removing an absent key writes nothing. -/
theorem removeLevels_absent [LinearOrder K] {s : SkipList K V} {es : List (Entry K V)}
    {key : K} {fuel : Nat} (hr : Rep s es) (hf : es.length < fuel)
    (habs : ∀ e ∈ es, e.key ≠ key) :
    ∀ (n : Nat) (node : NodeRef), n ≤ max_level s → CursorOK es key n node →
      removeLevels key fuel n s node none = .ok (s, none)
  | 0, _, _, _ => rfl
  | L + 1, node, hL, hc => by
    rcases scan_setup hr.sorted (fun e he => (hr.nodes e he).1) (hr.levels L (by omega)) hc with
      ⟨d, m, T, h1, hT, h2, h3, hlast, hchain, hm, hTk, hnodes, hlen, hc1⟩
    have hscan := removeScan_spec m T fuel node hm
      (fun e he => hTk e (List.mem_of_mem_head? he)) hchain hnodes (by omega)
    have ih := removeLevels_absent hr hf habs L _ (by omega) hc1
    cases T with
    | nil =>
      simp only [removeLevels, hscan]
      exact ih
    | cons h T1 =>
      have hmem : h ∈ es := by
        have : h ∈ (atLevel L es).filter (fun e => decide (¬ e.key < key)) := by
          rw [← hT]
          exact List.mem_cons_self _ _
        exact (mem_atLevel.mp (List.mem_filter.mp this).1).1
      simp only [removeLevels, hscan, habs h hmem, if_false]
      exact ih

theorem remove_absent [LinearOrder K] {s : SkipList K V} {es : List (Entry K V)} {key : K}
    (hr : Rep s es) (habs : ∀ e ∈ es, e.key ≠ key) : remove s key = .ok (s, ⟨none⟩) := by
  have h := removeLevels_absent hr (Nat.lt_succ_of_le (rep_length_le hr)) habs
    (loopLevels (max_level s)) .head (loopLevels_le _) (cursorOK_head es key _)
  simp only [remove, h]

/-- One turn of the `for` loop of `remove` with the key present: the node
is unlinked at level `L` if it has a slot there. -/
theorem remove_level [LinearOrder K] {s : SkipList K V} {es es1 : List (Entry K V)} {key : K}
    {L : Nat} {node : NodeRef} {e0 : Entry K V} (hlk : Linked s es es1 (L + 1))
    (hs : es.Pairwise (fun a b => a.key < b.key)) (he0 : e0 ∈ es) (hk0 : e0.key = key)
    (hes1 : es1 = es.filter (fun e => decide (e.key ≠ key))) (hLm : L < max_level s)
    (hc : CursorOK es key (L + 1) node) (fuel : Nat) (hf : es.length < fuel) :
    ∃ s2 node1, removeScan s key L fuel node =
        .ok (s2, node1, if L < e0.height then some e0.addr else none) ∧
      Linked s2 es es1 L ∧ CursorOK es key L node1 ∧
      s2._size = s._size ∧ s2.heap.length = s.heap.length ∧ max_level s2 = max_level s ∧
      (∀ r, deref s2 (.heap e0.addr) = .ok r ↔ deref s (.heap e0.addr) = .ok r) := by
  have hnodes_es : ∀ e ∈ es, NodeAt s e := fun e he => (hlk.nodes e (Or.inl he)).1
  rcases scan_setup hs hnodes_es (hlk.low L hLm (by omega)) hc with
    ⟨d, m, T, h1, hT, h2, h3, hlast, hchain, hm, hTk, hnodes, hlen, hc1⟩
  have hTes : ∀ e ∈ T, e ∈ atLevel L es := by
    intro e he
    rw [hT] at he
    exact (List.mem_filter.mp he).1
  have hdm : ∀ e ∈ d ++ m, e ∈ es ∧ e.key < key := by
    intro e he
    rw [← h2] at he
    rcases List.mem_filter.mp he with ⟨h4, h5⟩
    exact ⟨(mem_atLevel.mp h4).1, by simpa using h5⟩
  have hTs : T.Pairwise (fun a b => a.key < b.key) := by
    rw [hT]
    exact List.Pairwise.sublist
      (List.Sublist.trans (List.filter_sublist _) (atLevel_sublist L es)) hs
  have hscan := removeScan_spec m T fuel node hm
    (fun e he => hTk e (List.mem_of_mem_head? he)) hchain hnodes (by omega)
  have hcur : ChainFrom s L (lastRef node (addrs m)) (addrs T) := by
    rw [addrs_append] at hchain
    exact chainFrom_split _ _ _ hchain
  have hshape1 : atLevel L es1 = (atLevel L es).filter (fun e => decide (e.key ≠ key)) := by
    rw [hes1, atLevel_filter]
  by_cases hh : L < e0.height
  · have he0T : e0 ∈ T := by
      rw [hT]
      apply List.mem_filter.mpr
      refine ⟨mem_atLevel.mpr ⟨he0, hh⟩, ?_⟩
      simp [hk0]
    cases T with
    | nil => cases he0T
    | cons h T1 =>
      have hhe : h = e0 := by
        rcases List.mem_cons.mp he0T with h4 | h4
        · exact h4.symm
        · have h5 := (List.pairwise_cons.mp hTs).1 e0 h4
          have h6 := hTk h (List.mem_cons_self _ _)
          rw [hk0] at h5
          exact absurd h5 h6
      subst hhe
      have hT1k : ∀ e ∈ T1, key < e.key := by
        intro e he
        have := (List.pairwise_cons.mp hTs).1 e he
        rw [hk0] at this
        exact this
      have hcur1 : ChainFrom s L (lastRef node (addrs m)) (h.addr :: addrs T1) := hcur
      rcases chainFrom_cons.mp hcur1 with ⟨hfw0, p, hp, hcT1⟩
      have hpeq : p = (addrs T1).head? := chain_head hcT1
      rcases setForward_total hfw0 (addrs T1).head? with ⟨s2, hs2⟩
      rcases setForward_ok hs2 with ⟨n0, hn0, -, hd0, hoth, hsz, hhl, hml⟩
      have hcne : lastRef node (addrs m) ≠ .heap h.addr := by
        rw [hlast]
        apply cursor_ne_of_mem hs hnodes_es (fun c hc => (hdm c hc).1) he0
        intro hmem
        exact absurd (hdm h hmem).2 (by rw [hk0]; exact lt_irrefl _)
      refine ⟨s2, lastRef node (addrs m), ?_, ?_, hc1, hsz, hhl, hml, ?_⟩
      · rw [hscan]
        simp only [hk0, if_true, hs2, hh]
      · constructor
        · intro e he
          rw [nodeAt_setForward hs2, hml]
          exact hlk.nodes e he
        · intro L1 hL1 hlt
          rw [hml] at hL1
          exact chainFrom_frame
            (fun q => forward_setForward_other hs2 q L1 (Or.inr (by omega)))
            (hlk.low L1 hL1 (by omega))
        · intro L1 hL1 hge
          rw [hml] at hL1
          by_cases hLL : L1 = L
          · subst hLL
            have hshape : atLevel L1 es1 = (d ++ m) ++ T1 := by
              rw [hshape1, h1, List.filter_append, List.filter_cons]
              have ha : (d ++ m).filter (fun e => decide (e.key ≠ key)) = d ++ m := by
                apply List.filter_eq_self.mpr
                intro e he
                simpa using ne_of_lt (hdm e he).2
              have hb : T1.filter (fun e => decide (e.key ≠ key)) = T1 := by
                apply List.filter_eq_self.mpr
                intro e he
                simpa using (ne_of_lt (hT1k e he)).symm
              rw [ha, hb]
              simp [hk0]
            rw [hshape, addrs_append]
            have hsdm : (d ++ m).Pairwise (fun a b => a.key < b.key) := by
              rw [← h2]
              exact List.Pairwise.sublist
                (List.Sublist.trans (List.filter_sublist _) (atLevel_sublist L1 es)) hs
            have hnd := head_nodup_of_addrs
              (addrs_nodup hsdm (fun e he => hnodes_es e (hdm e he).1))
            apply chainFrom_relink (addrs (d ++ m)) (addrs (h :: T1)) (addrs T1) .head hnd
            · intro q _ hqne
              apply forward_setForward_other hs2 q L1 (Or.inl ?_)
              rw [hlast]
              exact hqne
            · have := hlk.low L1 hLm (by omega)
              rw [h1, addrs_append] at this
              exact this
            · rw [← hlast]
              refine ⟨_, forward_setForward_same hs2, ?_⟩
              rw [← hpeq]
              apply chain_frame (addrs T1) p _ hcT1
              intro a ha
              rcases mem_addrs.mp ha with ⟨e, he, rfl⟩
              apply forward_setForward_other hs2 _ L1 (Or.inl ?_)
              rw [hlast]
              have heT : e ∈ atLevel L1 es := hTes e (List.mem_cons_of_mem _ he)
              refine Ne.symm (cursor_ne_of_mem hs hnodes_es (fun c hc => (hdm c hc).1)
                (mem_atLevel.mp heT).1 ?_)
              intro hmem
              exact absurd (hdm e hmem).2 (not_lt_of_gt (hT1k e he))
          · exact chainFrom_frame
              (fun q => forward_setForward_other hs2 q L1 (Or.inr hLL))
              (hlk.high L1 hL1 (by omega))
        · rw [hml]
          exact hlk.reach
      · intro r
        rw [hoth _ (Ne.symm hcne)]
  · have hnokey : ∀ e ∈ atLevel L es, e.key ≠ key := by
      intro e he hk
      have := sorted_key_inj es hs e (mem_atLevel.mp he).1 e0 he0 (by rw [hk, hk0])
      rw [this] at he
      exact hh (mem_atLevel.mp he).2
    have hres : removeScan s key L fuel node = .ok (s, lastRef node (addrs m), none) := by
      rw [hscan]
      cases T with
      | nil => rfl
      | cons h T1 =>
        simp only [hnokey h (hTes h (List.mem_cons_self _ _)), if_false]
    refine ⟨s, lastRef node (addrs m), by rw [hres]; simp only [hh, if_false], ?_, hc1, rfl,
      rfl, rfl, fun r => Iff.rfl⟩
    constructor
    · exact hlk.nodes
    · intro L1 hL1 hlt
      exact hlk.low L1 hL1 (by omega)
    · intro L1 hL1 hge
      by_cases hLL : L1 = L
      · subst hLL
        rw [hshape1, List.filter_eq_self.mpr (fun e he => by simpa using hnokey e he)]
        exact hlk.low L1 hL1 (by omega)
      · exact hlk.high L1 hL1 (by omega)
    · exact hlk.reach

/-- The `for` loop of `remove` with the key present: the node is unlinked
at every level and remembered in `target_node`. -/
theorem removeLevels_present [LinearOrder K] {es es1 : List (Entry K V)} {key : K}
    {e0 : Entry K V} (hs : es.Pairwise (fun a b => a.key < b.key)) (he0 : e0 ∈ es)
    (hk0 : e0.key = key) (hh0 : 1 ≤ e0.height)
    (hes1 : es1 = es.filter (fun e => decide (e.key ≠ key))) (fuel : Nat)
    (hf : es.length < fuel) :
    ∀ (n : Nat) (s : SkipList K V) (node : NodeRef) (target : Option Nat),
      n ≤ max_level s → Linked s es es1 n → CursorOK es key n node →
      ∃ s2, removeLevels key fuel n s node target =
          .ok (s2, if 1 ≤ n then some e0.addr else target) ∧
        Linked s2 es es1 0 ∧ s2._size = s._size ∧ s2.heap.length = s.heap.length ∧
        max_level s2 = max_level s ∧
        (∀ r, deref s2 (.heap e0.addr) = .ok r ↔ deref s (.heap e0.addr) = .ok r)
  | 0, s, _, target, _, hlk, _ => ⟨s, rfl, hlk, rfl, rfl, rfl, fun r => Iff.rfl⟩
  | L + 1, s, node, target, hn, hlk, hc => by
    rcases remove_level hlk hs he0 hk0 hes1 (by omega) hc fuel hf with
      ⟨s1, node1, hscan, hlk1, hc1, hsz, hhl, hml, hd⟩
    by_cases hh : L < e0.height
    · rcases removeLevels_present hs he0 hk0 hh0 hes1 fuel hf L s1 node1 (some e0.addr)
          (by omega) hlk1 hc1 with ⟨s2, hrun, hlk2, hsz2, hhl2, hml2, hd2⟩
      refine ⟨s2, ?_, hlk2, by rw [hsz2, hsz], by rw [hhl2, hhl], by rw [hml2, hml],
        fun r => (hd2 r).trans (hd r)⟩
      simp only [hh, if_true] at hscan
      simp only [removeLevels, hscan, hrun]
      by_cases hL1 : 1 ≤ L
      · simp [hL1]
      · simp [hL1]
    · rcases removeLevels_present hs he0 hk0 hh0 hes1 fuel hf L s1 node1 target
          (by omega) hlk1 hc1 with ⟨s2, hrun, hlk2, hsz2, hhl2, hml2, hd2⟩
      refine ⟨s2, ?_, hlk2, by rw [hsz2, hsz], by rw [hhl2, hhl], by rw [hml2, hml],
        fun r => (hd2 r).trans (hd r)⟩
      simp only [hh, if_false] at hscan
      have hL1 : 1 ≤ L := by omega
      simp only [removeLevels, hscan, hrun, hL1, if_true]
      simp

end SkipList

namespace SkipList

variable {K V : Type}

theorem deref_free (s : SkipList K V) (a : Nat) (r : NodeRef) (hr : r ≠ .heap a) :
    deref (free s a) r = deref s r := by
  cases r with
  | head => rfl
  | heap b =>
    have hab : a ≠ b := fun e => hr (by rw [e])
    simp only [deref, free]
    rw [List.getElem?_set_ne hab]

/-- No entry takes part in a level that the level loops do not reach. -/
theorem atLevel_above [LinearOrder K] {s : SkipList K V} {es : List (Entry K V)}
    (hr : Rep s es) {L : Nat} (hL : loopLevels (max_level s) ≤ L) (p : Entry K V → Bool) :
    atLevel L (es.filter p) = [] := by
  unfold atLevel
  rw [List.filter_eq_nil_iff]
  intro e he
  have := (hr.nodes e (List.mem_filter.mp he).1).2.2
  simp only [decide_eq_true_eq]
  omega

/-- When the `for` loop of `remove` starts, every level is linked as for all
entries; the levels the loop does not reach hold no node. -/
theorem linked_start [LinearOrder K] {s : SkipList K V} {es : List (Entry K V)}
    (hr : Rep s es) (key : K) :
    Linked s es (es.filter (fun e => decide (e.key ≠ key))) (loopLevels (max_level s)) := by
  constructor
  · intro e he
    rcases he with h | h
    · exact hr.nodes e h
    · exact hr.nodes e (List.mem_filter.mp h).1
  · intro L hL _
    exact hr.levels L hL
  · intro L hL hge
    have h1 := atLevel_above hr hge (fun e => decide (e.key ≠ key))
    have h2 := atLevel_above hr hge (fun _ => true)
    rw [List.filter_true] at h2
    rw [h1, ← h2]
    exact hr.levels L hL
  · exact hr.reach

/-- Removing a present key: its entry leaves the sequence, and the returned
iterator is at the entry that followed it. -/
theorem remove_present [LinearOrder K] {s : SkipList K V} {es : List (Entry K V)} {key : K}
    (hr : Rep s es) (hml : 1 ≤ max_level s) (e0 : Entry K V) (he0 : e0 ∈ es)
    (hk0 : e0.key = key) :
    ∃ s2, remove s key =
        .ok (s2, ⟨(addrs (es.filter (fun e => decide (key < e.key)))).head?⟩) ∧
      Rep s2 (es.filter (fun e => decide (e.key ≠ key))) ∧
      s2._size = (s._size + 2 ^ 64 - 1) % 2 ^ 64 ∧ max_level s2 = max_level s := by
  have hnodes_es : ∀ e ∈ es, NodeAt s e := fun e he => (hr.nodes e he).1
  have hlk := linked_start hr key
  rcases removeLevels_present hr.sorted he0 hk0 (hr.nodes e0 he0).2.1 rfl (s.heap.length + 1)
      (Nat.lt_succ_of_le (rep_length_le hr)) (loopLevels (max_level s)) s .head none
      (loopLevels_le _) hlk (cursorOK_head _ _ _) with ⟨s1, hrun, hlk1, hsz, hhl, hmlv, hd⟩
  simp only [hr.reach, if_true] at hrun
  -- the node still points to its successor
  have hsplit := sorted_split_mem es hr.sorted e0 he0
  rw [hk0] at hsplit
  have hch0 := hr.levels 0 (by omega)
  rw [atLevel_zero hr, hsplit, addrs_append] at hch0
  have hch1 := chainFrom_split _ _ _ hch0
  have hch2 : ChainFrom s 0 (lastRef .head (addrs (es.filter (fun e => decide (e.key < key)))))
      (e0.addr :: addrs (es.filter (fun e => decide (key < e.key)))) := hch1
  have hnx := chainFrom_forward (chainFrom_cons.mp hch2).2
  rcases forward_eq_ok.mp hnx with ⟨n, hn, hg⟩
  have hnx1 : forward s1 (.heap e0.addr) 0 =
      .ok (addrs (es.filter (fun e => decide (key < e.key)))).head? :=
    forward_eq_ok.mpr ⟨n, (hd n).mpr hn, hg⟩
  have hderef : ∀ r, r ≠ .heap e0.addr →
      deref { free s1 e0.addr with
        _size := ((free s1 e0.addr)._size + 2 ^ 64 - 1) % 2 ^ 64 } r = deref s1 r := by
    intro r hr1
    rw [← deref_free s1 e0.addr r hr1]
    cases r <;> simp only [deref]
  have hmlf := max_level_congr (hderef .head (by intro h; cases h))
  refine ⟨{ free s1 e0.addr with _size := ((free s1 e0.addr)._size + 2 ^ 64 - 1) % 2 ^ 64 },
    by simp only [remove, hrun, hnx1], ?_, ?_, ?_⟩
  · have hrep1 : Rep s1 (es.filter (fun e => decide (e.key ≠ key))) := by
      refine ⟨fun e he => hlk1.nodes e (Or.inr he), List.Pairwise.filter _ hr.sorted,
        fun L hL => hlk1.high L hL (Nat.zero_le _), hlk1.reach⟩
    have hother : ∀ e ∈ es.filter (fun e => decide (e.key ≠ key)),
        NodeRef.heap e.addr ≠ .heap e0.addr := by
      intro e he h
      rcases List.mem_filter.mp he with ⟨h1, h2⟩
      have h3 := nodeAt_addr_key (hnodes_es e h1) (hnodes_es e0 he0) (NodeRef.heap.inj h)
      rw [hk0] at h3
      simp at h2
      exact h2 h3
    constructor
    · intro e he
      rw [nodeAt_congr (hderef _ (hother e he)), hmlf]
      exact hrep1.nodes e he
    · exact hrep1.sorted
    · intro L hL
      rw [hmlf] at hL
      apply chainFrom_frame_mem (forward_congr (hderef _ (by intro h; cases h)) L) _
        (hrep1.levels L hL)
      intro a ha
      rcases mem_addrs.mp ha with ⟨e, he, rfl⟩
      exact forward_congr (hderef _ (hother e (mem_atLevel.mp he).1)) L
    · rw [hmlf]
      exact hrep1.reach
  · simp only [free, hsz]
  · rw [hmlf, hmlv]

end SkipList

/-! Programs: sequences of operations -/

namespace SkipList

variable {K V : Type}

theorem items_insert [LinearOrder K] (es : List (Entry K V)) (a : Nat) (key : K) (value : V)
    (h : Nat) :
    items (es.filter (fun e => decide (e.key < key)) ++
      ⟨a, key, value, h⟩ :: es.filter (fun e => decide (key < e.key))) =
      mInsert key value (items es) := by
  simp only [items, mInsert, List.map_append, List.map_cons, List.filter_map]
  rfl

theorem items_remove [LinearOrder K] (es : List (Entry K V)) (key : K) :
    items (es.filter (fun e => decide (e.key ≠ key))) = mRemove key (items es) := by
  simp only [items, mRemove, List.filter_map]
  rfl

theorem sorted_filter_ne [LinearOrder K] {es : List (Entry K V)}
    (hs : es.Pairwise (fun a b => a.key < b.key)) (e0 : Entry K V) (he0 : e0 ∈ es) :
    es.filter (fun e => decide (e.key ≠ e0.key)) =
      es.filter (fun e => decide (e.key < e0.key)) ++
        es.filter (fun e => decide (e0.key < e.key)) := by
  have hsplit := sorted_split_mem es hs e0 he0
  conv_lhs => rw [hsplit]
  rw [List.filter_append, List.filter_cons]
  have ha : (es.filter (fun e => decide (e.key < e0.key))).filter
      (fun e => decide (e.key ≠ e0.key)) = es.filter (fun e => decide (e.key < e0.key)) := by
    apply List.filter_eq_self.mpr
    intro e he
    have : e.key < e0.key := by simpa using (List.mem_filter.mp he).2
    simpa using ne_of_lt this
  have hb : (es.filter (fun e => decide (e0.key < e.key))).filter
      (fun e => decide (e.key ≠ e0.key)) = es.filter (fun e => decide (e0.key < e.key)) := by
    apply List.filter_eq_self.mpr
    intro e he
    have : e0.key < e.key := by simpa using (List.mem_filter.mp he).2
    simpa using (ne_of_lt this).symm
  rw [ha, hb]
  simp

theorem filter_ne_absent [LinearOrder K] {es : List (Entry K V)} {key : K}
    (habs : ∀ e ∈ es, e.key ≠ key) : es.filter (fun e => decide (e.key ≠ key)) = es := by
  apply List.filter_eq_self.mpr
  intro e he
  simpa using habs e he

theorem length_insert_absent [LinearOrder K] {es : List (Entry K V)} {key : K}
    (hs : es.Pairwise (fun a b => a.key < b.key)) (habs : ∀ e ∈ es, e.key ≠ key)
    (e1 : Entry K V) :
    (es.filter (fun e => decide (e.key < key)) ++
      e1 :: es.filter (fun e => decide (key < e.key))).length = es.length + 1 := by
  have h := congrArg List.length (sorted_split_absent hs habs)
  simp only [List.length_append, List.length_cons] at h ⊢
  omega

theorem length_insert_present [LinearOrder K] {es : List (Entry K V)}
    (hs : es.Pairwise (fun a b => a.key < b.key)) (e0 : Entry K V) (he0 : e0 ∈ es)
    (e1 : Entry K V) :
    (es.filter (fun e => decide (e.key < e0.key)) ++
      e1 :: es.filter (fun e => decide (e0.key < e.key))).length = es.length := by
  have h := congrArg List.length (sorted_split_mem es hs e0 he0)
  simp only [List.length_append, List.length_cons] at h ⊢
  omega

theorem length_remove_present [LinearOrder K] {es : List (Entry K V)}
    (hs : es.Pairwise (fun a b => a.key < b.key)) (e0 : Entry K V) (he0 : e0 ∈ es) :
    (es.filter (fun e => decide (e.key ≠ e0.key))).length + 1 = es.length := by
  have h := congrArg List.length (sorted_split_mem es hs e0 he0)
  rw [sorted_filter_ne hs e0 he0]
  simp only [List.length_append, List.length_cons] at h ⊢
  omega

/-- A state together with the entries it represents and the size it
reports: what every reachable state satisfies. -/
theorem step_spec [LinearOrder K] {s : SkipList K V} {es : List (Entry K V)}
    (hr : Rep s es) (hml : 1 ≤ max_level s) (hsz : s._size = es.length % 2 ^ 64)
    (op : Op K V) :
    ∃ s1 es1, step s op = .ok s1 ∧ Rep s1 es1 ∧ max_level s1 = max_level s ∧
      s1._size = es1.length % 2 ^ 64 ∧ items es1 = model [op] (items es) ∧
      es1.length ≤ es.length + 1 := by
  cases op with
  | insert key value rnd =>
    by_cases hp : ∃ e ∈ es, e.key = key
    · rcases hp with ⟨e0, he0, hk0⟩
      rcases insert_present hr hml e0 he0 hk0 value rnd with ⟨s2, hins, hrep, hsz2, hml2⟩
      refine ⟨s2, _, by simp only [step, hins], hrep, hml2, ?_, items_insert _ _ _ _ _, ?_⟩
      · subst hk0
        rw [hsz2, hsz, length_insert_present hr.sorted e0 he0]
      · subst hk0
        rw [length_insert_present hr.sorted e0 he0]
        omega
    · have habs : ∀ e ∈ es, e.key ≠ key := fun e he hk => hp ⟨e, he, hk⟩
      rcases insert_absent hr hml habs value rnd with
        ⟨s2, l, d, -, -, -, hins, hrep, hsz2, hml2⟩
      refine ⟨s2, _, by simp only [step, hins], hrep, hml2, ?_, items_insert _ _ _ _ _, ?_⟩
      · rw [hsz2, hsz, length_insert_absent hr.sorted habs]
        omega
      · rw [length_insert_absent hr.sorted habs]
  | remove key =>
    by_cases hp : ∃ e ∈ es, e.key = key
    · rcases hp with ⟨e0, he0, hk0⟩
      rcases remove_present hr hml e0 he0 hk0 with ⟨s2, hrem, hrep, hsz2, hml2⟩
      have hlen := length_remove_present hr.sorted e0 he0
      rw [hk0] at hlen
      refine ⟨s2, _, by simp only [step, hrem], hrep, hml2, ?_, items_remove _ _, by omega⟩
      rw [hsz2, hsz]
      omega
    · have habs : ∀ e ∈ es, e.key ≠ key := fun e he hk => hp ⟨e, he, hk⟩
      have hrem := remove_absent hr habs
      refine ⟨s, es, by simp only [step, hrem], hr, rfl, hsz, ?_, by omega⟩
      show items es = mRemove key (items es)
      rw [← items_remove, filter_ne_absent habs]

theorem model_append [LinearOrder K] (ops1 ops2 : List (Op K V)) (l : List (K × V)) :
    model (ops1 ++ ops2) l = model ops2 (model ops1 l) := by
  induction ops1 generalizing l with
  | nil => rfl
  | cons op ops ih =>
    cases op with
    | insert key value rnd => exact ih _
    | remove key => exact ih _

theorem runFrom_spec [LinearOrder K] :
    ∀ (ops : List (Op K V)) (s : SkipList K V) (es : List (Entry K V)),
      Rep s es → 1 ≤ max_level s → s._size = es.length % 2 ^ 64 →
      ∃ s1 es1, runFrom s ops = .ok s1 ∧ Rep s1 es1 ∧ max_level s1 = max_level s ∧
        s1._size = es1.length % 2 ^ 64 ∧ items es1 = model ops (items es) ∧
        es1.length ≤ es.length + ops.length
  | [], s, es, hr, _, hsz => ⟨s, es, rfl, hr, rfl, hsz, rfl, by simp⟩
  | op :: ops, s, es, hr, hml, hsz => by
    rcases step_spec hr hml hsz op with ⟨s1, es1, hstep, hr1, hml1, hsz1, hit1, hlen1⟩
    rcases runFrom_spec ops s1 es1 hr1 (by omega) hsz1 with
      ⟨s2, es2, hrun, hr2, hml2, hsz2, hit2, hlen2⟩
    refine ⟨s2, es2, by simp only [runFrom, hstep, hrun], hr2, by rw [hml2, hml1], hsz2, ?_,
      by simp only [List.length_cons]; omega⟩
    rw [hit2, hit1]
    exact (model_append [op] ops (items es)).symm

theorem max_level_construct [Inhabited K] [Inhabited V] (ml : Nat) :
    max_level (construct ml : SkipList K V) = ml := by
  simp [max_level, construct]

theorem forward_construct [Inhabited K] [Inhabited V] {ml L : Nat} (hL : L < ml) :
    forward (construct ml : SkipList K V) .head L = .ok none := by
  apply forward_eq_ok.mpr
  exact ⟨_, rfl, by simp [construct, List.getElem?_replicate, hL]⟩

theorem rep_construct [LinearOrder K] [Inhabited K] [Inhabited V] (ml : Nat)
    (hg : 1 ≤ loopLevels ml) : Rep (construct ml : SkipList K V) [] := by
  constructor
  · intro e he
    cases he
  · exact List.Pairwise.nil
  · intro L hL
    rw [max_level_construct] at hL
    exact ⟨none, forward_construct hL, rfl⟩
  · rw [max_level_construct]
    exact hg

/-- Every program run on a fresh container whose level loops run at least
once ends in a represented state. -/
theorem run_spec [LinearOrder K] [Inhabited K] [Inhabited V] (ml : Nat)
    (hg : 1 ≤ loopLevels ml) (ops : List (Op K V)) :
    ∃ (s : SkipList K V) (es : List (Entry K V)), run ml ops = .ok s ∧ Rep s es ∧
      max_level s = ml ∧ s._size = es.length % 2 ^ 64 ∧ items es = model ops [] ∧
      es.length ≤ ops.length := by
  have hm0 : max_level (construct ml : SkipList K V) = ml := max_level_construct ml
  have hml : 1 ≤ ml := le_trans hg (loopLevels_le ml)
  rcases runFrom_spec ops (construct ml : SkipList K V) [] (rep_construct ml hg)
    (by rw [hm0]; exact hml) rfl with ⟨s, es, hrun, hr, hmlv, hsz, hit, hlen⟩
  exact ⟨s, es, hrun, hr, by rw [hmlv, hm0], hsz, hit, by simpa using hlen⟩

end SkipList

/-! What `find` tells about the represented entries -/

namespace SkipList

variable {K V : Type}

theorem find_none_absent [LinearOrder K] {s : SkipList K V} {es : List (Entry K V)} {key : K}
    (hr : Rep s es) (hml : 1 ≤ max_level s) (h : find s key = .ok ⟨none⟩) :
    ∀ e ∈ es, e.key ≠ key := by
  intro e he hk
  rw [find_found hr hml e he hk] at h
  cases h

theorem find_some_present [LinearOrder K] {s : SkipList K V} {es : List (Entry K V)} {key : K}
    {it : Iterator} (hr : Rep s es) (h : find s key = .ok it) (hb : it.toBool = true) :
    ∃ e ∈ es, e.key = key := by
  by_contra hne
  have habs : ∀ e ∈ es, e.key ≠ key := fun e he hk => hne ⟨e, he, hk⟩
  rw [find_absent hr habs] at h
  cases h
  cases hb

theorem star_of_nodeAt {s : SkipList K V} {e : Entry K V} (h : NodeAt s e) :
    Iterator.star s ⟨some e.addr⟩ = .ok (e.key, e.val) := by
  rcases h with ⟨n, hn, hi, -⟩
  simp only [Iterator.star, hn, hi]

theorem items_sorted [LinearOrder K] {es : List (Entry K V)}
    (hs : es.Pairwise (fun a b => a.key < b.key)) :
    (items es).Pairwise (fun a b => a.1 < b.1) := by
  unfold items
  exact List.pairwise_map.mpr hs

theorem mem_items {p : K × V} {es : List (Entry K V)} :
    p ∈ items es ↔ ∃ e ∈ es, (e.key, e.val) = p := by
  simp [items]

theorem mem_mInsert_self [LinearOrder K] (key : K) (value : V) (l : List (K × V)) :
    (key, value) ∈ mInsert key value l := by
  simp [mInsert]

theorem mem_mInsert_of_ne [LinearOrder K] {key : K} {value : V} {l : List (K × V)}
    {p : K × V} (hp : p ∈ l) (hne : p.1 ≠ key) : p ∈ mInsert key value l := by
  unfold mInsert
  rcases lt_or_gt_of_ne hne with h | h
  · exact List.mem_append_left _ (List.mem_filter.mpr ⟨hp, by simpa using h⟩)
  · exact List.mem_append_right _
      (List.mem_cons_of_mem _ (List.mem_filter.mpr ⟨hp, by simpa using h⟩))

theorem mem_mRemove_of_ne [LinearOrder K] {key : K} {l : List (K × V)} {p : K × V}
    (hp : p ∈ l) (hne : p.1 ≠ key) : p ∈ mRemove key l := by
  unfold mRemove
  exact List.mem_filter.mpr ⟨hp, by simpa using hne⟩

theorem mem_model_of_untouched [LinearOrder K] {p : K × V} :
    ∀ (ops : List (Op K V)) (l : List (K × V)), (∀ op ∈ ops, op.key ≠ p.1) → p ∈ l →
      p ∈ model ops l
  | [], _, _, hp => hp
  | .insert _ _ _ :: ops, _, h, hp =>
    mem_model_of_untouched ops _ (fun op hop => h op (List.mem_cons_of_mem _ hop))
      (mem_mInsert_of_ne hp (fun e => h _ (List.mem_cons_self _ _) e.symm))
  | .remove _ :: ops, _, h, hp =>
    mem_model_of_untouched ops _ (fun op hop => h op (List.mem_cons_of_mem _ hop))
      (mem_mRemove_of_ne hp (fun e => h _ (List.mem_cons_self _ _) e.symm))

end SkipList

/-! Containers whose level loops never run -/

namespace SkipList

variable {K V : Type}

theorem length_le_of_nodup {s : SkipList K V} {es : List (Entry K V)}
    (hn : ∀ e ∈ es, NodeAt s e) (hnd : (addrs es).Nodup) : es.length ≤ s.heap.length := by
  have hlt : ∀ a ∈ addrs es, a ∈ List.range s.heap.length := by
    intro a ha
    rcases mem_addrs.mp ha with ⟨e, he, rfl⟩
    exact List.mem_range.mpr (nodeAt_addr_lt (hn e he))
  have h1 := (List.subperm_of_subset hnd hlt).length_le
  simpa [addrs] using h1

/-- With no head slot at all, `insert` reads head slot `0`, which does not
exist. -/
theorem insert_no_level [LinearOrder K] (s : SkipList K V) (h : max_level s = 0) (k : K)
    (v : V) (rnd : Nat → Nat) : insert s k v rnd = .error .outOfBounds := by
  have h1 : loopLevels (max_level s) = 0 := by
    rw [h]
    exact loopLevels_zero
  have h2 : find s k = .ok ⟨none⟩ := by
    simp only [find, h1, findLevels]
  have h3 : levelLoop (max_level s) rnd (max_level s + 1) 0 0 = .ok (0, 0) := by
    rw [h]
    exact levelLoop_flat 0 rnd 0 (by decide)
  have h4 : forward (alloc s (0 + 1) (k, v)).1 .head 0 = .error .outOfBounds := by
    have h5 : s._head.forwards = [] := List.length_eq_zero.mp h
    simp [forward, deref, alloc, h5]
  simp only [insert, h2, h3, insertLevels, insertScan, h4]

theorem flat_find [LinearOrder K] {s : SkipList K V} {es : List (Entry K V)} (hf : Flat s es)
    (key : K) : find s key = .ok ⟨none⟩ := by
  simp only [find, hf.stuck, findLevels]

theorem flat_remove [LinearOrder K] {s : SkipList K V} {es : List (Entry K V)} (hf : Flat s es)
    (key : K) : remove s key = .ok (s, ⟨none⟩) := by
  simp only [remove, hf.stuck, removeLevels]

theorem flat_toList {s : SkipList K V} {es : List (Entry K V)} (hf : Flat s es) :
    toList s = .ok (items es) := by
  rcases hf.chain with ⟨p, hp, hc⟩
  have h1 := iterate_chain es (s.heap.length + 1) p hc (fun e he => (hf.nodes e he).1)
    (Nat.lt_succ_of_le (length_le_of_nodup (fun e he => (hf.nodes e he).1) hf.nodup))
  simp only [toList, «begin», hp, h1]

theorem flat_construct [Inhabited K] [Inhabited V] (ml : Nat) (hml : 1 ≤ ml)
    (h0 : loopLevels ml = 0) : Flat (construct ml : SkipList K V) [] := by
  constructor
  · intro e he
    cases he
  · exact List.nodup_nil
  · exact ⟨none, forward_construct (by omega), rfl⟩
  · rw [max_level_construct]
    exact h0
  · rw [max_level_construct]
    exact hml

/-- Inserting into a container whose level loops never run: a new node is
linked in at level `0`, before the first entry with a greater key. -/
theorem flat_insert [LinearOrder K] {s : SkipList K V} {es : List (Entry K V)}
    (hf : Flat s es) (key : K) (value : V) (rnd : Nat → Nat) :
    ∃ s2, insert s key value rnd = .ok (s2, ⟨some s.heap.length⟩) ∧
      Flat s2 (es.takeWhile (fun e => decide (¬ key < e.key)) ++
        ⟨s.heap.length, key, value, 1⟩ :: es.dropWhile (fun e => decide (¬ key < e.key))) ∧
      s2._size = (s._size + 1) % 2 ^ 64 ∧ max_level s2 = max_level s := by
  have hfind := flat_find hf key
  have hloop := levelLoop_flat (max_level s) rnd (max_level s)
    (toInt_nonpos _ hf.pos hf.stuck)
  generalize hm0 : es.takeWhile (fun e => decide (¬ key < e.key)) = m
  generalize ht0 : es.dropWhile (fun e => decide (¬ key < e.key)) = t
  have hes : es = m ++ t := by
    rw [← hm0, ← ht0]
    exact (List.takeWhile_append_dropWhile _ _).symm
  have hm : ∀ e ∈ m, ¬ key < e.key := by
    intro e he
    rw [← hm0] at he
    simpa using List.mem_takeWhile_imp he
  have ht : ∀ e, t.head? = some e → key < e.key := by
    intro e he
    rw [← ht0] at he
    have := List.head?_dropWhile_not (fun e => decide (¬ key < e.key)) es
    rw [he] at this
    simpa using this
  have hnodes : ∀ e ∈ es, NodeAt s e := fun e he => (hf.nodes e he).1
  have hfresh : ∀ e ∈ es, e.addr ≠ s.heap.length := fun e he =>
    ne_of_lt (nodeAt_addr_lt (hnodes e he))
  have hold : ∀ e ∈ es, deref (alloc s 1 (key, value)).1 (.heap e.addr) =
      deref s (.heap e.addr) := by
    intro e he
    apply deref_alloc_old
    intro h
    exact hfresh e he (NodeRef.heap.inj h)
  have hmlA : max_level (alloc s 1 (key, value)).1 = max_level s := rfl
  have hnA : ∀ e ∈ m ++ t, NodeAt (alloc s 1 (key, value)).1 e := by
    intro e he
    rw [← hes] at he
    rw [nodeAt_congr (hold e he)]
    exact hnodes e he
  have hchA : ChainFrom (alloc s 1 (key, value)).1 0 .head (addrs (m ++ t)) := by
    rw [← hes]
    apply chainFrom_frame_mem (forward_congr (deref_alloc_old s _ _ _ (by simp)) 0) _ hf.chain
    intro a ha
    rcases mem_addrs.mp ha with ⟨e, he, rfl⟩
    exact forward_congr (hold e he) 0
  have hlen : m.length < (alloc s 1 (key, value)).1.heap.length + 1 := by
    have h1 := length_le_of_nodup hnodes hf.nodup
    have h2 : m.length ≤ es.length := by
      rw [hes, List.length_append]
      omega
    have h3 : (alloc s 1 (key, value)).1.heap.length = s.heap.length + 1 := by simp [alloc]
    omega
  have hscan := insertScan_spec s.heap.length m t _ .head hm ht hchA hnA hlen
  have hcur : ChainFrom (alloc s 1 (key, value)).1 0 (lastRef .head (addrs m)) (addrs t) := by
    rw [addrs_append] at hchA
    exact chainFrom_split _ _ _ hchA
  rcases hcur with ⟨p0, hp0, hcT⟩
  have hp0eq : p0 = (addrs t).head? := chain_head hcT
  have hq1 : forward (alloc s 1 (key, value)).1 (.heap s.heap.length) 0 = .ok none :=
    forward_eq_ok.mpr ⟨_, deref_alloc_new s 1 (key, value), rfl⟩
  have hmem_m : ∀ a ∈ addrs m, a ≠ s.heap.length := by
    intro a ha
    rcases mem_addrs.mp ha with ⟨e, he, rfl⟩
    exact hfresh e (by rw [hes]; exact List.mem_append_left _ he)
  have hmem_t : ∀ a ∈ addrs t, a ≠ s.heap.length := by
    intro a ha
    rcases mem_addrs.mp ha with ⟨e, he, rfl⟩
    exact hfresh e (by rw [hes]; exact List.mem_append_right _ he)
  have hcne : lastRef .head (addrs m) ≠ .heap s.heap.length := by
    rcases lastRef_cases .head (addrs m) with ⟨-, hl⟩ | ⟨a, ha, hl⟩
    · rw [hl]
      intro h
      cases h
    · rw [hl]
      intro h
      exact hmem_m a ha (NodeRef.heap.inj h)
  have hnd : (addrs m ++ addrs t).Nodup := by
    rw [← addrs_append, ← hes]
    exact hf.nodup
  rcases splice_ok hp0 hq1 hcne (addrs t).head? with
    ⟨s2, hsp, hf1, hf2, hfr, hna, hsz, hhl, hml⟩
  have hins : insertLevels key (alloc s 1 (key, value)).2
      ((alloc s 1 (key, value)).1.heap.length + 1) (0 + 1) (alloc s 1 (key, value)).1 .head =
      .ok s2 := by
    have hscan1 : insertScan (alloc s 1 (key, value)).1 key 0 (alloc s 1 (key, value)).2
        ((alloc s 1 (key, value)).1.heap.length + 1) .head =
        .ok (s2, lastRef .head (addrs m)) := by
      rw [← hsp, ← hscan]
      rfl
    simp only [insertLevels, hscan1]
  refine ⟨{ s2 with _size := (s2._size + 1) % 2 ^ 64 }, ?_, ?_, ?_, ?_⟩
  · simp only [insert, hfind, hloop, hins]
    rfl
  · have hflat : Flat s2 (m ++ ⟨s.heap.length, key, value, 1⟩ :: t) := by
      constructor
      · intro e he
        rw [hna]
        rcases List.mem_append.mp he with h | h
        · exact ⟨hnA e (List.mem_append_left _ h),
            (hf.nodes e (by rw [hes]; exact List.mem_append_left _ h)).2⟩
        · rcases List.mem_cons.mp h with h | h
          · rw [h]
            exact ⟨⟨_, deref_alloc_new s 1 (key, value), rfl, by simp⟩, rfl⟩
          · exact ⟨hnA e (List.mem_append_right _ h),
              (hf.nodes e (by rw [hes]; exact List.mem_append_right _ h)).2⟩
      · rw [addrs_append]
        show (addrs m ++ s.heap.length :: addrs t).Nodup
        rcases List.nodup_append.mp hnd with ⟨h1, h2, h3⟩
        refine List.nodup_append.mpr ⟨h1, List.nodup_cons.mpr ⟨?_, h2⟩, ?_⟩
        · intro h
          exact hmem_t _ h rfl
        · intro a ha hb
          rcases List.mem_cons.mp hb with h | h
          · exact hmem_m a ha h
          · exact h3 ha h
      · rw [addrs_append]
        have hndm : (addrs m).Nodup := (List.nodup_append.mp hnd).1
        apply chainFrom_relink (addrs m) (addrs t) (addrs (⟨s.heap.length, key, value, 1⟩ :: t))
          .head (head_nodup_of_addrs hndm)
        · intro q hq hqne
          apply hfr q 0 (Or.inl ⟨hqne, ?_⟩)
          rcases List.mem_cons.mp hq with h | h
          · rw [h]
            intro e
            cases e
          · rcases List.mem_map.mp h with ⟨a, ha, rfl⟩
            intro e
            exact hmem_m a ha (NodeRef.heap.inj e)
        · rw [addrs_append] at hchA
          exact hchA
        · show ChainFrom s2 0 (lastRef .head (addrs m)) (s.heap.length :: addrs t)
          refine chainFrom_cons.mpr ⟨hf1, _, hf2, ?_⟩
          rw [← hp0eq]
          apply chain_frame (addrs t) p0 _ hcT
          intro a ha
          apply hfr _ 0 (Or.inl ⟨?_, ?_⟩)
          · rcases lastRef_cases .head (addrs m) with ⟨-, hl⟩ | ⟨b, hb, hl⟩
            · rw [hl]
              intro h
              cases h
            · rw [hl]
              intro h
              have hab := NodeRef.heap.inj h
              rw [hab] at ha
              exact (List.nodup_append.mp hnd).2.2 hb ha
          · intro h
            exact hmem_t a ha (NodeRef.heap.inj h)
      · rw [hml, hmlA]
        exact hf.stuck
      · rw [hml, hmlA]
        exact hf.pos
    constructor
    · intro e he
      rw [nodeAt_congr (by rfl)]
      exact hflat.nodes e he
    · exact hflat.nodup
    · exact chainFrom_frame (fun q => forward_congr (by cases q <;> rfl) 0) hflat.chain
    · exact hflat.stuck
    · exact hflat.pos
  · show (s2._size + 1) % 2 ^ 64 = (s._size + 1) % 2 ^ 64
    rw [hsz]
    rfl
  · exact hml.trans hmlA

theorem items_flatInsert [LinearOrder K] (es : List (Entry K V)) (a : Nat) (key : K)
    (value : V) (h : Nat) :
    items (es.takeWhile (fun e => decide (¬ key < e.key)) ++
      ⟨a, key, value, h⟩ :: es.dropWhile (fun e => decide (¬ key < e.key))) =
      flatInsert key value (items es) := by
  unfold items flatInsert
  rw [List.map_append, List.map_cons, List.takeWhile_map, List.dropWhile_map]
  rfl

theorem length_flatInsert [LinearOrder K] (es : List (Entry K V)) (e1 : Entry K V) (key : K) :
    (es.takeWhile (fun e => decide (¬ key < e.key)) ++
      e1 :: es.dropWhile (fun e => decide (¬ key < e.key))).length = es.length + 1 := by
  have h := congrArg List.length
    (List.takeWhile_append_dropWhile (fun e => decide (¬ key < e.key)) es)
  simp only [List.length_append, List.length_cons] at h ⊢
  omega

/-- One operation on a container whose level loops never run. -/
theorem flat_step [LinearOrder K] {s : SkipList K V} {es : List (Entry K V)}
    (hf : Flat s es) (hsz : s._size = es.length % 2 ^ 64) (op : Op K V) :
    ∃ s1 es1, step s op = .ok s1 ∧ Flat s1 es1 ∧ max_level s1 = max_level s ∧
      s1._size = es1.length % 2 ^ 64 ∧ items es1 = flatModel [op] (items es) := by
  cases op with
  | insert key value rnd =>
    rcases flat_insert hf key value rnd with ⟨s2, hins, hflat, hsz2, hml2⟩
    refine ⟨s2, _, by simp only [step, hins], hflat, hml2, ?_, items_flatInsert _ _ _ _ _⟩
    rw [hsz2, hsz, length_flatInsert]
    omega
  | remove key =>
    exact ⟨s, es, by simp only [step, flat_remove hf key], hf, rfl, hsz, rfl⟩

theorem flatModel_append [LinearOrder K] (ops1 ops2 : List (Op K V)) (l : List (K × V)) :
    flatModel (ops1 ++ ops2) l = flatModel ops2 (flatModel ops1 l) := by
  induction ops1 generalizing l with
  | nil => rfl
  | cons op ops ih =>
    cases op with
    | insert key value rnd => exact ih _
    | remove key => exact ih _

theorem flat_runFrom [LinearOrder K] :
    ∀ (ops : List (Op K V)) (s : SkipList K V) (es : List (Entry K V)), Flat s es →
      s._size = es.length % 2 ^ 64 →
      ∃ s1 es1, runFrom s ops = .ok s1 ∧ Flat s1 es1 ∧ max_level s1 = max_level s ∧
        s1._size = es1.length % 2 ^ 64 ∧ items es1 = flatModel ops (items es)
  | [], s, es, hf, hsz => ⟨s, es, rfl, hf, rfl, hsz, rfl⟩
  | op :: ops, s, es, hf, hsz => by
    rcases flat_step hf hsz op with ⟨s1, es1, hstep, hf1, hml1, hsz1, hit1⟩
    rcases flat_runFrom ops s1 es1 hf1 hsz1 with ⟨s2, es2, hrun, hf2, hml2, hsz2, hit2⟩
    refine ⟨s2, es2, by simp only [runFrom, hstep, hrun], hf2, by rw [hml2, hml1], hsz2, ?_⟩
    rw [hit2, hit1]
    exact (flatModel_append [op] ops (items es)).symm

/-- Every program run on a fresh container whose level loops never run ends
in a state that holds one entry for every `insert` of the program. -/
theorem flat_run [LinearOrder K] [Inhabited K] [Inhabited V] (ml : Nat) (hml : 1 ≤ ml)
    (h0 : loopLevels ml = 0) (ops : List (Op K V)) :
    ∃ (s : SkipList K V) (es : List (Entry K V)), run ml ops = .ok s ∧ Flat s es ∧
      max_level s = ml ∧ s._size = es.length % 2 ^ 64 ∧ items es = flatModel ops [] := by
  rcases flat_runFrom ops (construct ml : SkipList K V) [] (flat_construct ml hml h0) rfl with
    ⟨s, es, hrun, hf, hmlv, hsz, hit⟩
  exact ⟨s, es, hrun, hf, by rw [hmlv, max_level_construct], hsz, hit⟩

theorem flat_run_rep [LinearOrder K] [Inhabited K] [Inhabited V] {ml : Nat} (hml : 1 ≤ ml)
    (h0 : loopLevels ml = 0) {ops : List (Op K V)} {s : SkipList K V}
    (hrun : run ml ops = .ok s) :
    ∃ es : List (Entry K V), Flat s es ∧ max_level s = ml ∧ s._size = es.length % 2 ^ 64 ∧
      items es = flatModel ops [] := by
  rcases flat_run ml hml h0 ops with ⟨s1, es, hrun1, hf, hmlv, hsz, hit⟩
  rw [hrun] at hrun1
  cases hrun1
  exact ⟨es, hf, hmlv, hsz, hit⟩

/-- The mutable `operator[]` on a container whose level loops never run
inserts a default value, whatever the container holds. -/
theorem flat_subscript [LinearOrder K] [Inhabited V] {s : SkipList K V}
    {es : List (Entry K V)} (hf : Flat s es) (k : K) (rnd : Nat → Nat) :
    ∃ s2, subscript s k rnd = .ok (s2, s.heap.length) ∧
      Flat s2 (es.takeWhile (fun e => decide (¬ k < e.key)) ++
        ⟨s.heap.length, k, default, 1⟩ :: es.dropWhile (fun e => decide (¬ k < e.key))) ∧
      s2._size = (s._size + 1) % 2 ^ 64 ∧ max_level s2 = max_level s := by
  have hfind := flat_find hf k
  rcases flat_insert hf k (default : V) rnd with ⟨s1, hins, hflat, hsz1, hmlv1⟩
  have hmem : (⟨s.heap.length, k, default, 1⟩ : Entry K V) ∈
      es.takeWhile (fun e => decide (¬ k < e.key)) ++
        ⟨s.heap.length, k, default, 1⟩ :: es.dropWhile (fun e => decide (¬ k < e.key)) := by
    simp
  have hstar : Iterator.star s1 ⟨some s.heap.length⟩ = .ok (k, default) :=
    star_of_nodeAt (hflat.nodes ⟨s.heap.length, k, default, 1⟩ hmem).1
  exact ⟨s1, by simp [subscript, hfind, Iterator.toBool, hins, hstar], hflat, hsz1, hmlv1⟩

end SkipList

/-! The claims -/

namespace SkipList

variable {K V : Type}

/-- C1, the ordering invariant, for the containers whose initial level
`(int)(max_level()-1)` is not negative: on a container constructed with such a
`max_level >= 1`, every sequence of `insert` and `remove` operations returns,
whatever the random draws, and one iteration from `begin()` to `end()` then
yields keys in strictly increasing order, hence without a duplicate key. -/
theorem C1_iteration_strictly_increasing [LinearOrder K] [Inhabited K] [Inhabited V]
    (ml : Nat) (hml : 1 ≤ ml) (hint : 0 ≤ topLevel ml) (ops : List (Op K V)) :
    ∃ (s : SkipList K V) (l : List (K × V)), run ml ops = .ok s ∧ toList s = .ok l ∧
      l.Pairwise (fun a b => a.1 < b.1) ∧ (l.map Prod.fst).Nodup := by
  have hg : 1 ≤ loopLevels ml := (loopLevels_pos_iff ml).mpr hint
  rcases run_spec ml hg ops with ⟨s, es, hrun, hr, hmlv, -, -, -⟩
  have hs := items_sorted hr.sorted
  refine ⟨s, items es, hrun, toList_rep hr (by omega), hs, ?_⟩
  have h1 : (List.map Prod.fst (items es)).Pairwise (fun a b => a < b) :=
    List.pairwise_map.mpr hs
  exact List.Pairwise.imp (fun {a b} (h : a < b) => ne_of_lt h) h1

/-- A run of C1 on a concrete program. -/
theorem C1_iteration_strictly_increasing_witness :
    1 ≤ 3 ∧ 0 ≤ topLevel 3 ∧ ∃ (s : SkipList Nat Nat) (l : List (Nat × Nat)),
      run 3 [.insert 5 50 (fun _ => 0), .insert 1 10 (fun _ => 1), .remove 5,
        .insert 3 30 (fun i => i)] = .ok s ∧ toList s = .ok l ∧
      l.Pairwise (fun a b => a.1 < b.1) ∧ (l.map Prod.fst).Nodup :=
  ⟨by decide, by decide, C1_iteration_strictly_increasing 3 (by decide) (by decide) _⟩

/-- C1 fails for `max_level = 2 ^ 31 + 1`, where `(int)(max_level()-1)` is
`-2 ^ 31`: `find` scans no level, so `insert(4, 40); insert(4, 41);` links
two nodes of key `4`, and the iteration yields the key `4` twice. -/
theorem C1_counterexample :
    ∃ s : SkipList Nat Nat,
      run (2 ^ 31 + 1) [.insert 4 40 (fun _ => 0), .insert 4 41 (fun _ => 0)] = .ok s ∧
      toList s = .ok [(4, 40), (4, 41)] := by
  rcases flat_run (2 ^ 31 + 1) (by decide) (by decide)
    [Op.insert 4 40 (fun _ => 0), Op.insert 4 41 (fun _ => 0)] with
    ⟨s, es, hrun, hf, -, -, hit⟩
  refine ⟨s, hrun, ?_⟩
  rw [flat_toList hf, hit]
  rfl

/-- C2, the round trip, for the containers whose initial level
`(int)(max_level()-1)` is not negative: when the last `insert` of key `k`
stored `v` and no operation on `k` came after it, `find(k)` returns a
non-empty iterator whose entry is `(k, v)`. -/
theorem C2_find_after_insert [LinearOrder K] [Inhabited K] [Inhabited V]
    (ml : Nat) (hml : 1 ≤ ml) (hint : 0 ≤ topLevel ml) (pre post : List (Op K V)) (k : K)
    (v : V) (rnd : Nat → Nat) (hpost : ∀ op ∈ post, op.key ≠ k) :
    ∃ (s : SkipList K V) (it : Iterator), run ml (pre ++ Op.insert k v rnd :: post) = .ok s ∧
      find s k = .ok it ∧ it.toBool = true ∧ it.star s = .ok (k, v) := by
  have hg : 1 ≤ loopLevels ml := (loopLevels_pos_iff ml).mpr hint
  rcases run_spec ml hg (pre ++ Op.insert k v rnd :: post) with
    ⟨s, es, hrun, hr, hmlv, -, hit, -⟩
  have hmem : (k, v) ∈ items es := by
    rw [hit, model_append]
    exact mem_model_of_untouched post _ hpost (mem_mInsert_self k v _)
  rcases mem_items.mp hmem with ⟨e, he, hkv⟩
  have hk : e.key = k := congrArg Prod.fst hkv
  refine ⟨s, ⟨some e.addr⟩, hrun, find_found hr (by omega) e he hk, rfl, ?_⟩
  rw [star_of_nodeAt (hr.nodes e he).1, hkv]

/-- A run of C2 on a concrete program. -/
theorem C2_find_after_insert_witness :
    1 ≤ 2 ∧ 0 ≤ topLevel 2 ∧
      (∀ op ∈ [Op.insert 1 10 (fun _ => 0), Op.remove 9], op.key ≠ (4 : Nat)) ∧
      ∃ (s : SkipList Nat Nat) (it : Iterator),
        run 2 ([Op.insert 4 0 (fun _ => 0), Op.insert 9 90 (fun _ => 1)] ++
          Op.insert 4 40 (fun _ => 0) :: [Op.insert 1 10 (fun _ => 0), Op.remove 9]) = .ok s ∧
        find s 4 = .ok it ∧ it.toBool = true ∧ it.star s = .ok (4, 40) :=
  ⟨by decide, by decide, by simp [Op.key],
    C2_find_after_insert 2 (by decide) (by decide) _ _ 4 40 _ (by simp [Op.key])⟩

/-- C2 fails for `max_level = 2 ^ 31 + 1`: after `insert(4, 40)` the
iteration yields `(4, 40)`, but `find(4)` scans no level and returns the
empty iterator. -/
theorem C2_counterexample :
    ∃ s : SkipList Nat Nat, run (2 ^ 31 + 1) [.insert 4 40 (fun _ => 0)] = .ok s ∧
      toList s = .ok [(4, 40)] ∧ find s 4 = .ok ⟨none⟩ := by
  rcases flat_run (2 ^ 31 + 1) (by decide) (by decide) [Op.insert 4 40 (fun _ => 0)] with
    ⟨s, es, hrun, hf, -, -, hit⟩
  refine ⟨s, hrun, ?_, flat_find hf 4⟩
  rw [flat_toList hf, hit]
  rfl

/-- C3, removal correctness: immediately after `remove(k)` the call `find(k)`
returns the empty iterator, whether or not `k` was present. -/
theorem C3_find_after_remove [LinearOrder K] [Inhabited K] [Inhabited V]
    (ml : Nat) (hml : 1 ≤ ml) (ops : List (Op K V)) (k : K) :
    ∃ (s s1 : SkipList K V) (it : Iterator), run ml ops = .ok s ∧
      remove s k = .ok (s1, it) ∧ find s1 k = .ok ⟨none⟩ := by
  by_cases hg : 1 ≤ loopLevels ml
  · rcases run_spec ml hg ops with ⟨s, es, hrun, hr, hmlv, -, -, -⟩
    by_cases hp : ∃ e ∈ es, e.key = k
    · rcases hp with ⟨e0, he0, hk0⟩
      rcases remove_present hr (by omega) e0 he0 hk0 with ⟨s1, hrem, hrep, -, -⟩
      refine ⟨s, s1, _, hrun, hrem, find_absent hrep ?_⟩
      intro e he
      simpa using (List.mem_filter.mp he).2
    · have habs : ∀ e ∈ es, e.key ≠ k := fun e he hk => hp ⟨e, he, hk⟩
      exact ⟨s, s, _, hrun, remove_absent hr habs, find_absent hr habs⟩
  · rcases flat_run ml hml (by omega) ops with ⟨s, es, hrun, hf, -, -, -⟩
    exact ⟨s, s, _, hrun, flat_remove hf k, flat_find hf k⟩

/-- A run of C3 on a concrete program. -/
theorem C3_find_after_remove_witness :
    1 ≤ 3 ∧ ∃ (s s1 : SkipList Nat Nat) (it : Iterator),
      run 3 [.insert 5 50 (fun _ => 0), .insert 1 10 (fun _ => 1)] = .ok s ∧
      remove s 5 = .ok (s1, it) ∧ find s1 5 = .ok ⟨none⟩ :=
  ⟨by decide, C3_find_after_remove 3 (by decide) _ 5⟩

end SkipList

namespace SkipList

variable {K V : Type}

/-- The state a program ends in is represented by some entries. -/
theorem run_rep [LinearOrder K] [Inhabited K] [Inhabited V] {ml : Nat}
    (hg : 1 ≤ loopLevels ml) {ops : List (Op K V)} {s : SkipList K V}
    (hrun : run ml ops = .ok s) :
    ∃ es : List (Entry K V), Rep s es ∧ max_level s = ml ∧ s._size = es.length % 2 ^ 64 ∧
      items es = model ops [] ∧ es.length ≤ ops.length := by
  rcases run_spec ml hg ops with ⟨s1, es, hrun1, hr, hmlv, hsz, hit, hlen⟩
  rw [hrun] at hrun1
  cases hrun1
  exact ⟨es, hr, hmlv, hsz, hit, hlen⟩

theorem items_append (x y : List (Entry K V)) : items (x ++ y) = items x ++ items y := by
  simp [items]

theorem items_length (es : List (Entry K V)) : (items es).length = es.length := by
  simp [items]

theorem entry_of_item [LinearOrder K] {es : List (Entry K V)} {k : K} {v : V}
    (hs : es.Pairwise (fun a b => a.key < b.key)) (e0 : Entry K V) (he0 : e0 ∈ es)
    (hk0 : e0.key = k) (hmem : (k, v) ∈ items es) : e0.val = v := by
  rcases mem_items.mp hmem with ⟨e, he, hkv⟩
  have hk : e.key = k := congrArg Prod.fst hkv
  have hv : e.val = v := congrArg Prod.snd hkv
  have := sorted_key_inj es hs e he e0 he0 (by rw [hk, hk0])
  rw [← this, hv]

/-- C4, uniqueness, for the containers whose initial level
`(int)(max_level()-1)` is not negative: when the iteration holds a pair
`(k, v0)`, `find(k)` locates it, and `insert(k, v1)` leaves `size()`
unchanged, keeps every other entry and the position of the entry of `k`,
stores `v1` there, and a following `find(k)` yields `v1`. -/
theorem C4_insert_present_overwrites [LinearOrder K] [Inhabited K] [Inhabited V]
    (ml : Nat) (hml : 1 ≤ ml) (hint : 0 ≤ topLevel ml) (ops : List (Op K V))
    (s : SkipList K V) (hrun : run ml ops = .ok s) (l : List (K × V))
    (hl : toList s = .ok l) (k : K) (v0 v1 : V) (hpres : (k, v0) ∈ l) (rnd : Nat → Nat) :
    ∃ (s1 : SkipList K V) (it : Iterator) (pre post : List (K × V)),
      find s k = .ok it ∧ it.toBool = true ∧
      insert s k v1 rnd = .ok (s1, it) ∧ size s1 = size s ∧
      l = pre ++ (k, v0) :: post ∧ toList s1 = .ok (pre ++ (k, v1) :: post) ∧
      find s1 k = .ok it ∧ it.star s1 = .ok (k, v1) := by
  have hg : 1 ≤ loopLevels ml := (loopLevels_pos_iff ml).mpr hint
  rcases run_rep hg hrun with ⟨es, hr, hmlv, -, -, -⟩
  have hml1 : 1 ≤ max_level s := by omega
  rw [toList_rep hr hml1] at hl
  cases hl
  rcases mem_items.mp hpres with ⟨e0, he0, hkv⟩
  have hk0 : e0.key = k := congrArg Prod.fst hkv
  have hv0 : e0.val = v0 := congrArg Prod.snd hkv
  rcases insert_present hr hml1 e0 he0 hk0 v1 rnd with ⟨s1, hins, hrep, hsz, hmlv1⟩
  have hsplit := sorted_split_mem es hr.sorted e0 he0
  rw [hk0] at hsplit
  have hmem1 : (⟨e0.addr, k, v1, e0.height⟩ : Entry K V) ∈
      es.filter (fun e => decide (e.key < k)) ++
        ⟨e0.addr, k, v1, e0.height⟩ :: es.filter (fun e => decide (k < e.key)) := by simp
  refine ⟨s1, ⟨some e0.addr⟩, items (es.filter (fun e => decide (e.key < k))),
    items (es.filter (fun e => decide (k < e.key))), find_found hr hml1 e0 he0 hk0, rfl,
    hins, hsz, ?_, ?_, ?_, ?_⟩
  · conv_lhs => rw [hsplit]
    rw [items_append]
    simp only [items, List.map_cons, hk0, hv0]
  · rw [toList_rep hrep (by omega), items_append]
    simp only [items, List.map_cons]
  · exact find_found hrep (by omega) ⟨e0.addr, k, v1, e0.height⟩ hmem1 rfl
  · exact star_of_nodeAt (hrep.nodes ⟨e0.addr, k, v1, e0.height⟩ hmem1).1

/-- A run of C4 on a concrete state. -/
theorem C4_insert_present_overwrites_witness :
    1 ≤ 2 ∧ 0 ≤ topLevel 2 ∧ run 2 sampleOps = .ok sampleState ∧
      toList sampleState = .ok [(1, 10), (7, 70)] ∧ (7, 70) ∈ [(1, 10), (7, 70)] ∧
      ∃ (s1 : SkipList Nat Nat) (it : Iterator) (pre post : List (Nat × Nat)),
        find sampleState 7 = .ok it ∧ it.toBool = true ∧
        insert sampleState 7 71 (fun _ => 0) = .ok (s1, it) ∧
        size s1 = size sampleState ∧
        [(1, 10), (7, 70)] = pre ++ (7, 70) :: post ∧
        toList s1 = .ok (pre ++ (7, 71) :: post) ∧
        find s1 7 = .ok it ∧ it.star s1 = .ok (7, 71) :=
  ⟨by decide, by decide, by decide, by decide, by decide,
    C4_insert_present_overwrites 2 (by decide) (by decide) sampleOps sampleState (by decide)
      [(1, 10), (7, 70)] (by decide) 7 70 71 (by decide) (fun _ => 0)⟩

/-- C4 fails for `max_level = 2 ^ 31 + 1`: after `insert(4, 40)` the key `4`
is present, but `find` scans no level, so `insert(4, 41)` links a second
node: `size()` grows from `1` to `2` and the iteration gains an entry. -/
theorem C4_counterexample :
    ∃ (s s1 : SkipList Nat Nat) (it : Iterator),
      run (2 ^ 31 + 1) [.insert 4 40 (fun _ => 0)] = .ok s ∧
      toList s = .ok [(4, 40)] ∧ size s = 1 ∧
      insert s 4 41 (fun _ => 0) = .ok (s1, it) ∧ size s1 = 2 ∧
      toList s1 = .ok [(4, 40), (4, 41)] := by
  rcases flat_run (2 ^ 31 + 1) (by decide) (by decide) [Op.insert 4 40 (fun _ => 0)] with
    ⟨s, es, hrun, hf, -, hsz, hit⟩
  have hit1 : items es = [(4, 40)] := hit
  have hlen : es.length = 1 := by
    rw [← items_length, hit1]
    rfl
  have hsize : size s = 1 := by
    show s._size = 1
    rw [hsz, hlen]
    rfl
  rcases flat_insert hf 4 41 (fun _ => 0) with ⟨s1, hins, hf1, hsz1, -⟩
  refine ⟨s, s1, _, hrun, by rw [flat_toList hf, hit1], hsize, hins, ?_, ?_⟩
  · show s1._size = 2
    rw [hsz1]
    have : s._size = 1 := hsize
    rw [this]
    rfl
  · rw [flat_toList hf1, items_flatInsert, hit1]
    rfl

end SkipList

namespace SkipList

variable {K V : Type}

/-- C6 fails on the code: after `insert(1, 10); insert(7, 70); clear();` the
counter is `0`, but `clear()` has written no link and freed no node: the head
slots still point to the nodes, iteration still yields both pairs and
`find(7)` still succeeds. -/
theorem C6_clear_keeps_every_link :
    run 2 sampleOps = .ok sampleState ∧
      clear sampleState = .ok { sampleState with _size := 0 } ∧
      size { sampleState with _size := 0 } = 0 ∧
      forward { sampleState with _size := 0 } .head 0 = .ok (some 0) ∧
      forward { sampleState with _size := 0 } .head 1 = .ok (some 1) ∧
      toList { sampleState with _size := 0 } = .ok [(1, 10), (7, 70)] ∧
      find { sampleState with _size := 0 } 7 = .ok ⟨some 1⟩ := by
  decide

/-- C7, removing an absent key: when `find(k)` returns the empty iterator,
`remove(k)` returns the empty iterator and the very same state, so `size()`,
the iterated sequence and every forward link are unchanged. -/
theorem C7_remove_absent_changes_nothing [LinearOrder K] [Inhabited K] [Inhabited V]
    (ml : Nat) (hml : 1 ≤ ml) (ops : List (Op K V)) (s : SkipList K V)
    (hrun : run ml ops = .ok s) (k : K) (habs : find s k = .ok ⟨none⟩) :
    remove s k = .ok (s, ⟨none⟩) := by
  by_cases hg : 1 ≤ loopLevels ml
  · rcases run_rep hg hrun with ⟨es, hr, hmlv, -, -, -⟩
    exact remove_absent hr (find_none_absent hr (by omega) habs)
  · rcases flat_run_rep hml (by omega) hrun with ⟨es, hf, -, -, -⟩
    exact flat_remove hf k

/-- A run of C7 on a concrete state. -/
theorem C7_remove_absent_changes_nothing_witness :
    1 ≤ 2 ∧ run 2 sampleOps = .ok sampleState ∧ find sampleState 5 = .ok ⟨none⟩ ∧
      remove sampleState 5 = .ok (sampleState, ⟨none⟩) :=
  ⟨by decide, by decide, by decide,
    C7_remove_absent_changes_nothing 2 (by decide) sampleOps sampleState (by decide) 5
      (by decide)⟩

end SkipList

namespace SkipList

variable {K V : Type}

end SkipList

namespace SkipList

variable {K V : Type}

theorem readRef_of_nodeAt {s : SkipList K V} {e : Entry K V} (h : NodeAt s e) :
    readRef s e.addr = .ok e.val := by
  rcases h with ⟨n, hn, hi, -⟩
  simp only [readRef, hn, hi]

/-- Assigning through a reference to the value of a represented entry. -/
theorem writeRef_rep [LinearOrder K] {s : SkipList K V} {es : List (Entry K V)} {k : K}
    (hr : Rep s es) (hml : 1 ≤ max_level s) (e0 : Entry K V) (he0 : e0 ∈ es)
    (hk0 : e0.key = k) (w : V) :
    ∃ s2, writeRef s e0.addr w = .ok s2 ∧ find s2 k = .ok ⟨some e0.addr⟩ ∧
      Iterator.star s2 ⟨some e0.addr⟩ = .ok (k, w) := by
  rcases setValue_rep hr e0 he0 hk0 w with ⟨s2, hset, hrep, -, hmlv⟩
  have hmem : (⟨e0.addr, k, w, e0.height⟩ : Entry K V) ∈
      es.filter (fun e => decide (e.key < k)) ++
        ⟨e0.addr, k, w, e0.height⟩ :: es.filter (fun e => decide (k < e.key)) := by simp
  exact ⟨s2, hset, find_found hrep (by omega) ⟨e0.addr, k, w, e0.height⟩ hmem rfl,
    star_of_nodeAt (hrep.nodes ⟨e0.addr, k, w, e0.height⟩ hmem).1⟩

/-- C9, the mutable `operator[]`, for the containers whose initial level
`(int)(max_level()-1)` is not negative: for a present key it returns a
reference to the stored value and leaves the state as it is; for an absent
key it inserts the key with the default value, so that `size()` grows by one
(as far as a `size_t` can count) and `find(k)` yields the default value, and
returns a reference to that value; in both cases assigning through the
reference makes `find(k)` yield the assigned value. -/
theorem C9_subscript_lookup_or_default [LinearOrder K] [Inhabited K] [Inhabited V]
    (ml : Nat) (hml : 1 ≤ ml) (hint : 0 ≤ topLevel ml) (ops : List (Op K V))
    (s : SkipList K V) (hrun : run ml ops = .ok s) (k : K) (rnd : Nat → Nat) :
    ∃ (s1 : SkipList K V) (a : Nat) (l : List (K × V)),
      subscript s k rnd = .ok (s1, a) ∧ toList s = .ok l ∧
      (∀ v, (k, v) ∈ l → s1 = s ∧ readRef s1 a = .ok v) ∧
      ((∀ p ∈ l, p.1 ≠ k) →
        (l.length + 1 < 2 ^ 64 → size s1 = size s + 1) ∧
        (∃ pre post, l = pre ++ post ∧ toList s1 = .ok (pre ++ (k, default) :: post)) ∧
        find s1 k = .ok ⟨some a⟩ ∧ Iterator.star s1 ⟨some a⟩ = .ok (k, default) ∧
        readRef s1 a = .ok default) ∧
      (∀ w, ∃ s2, writeRef s1 a w = .ok s2 ∧ find s2 k = .ok ⟨some a⟩ ∧
        Iterator.star s2 ⟨some a⟩ = .ok (k, w)) := by
  have hg : 1 ≤ loopLevels ml := (loopLevels_pos_iff ml).mpr hint
  rcases run_rep hg hrun with ⟨es, hr, hmlv, hsz, -, -⟩
  have hml1 : 1 ≤ max_level s := by omega
  by_cases hp : ∃ e ∈ es, e.key = k
  · rcases hp with ⟨e0, he0, hk0⟩
    have hfind := find_found hr hml1 e0 he0 hk0
    have hstar := star_of_nodeAt (hr.nodes e0 he0).1
    refine ⟨s, e0.addr, items es, ?_, toList_rep hr hml1, ?_, ?_, ?_⟩
    · simp [subscript, hfind, Iterator.toBool, hstar]
    · intro v hv
      rw [← entry_of_item hr.sorted e0 he0 hk0 hv]
      exact ⟨rfl, readRef_of_nodeAt (hr.nodes e0 he0).1⟩
    · intro habs
      exact absurd hk0 (habs (e0.key, e0.val) (mem_items.mpr ⟨e0, he0, rfl⟩))
    · intro w
      exact writeRef_rep hr hml1 e0 he0 hk0 w
  · have habs : ∀ e ∈ es, e.key ≠ k := fun e he hk => hp ⟨e, he, hk⟩
    have hfind := find_absent hr habs
    rcases insert_absent hr hml1 habs (default : V) rnd with
      ⟨s1, lv, d, -, -, -, hins, hrep, hsz1, hmlv1⟩
    have hmem : (⟨s.heap.length, k, default, lv + 1⟩ : Entry K V) ∈
        es.filter (fun e => decide (e.key < k)) ++
          ⟨s.heap.length, k, default, lv + 1⟩ :: es.filter (fun e => decide (k < e.key)) := by
      simp
    have hnode := (hrep.nodes ⟨s.heap.length, k, default, lv + 1⟩ hmem).1
    have hstar : Iterator.star s1 ⟨some s.heap.length⟩ = .ok (k, default) :=
      star_of_nodeAt hnode
    have hfind1 : find s1 k = .ok ⟨some s.heap.length⟩ :=
      find_found hrep (by omega) ⟨s.heap.length, k, default, lv + 1⟩ hmem rfl
    refine ⟨s1, s.heap.length, items es, ?_, toList_rep hr hml1, ?_, ?_, ?_⟩
    · simp [subscript, hfind, Iterator.toBool, hins, hstar]
    · intro v hv
      rcases mem_items.mp hv with ⟨e, he, hkv⟩
      exact absurd (congrArg Prod.fst hkv) (habs e he)
    · intro _
      refine ⟨?_, ?_, hfind1, hstar, readRef_of_nodeAt hnode⟩
      · intro hlen
        rw [items_length] at hlen
        show s1._size = s._size + 1
        rw [hsz1, hsz]
        omega
      · refine ⟨items (es.filter (fun e => decide (e.key < k))),
          items (es.filter (fun e => decide (k < e.key))), ?_, ?_⟩
        · rw [← items_append, ← sorted_split_absent hr.sorted habs]
        · rw [toList_rep hrep (by omega), items_append]
          simp only [items, List.map_cons]
    · intro w
      exact writeRef_rep hrep (by omega) ⟨s.heap.length, k, default, lv + 1⟩ hmem rfl w

/-- A run of C9 on a concrete state. -/
theorem C9_subscript_lookup_or_default_witness :
    1 ≤ 2 ∧ 0 ≤ topLevel 2 ∧ run 2 sampleOps = .ok sampleState ∧
      ∃ (s1 : SkipList Nat Nat) (a : Nat) (l : List (Nat × Nat)),
        subscript sampleState 5 (fun _ => 0) = .ok (s1, a) ∧ toList sampleState = .ok l ∧
        (∀ v, (5, v) ∈ l → s1 = sampleState ∧ readRef s1 a = .ok v) ∧
        ((∀ p ∈ l, p.1 ≠ 5) →
          (l.length + 1 < 2 ^ 64 → size s1 = size sampleState + 1) ∧
          (∃ pre post, l = pre ++ post ∧ toList s1 = .ok (pre ++ (5, default) :: post)) ∧
          find s1 5 = .ok ⟨some a⟩ ∧ Iterator.star s1 ⟨some a⟩ = .ok (5, default) ∧
          readRef s1 a = .ok default) ∧
        (∀ w, ∃ s2, writeRef s1 a w = .ok s2 ∧ find s2 5 = .ok ⟨some a⟩ ∧
          Iterator.star s2 ⟨some a⟩ = .ok (5, w)) :=
  ⟨by decide, by decide, by decide,
    C9_subscript_lookup_or_default 2 (by decide) (by decide) sampleOps sampleState
      (by decide) 5 (fun _ => 0)⟩

/-- C9 fails for `max_level = 2 ^ 31 + 1`: after `insert(4, 40)` the key `4`
is present with the value `40`, but `find` scans no level, so `operator[](4)`
inserts a second node of key `4` with the default value and returns a
reference to that value, `0`; the iteration then holds two entries of key `4`. -/
theorem C9_counterexample :
    ∃ (s s1 : SkipList Nat Nat) (a : Nat),
      run (2 ^ 31 + 1) [.insert 4 40 (fun _ => 0)] = .ok s ∧ toList s = .ok [(4, 40)] ∧
      subscript s 4 (fun _ => 0) = .ok (s1, a) ∧ readRef s1 a = .ok 0 ∧
      toList s1 = .ok [(4, 40), (4, 0)] := by
  rcases flat_run (2 ^ 31 + 1) (by decide) (by decide) [Op.insert 4 40 (fun _ => 0)] with
    ⟨s, es, hrun, hf, -, -, hit⟩
  have hit1 : items es = [(4, 40)] := hit
  rcases flat_subscript hf 4 (fun _ => 0) with ⟨s1, hsub, hf1, -, -⟩
  have hmem : (⟨s.heap.length, 4, default, 1⟩ : Entry Nat Nat) ∈
      es.takeWhile (fun e => decide (¬ 4 < e.key)) ++
        ⟨s.heap.length, 4, default, 1⟩ :: es.dropWhile (fun e => decide (¬ 4 < e.key)) := by
    simp
  refine ⟨s, s1, _, hrun, by rw [flat_toList hf, hit1], hsub,
    readRef_of_nodeAt (hf1.nodes _ hmem).1, ?_⟩
  rw [flat_toList hf1, items_flatInsert, hit1]
  rfl

/-- C10, the height of a new node: for `max_level >= 1` and any random
draws the coin-flip loop returns after at most `max_level - 1` calls of
`rand()` with `level + 1` in `[1, max_level]`, and the node `insert` then
creates for an absent key has exactly `level + 1` forward slots. -/
theorem C10_new_node_height (K V : Type) [LinearOrder K] [Inhabited K] [Inhabited V]
    (ml : Nat) (hml : 1 ≤ ml) (rnd : Nat → Nat) :
    ∃ level draws, levelLoop ml rnd (ml + 1) 0 0 = .ok (level, draws) ∧
      1 ≤ level + 1 ∧ level + 1 ≤ ml ∧ draws ≤ ml - 1 ∧
      ∀ (ops : List (Op K V)) (s : SkipList K V) (k : K) (v : V),
        run ml ops = .ok s → find s k = .ok ⟨none⟩ →
        ∃ (s1 : SkipList K V) (a : Nat) (n : Node K V),
          insert s k v rnd = .ok (s1, ⟨some a⟩) ∧ deref s1 (.heap a) = .ok n ∧
          n.forwards.length = level + 1 := by
  rcases levelLoop_spec ml rnd (ml + 1) 0 hml (by omega) with ⟨level, draws, hloop, -, hl, hd, -⟩
  refine ⟨level, draws, hloop, by omega, hl, hd, ?_⟩
  intro ops s k v hrun hfind
  by_cases hg : 1 ≤ loopLevels ml
  · rcases run_rep hg hrun with ⟨es, hr, hmlv, -, -, -⟩
    have hml1 : 1 ≤ max_level s := by omega
    rcases insert_absent hr hml1 (find_none_absent hr hml1 hfind) v rnd with
      ⟨s1, lv, d, hloop1, -, -, hins, hrep, -, -⟩
    rw [hmlv, hloop] at hloop1
    cases hloop1
    have hmem : (⟨s.heap.length, k, v, level + 1⟩ : Entry K V) ∈
        es.filter (fun e => decide (e.key < k)) ++
          ⟨s.heap.length, k, v, level + 1⟩ :: es.filter (fun e => decide (k < e.key)) := by
      simp
    rcases (hrep.nodes _ hmem).1 with ⟨n, hn, -, hlen⟩
    exact ⟨s1, s.heap.length, n, hins, hn, hlen⟩
  · have h0 : loopLevels ml = 0 := by omega
    have hloop0 := levelLoop_flat ml rnd ml (toInt_nonpos ml hml h0)
    rw [hloop] at hloop0
    cases hloop0
    rcases flat_run_rep hml h0 hrun with ⟨es, hf, -, -, -⟩
    rcases flat_insert hf k v rnd with ⟨s1, hins, hf1, -, -⟩
    have hmem : (⟨s.heap.length, k, v, 1⟩ : Entry K V) ∈
        es.takeWhile (fun e => decide (¬ k < e.key)) ++
          ⟨s.heap.length, k, v, 1⟩ :: es.dropWhile (fun e => decide (¬ k < e.key)) := by
      simp
    rcases (hf1.nodes _ hmem).1 with ⟨n, hn, -, hlen⟩
    exact ⟨s1, s.heap.length, n, hins, hn, hlen⟩

/-- A run of C10 on concrete draws. -/
theorem C10_new_node_height_witness :
    1 ≤ 3 ∧ ∃ level draws, levelLoop 3 (fun i => i) (3 + 1) 0 0 = .ok (level, draws) ∧
      1 ≤ level + 1 ∧ level + 1 ≤ 3 ∧ draws ≤ 3 - 1 ∧
      ∀ (ops : List (Op Nat Nat)) (s : SkipList Nat Nat) (k : Nat) (v : Nat),
        run 3 ops = .ok s → find s k = .ok ⟨none⟩ →
        ∃ (s1 : SkipList Nat Nat) (a : Nat) (n : Node Nat Nat),
          insert s k v (fun i => i) = .ok (s1, ⟨some a⟩) ∧ deref s1 (.heap a) = .ok n ∧
          n.forwards.length = level + 1 :=
  ⟨by decide, C10_new_node_height Nat Nat 3 (by decide) (fun i => i)⟩

end SkipList

namespace SkipList

variable {K V : Type}

/-- C11, dereferencing an iterator: `operator*` throws exactly when the
iterator is empty, so it throws on `end()` and on the result of `find(k)` for
an absent key, and on a non-empty iterator it returns the pair of the node
referred to; whenever the result of `find(k)` is not empty, it dereferences
to an entry of `k` that the iteration holds. -/
theorem C11_star_throws_exactly_on_empty [LinearOrder K] [Inhabited K] [Inhabited V]
    (ml : Nat) (hml : 1 ≤ ml) (ops : List (Op K V)) (s : SkipList K V)
    (hrun : run ml ops = .ok s) :
    (∀ it : Iterator, it.star s = .error .nullAccess ↔ it.toBool = false) ∧
      Iterator.star s («end» s) = .error .nullAccess ∧
      (∀ (it : Iterator) (a : Nat) (n : Node K V), it._node = some a →
        deref s (.heap a) = .ok n → it.star s = .ok n.item) ∧
      ∃ l, toList s = .ok l ∧
        ∀ k, ∃ it, find s k = .ok it ∧
          ((∀ p ∈ l, p.1 ≠ k) → it.toBool = false ∧ it.star s = .error .nullAccess) ∧
          (it.toBool = true → ∃ v, (k, v) ∈ l ∧ it.star s = .ok (k, v)) := by
  refine ⟨?_, rfl, ?_, ?_⟩
  · intro it
    rcases it with ⟨_ | a⟩
    · simp [Iterator.star, Iterator.toBool]
    · simp only [Iterator.star, Iterator.toBool, Option.isSome_some]
      cases hd : deref s (.heap a) with
      | error f =>
        simp only [deref] at hd
        split at hd
        · cases hd
        · cases hd
          simp
      | ok n => simp
  · intro it a n ha hn
    simp only [Iterator.star, ha, hn]
  · by_cases hg : 1 ≤ loopLevels ml
    · rcases run_rep hg hrun with ⟨es, hr, hmlv, -, -, -⟩
      have hml1 : 1 ≤ max_level s := by omega
      refine ⟨items es, toList_rep hr hml1, ?_⟩
      intro k
      by_cases hp : ∃ e ∈ es, e.key = k
      · rcases hp with ⟨e0, he0, hk0⟩
        refine ⟨⟨some e0.addr⟩, find_found hr hml1 e0 he0 hk0, ?_, ?_⟩
        · intro habs
          exact absurd hk0 (habs (e0.key, e0.val) (mem_items.mpr ⟨e0, he0, rfl⟩))
        · intro _
          refine ⟨e0.val, mem_items.mpr ⟨e0, he0, by rw [hk0]⟩, ?_⟩
          rw [star_of_nodeAt (hr.nodes e0 he0).1, hk0]
      · have habs : ∀ e ∈ es, e.key ≠ k := fun e he hk => hp ⟨e, he, hk⟩
        refine ⟨⟨none⟩, find_absent hr habs, fun _ => ⟨rfl, rfl⟩, ?_⟩
        intro h
        cases h
    · rcases flat_run_rep hml (by omega) hrun with ⟨es, hf, -, -, -⟩
      refine ⟨items es, flat_toList hf, ?_⟩
      intro k
      refine ⟨⟨none⟩, flat_find hf k, fun _ => ⟨rfl, rfl⟩, ?_⟩
      intro h
      cases h

/-- A run of C11 on a concrete state. -/
theorem C11_star_throws_exactly_on_empty_witness :
    1 ≤ 2 ∧ run 2 sampleOps = .ok sampleState ∧
      (∀ it : Iterator, it.star sampleState = .error .nullAccess ↔ it.toBool = false) ∧
      Iterator.star sampleState («end» sampleState) = .error .nullAccess ∧
      (∀ (it : Iterator) (a : Nat) (n : Node Nat Nat), it._node = some a →
        deref sampleState (.heap a) = .ok n → it.star sampleState = .ok n.item) ∧
      ∃ l, toList sampleState = .ok l ∧
        ∀ k, ∃ it, find sampleState k = .ok it ∧
          ((∀ p ∈ l, p.1 ≠ k) →
            it.toBool = false ∧ it.star sampleState = .error .nullAccess) ∧
          (it.toBool = true → ∃ v, (k, v) ∈ l ∧ it.star sampleState = .ok (k, v)) :=
  ⟨by decide, by decide,
    C11_star_throws_exactly_on_empty 2 (by decide) sampleOps sampleState (by decide)⟩

/-- C13 fails on the code: after `insert(1, 10); insert(7, 70);` and
`SkipList b(std::move(a));` the new object iterates both pairs with
`size() == 2`, but the moved-from source still reports `size() == 2`: its
head has lost every slot (so `find` finds nothing, and `begin()` and `clear()`
read a slot that does not exist) while `_size` was only copied. -/
theorem C13_moved_from_keeps_size :
    run 2 sampleOps = .ok sampleState ∧
      (moveConstruct sampleState).1 = sampleState ∧
      toList (moveConstruct sampleState).1 = .ok [(1, 10), (7, 70)] ∧
      size (moveConstruct sampleState).1 = 2 ∧
      size (moveConstruct sampleState).2 = 2 ∧
      max_level (moveConstruct sampleState).2 = 0 ∧
      find (moveConstruct sampleState).2 7 = .ok ⟨none⟩ ∧
      «begin» (moveConstruct sampleState).2 = .error .outOfBounds ∧
      toList (moveConstruct sampleState).2 = .error .outOfBounds ∧
      clear (moveConstruct sampleState).2 = .error .outOfBounds := by
  decide

/-- C14, `empty()`: it returns `size() > 0`, so it is `false` on a freshly
constructed container and `true` after one `insert`. -/
theorem C14_empty_is_size_positive [LinearOrder K] [Inhabited K] [Inhabited V]
    (ml : Nat) (hml : 1 ≤ ml) (k : K) (v : V) (rnd : Nat → Nat) :
    (∀ s : SkipList K V, empty s = decide (size s > 0)) ∧
      empty (construct ml : SkipList K V) = false ∧
      ∃ (s1 : SkipList K V) (it : Iterator),
        insert (construct ml : SkipList K V) k v rnd = .ok (s1, it) ∧ size s1 = 1 ∧
        empty s1 = true := by
  refine ⟨fun s => rfl, rfl, ?_⟩
  have hm0 : max_level (construct ml : SkipList K V) = ml := max_level_construct ml
  by_cases hg : 1 ≤ loopLevels ml
  · rcases insert_absent (rep_construct ml hg) (by rw [hm0]; exact hml)
      (fun e he => by cases he) v rnd with ⟨s1, l, d, -, -, -, hins, -, hsz, -⟩
    have hsz1 : s1._size = 1 := by
      rw [hsz]
      simp [construct]
    exact ⟨s1, _, hins, hsz1, by simp [empty, hsz1]⟩
  · rcases flat_insert (flat_construct ml hml (by omega)) k v rnd with ⟨s1, hins, -, hsz, -⟩
    have hsz1 : s1._size = 1 := by
      rw [hsz]
      simp [construct]
    exact ⟨s1, _, hins, hsz1, by simp [empty, hsz1]⟩

/-- A run of C14 on a concrete container. -/
theorem C14_empty_is_size_positive_witness :
    1 ≤ 3 ∧ (∀ s : SkipList Nat Nat, empty s = decide (size s > 0)) ∧
      empty (construct 3 : SkipList Nat Nat) = false ∧
      ∃ (s1 : SkipList Nat Nat) (it : Iterator),
        insert (construct 3 : SkipList Nat Nat) 4 40 (fun _ => 0) = .ok (s1, it) ∧
        size s1 = 1 ∧ empty s1 = true :=
  ⟨by decide, C14_empty_is_size_positive 3 (by decide) 4 40 (fun _ => 0)⟩

end SkipList

namespace SkipList

variable {K V : Type}

theorem clearLoop_chain {s : SkipList K V} :
    ∀ (l : List Nat) (fuel : Nat) (p : Option Nat), Chain s 0 p l → l.length < fuel →
      clearLoop s fuel p = .ok ()
  | _, 0, _, _, hf => absurd hf (Nat.not_lt_zero _)
  | [], fuel + 1, p, hc, _ => by
    have hp : p = none := hc
    subst hp
    rfl
  | a :: l, fuel + 1, p, hc, hf => by
    rcases hc with ⟨hp, q, hq, hrest⟩
    subst hp
    simp only [clearLoop, hq]
    exact clearLoop_chain l fuel q hrest (by simpa using hf)

/-- On a represented state `clear()` returns, and all it does is reset the
counter. -/
theorem clear_rep [LinearOrder K] {s : SkipList K V} {es : List (Entry K V)} (hr : Rep s es)
    (hml : 1 ≤ max_level s) : clear s = .ok { s with _size := 0 } := by
  rcases hr.levels 0 (by omega) with ⟨p, hp, hc⟩
  have hlen : (addrs (atLevel 0 es)).length < s.heap.length + 1 := by
    have h1 := rep_length_le hr
    have h2 : (addrs (atLevel 0 es)).length ≤ es.length := by
      simp only [addrs, List.length_map, atLevel]
      exact List.length_filter_le _ _
    omega
  simp only [clear, hp, clearLoop_chain _ _ p hc hlen]

/-- The state of a container whose level loops never run stays such a state
when only the counter `_size` is changed. -/
theorem flat_size {s : SkipList K V} {es : List (Entry K V)} (hf : Flat s es) (x : Nat) :
    Flat { s with _size := x } es := by
  constructor
  · intro e he
    rw [nodeAt_congr (by rfl)]
    exact hf.nodes e he
  · exact hf.nodup
  · exact chainFrom_frame (fun q => forward_congr (by cases q <;> rfl) 0) hf.chain
  · exact hf.stuck
  · exact hf.pos

/-- On a container whose level loops never run `clear()` returns, and all it
does is reset the counter. -/
theorem flat_clear {s : SkipList K V} {es : List (Entry K V)} (hf : Flat s es) :
    clear s = .ok { s with _size := 0 } := by
  rcases hf.chain with ⟨p, hp, hc⟩
  have hlen : (addrs es).length < s.heap.length + 1 := by
    have h1 := length_le_of_nodup (fun e he => (hf.nodes e he).1) hf.nodup
    simp only [addrs, List.length_map]
    omega
  simp only [clear, hp, clearLoop_chain _ _ p hc hlen]

/-- C20, the counter after `insert(k, v); clear(); remove(k);` on a fresh
container whose initial level `(int)(max_level()-1)` is not negative:
`clear()` resets the counter and writes no link, so `remove(k)` still finds
the node of `k`, unlinks and deletes it and decrements the counter from `0`;
`size()` is then `2 ^ 64 - 1` and iteration yields nothing. -/
theorem C20_size_wraps_after_clear_remove [LinearOrder K] [Inhabited K] [Inhabited V]
    (ml : Nat) (hml : 1 ≤ ml) (hint : 0 ≤ topLevel ml) (k : K) (v : V) (rnd : Nat → Nat) :
    ∃ (s1 s3 : SkipList K V) (a : Nat) (it3 : Iterator),
      insert (construct ml : SkipList K V) k v rnd = .ok (s1, ⟨some a⟩) ∧
      clear s1 = .ok { s1 with _size := 0 } ∧ size { s1 with _size := 0 } = 0 ∧
      find { s1 with _size := 0 } k = .ok ⟨some a⟩ ∧
      remove { s1 with _size := 0 } k = .ok (s3, it3) ∧
      size s3 = 2 ^ 64 - 1 ∧ toList s3 = .ok [] ∧ find s3 k = .ok ⟨none⟩ := by
  have hg : 1 ≤ loopLevels ml := (loopLevels_pos_iff ml).mpr hint
  have hm0 : max_level (construct ml : SkipList K V) = ml := max_level_construct ml
  rcases insert_absent (rep_construct ml hg) (by rw [hm0]; exact hml)
    (fun e he => by cases he) v rnd with ⟨s1, l, d, -, -, -, hins, hrep, hsz, hmlv⟩
  simp only [List.filter_nil, List.nil_append] at hrep
  have hml1 : 1 ≤ max_level s1 := by omega
  have hrep2 : Rep { s1 with _size := 0 }
      [(⟨(construct ml : SkipList K V).heap.length, k, v, l + 1⟩ : Entry K V)] :=
    rep_congr (fun r => by cases r <;> simp only [deref]) hrep
  have hml2 : 1 ≤ max_level { s1 with _size := 0 } := hml1
  rcases remove_present hrep2 hml2 _ (List.mem_singleton.mpr rfl) rfl with
    ⟨s3, hrem, hrep3, hsz3, hmlv3⟩
  have hnil : [(⟨(construct ml : SkipList K V).heap.length, k, v, l + 1⟩ : Entry K V)].filter
      (fun e => decide (e.key ≠ k)) = [] := by
    simp
  rw [hnil] at hrep3
  refine ⟨s1, s3, _, _, hins, clear_rep hrep hml1, rfl,
    find_found hrep2 hml2 _ (List.mem_singleton.mpr rfl) rfl, hrem, ?_, ?_, ?_⟩
  · show s3._size = 2 ^ 64 - 1
    rw [hsz3]
    simp only [Nat.zero_add]
    omega
  · rw [toList_rep hrep3 (by omega)]
    rfl
  · exact find_absent hrep3 (fun e he => by cases he)

/-- A run of C20 on a concrete container. -/
theorem C20_size_wraps_after_clear_remove_witness :
    1 ≤ 2 ∧ 0 ≤ topLevel 2 ∧ ∃ (s1 s3 : SkipList Nat Nat) (a : Nat) (it3 : Iterator),
      insert (construct 2 : SkipList Nat Nat) 4 40 (fun _ => 0) = .ok (s1, ⟨some a⟩) ∧
      clear s1 = .ok { s1 with _size := 0 } ∧ size { s1 with _size := 0 } = 0 ∧
      find { s1 with _size := 0 } 4 = .ok ⟨some a⟩ ∧
      remove { s1 with _size := 0 } 4 = .ok (s3, it3) ∧
      size s3 = 2 ^ 64 - 1 ∧ toList s3 = .ok [] ∧ find s3 4 = .ok ⟨none⟩ :=
  ⟨by decide, by decide,
    C20_size_wraps_after_clear_remove 2 (by decide) (by decide) 4 40 (fun _ => 0)⟩

/-- C20 fails for `max_level = 2 ^ 31 + 1`: after `insert(4, 40); clear();`
the call `remove(4)` scans no level, so it does not locate the node: it
returns the empty iterator and the very same state, `size()` stays `0`, and
the iteration still yields `(4, 40)`. -/
theorem C20_counterexample :
    ∃ (s1 : SkipList Nat Nat) (it : Iterator),
      insert (construct (2 ^ 31 + 1) : SkipList Nat Nat) 4 40 (fun _ => 0) = .ok (s1, it) ∧
      clear s1 = .ok { s1 with _size := 0 } ∧
      remove { s1 with _size := 0 } 4 = .ok ({ s1 with _size := 0 }, ⟨none⟩) ∧
      size { s1 with _size := 0 } = 0 ∧
      toList { s1 with _size := 0 } = .ok [(4, 40)] := by
  rcases flat_insert (flat_construct (2 ^ 31 + 1) (by decide) (by decide)) 4 40 (fun _ => 0)
    with ⟨s1, hins, hf1, -, -⟩
  simp only [List.takeWhile_nil, List.dropWhile_nil, List.nil_append] at hf1
  have hf2 := flat_size hf1 0
  refine ⟨s1, _, hins, flat_clear hf1, flat_remove hf2 4, rfl, ?_⟩
  rw [flat_toList hf2]
  rfl

end SkipList

namespace SkipList

variable {K V : Type}

/-- C18, in-bounds link access: in every state reached by a program on a
container with `max_level >= 1`, `find`, `insert` and `remove` return
normally, so no access `node->forwards[level]` of theirs left the array of
its node (the embedding checks every such access and would return
`Fault.outOfBounds`); with `max_level == 0` the first `insert` reads head
slot `0`, which does not exist. -/
theorem C18_links_in_bounds [LinearOrder K] [Inhabited K] [Inhabited V]
    (ml : Nat) (hml : 1 ≤ ml) (ops : List (Op K V)) (s : SkipList K V)
    (hrun : run ml ops = .ok s) (k : K) (v : V) (rnd : Nat → Nat) :
    (∃ it, find s k = .ok it) ∧
      (∃ s1 it, insert s k v rnd = .ok (s1, it)) ∧
      (∃ s1 it, remove s k = .ok (s1, it)) ∧
      insert (construct 0 : SkipList K V) k v rnd = .error .outOfBounds := by
  have hzero : insert (construct 0 : SkipList K V) k v rnd = .error .outOfBounds :=
    insert_no_level _ (max_level_construct 0) k v rnd
  by_cases hg : 1 ≤ loopLevels ml
  · rcases run_rep hg hrun with ⟨es, hr, hmlv, -, -, -⟩
    have hml1 : 1 ≤ max_level s := by omega
    refine ⟨?_, ?_, ?_, hzero⟩
    · by_cases hp : ∃ e ∈ es, e.key = k
      · rcases hp with ⟨e0, he0, hk0⟩
        exact ⟨_, find_found hr hml1 e0 he0 hk0⟩
      · exact ⟨_, find_absent hr (fun e he hk => hp ⟨e, he, hk⟩)⟩
    · by_cases hp : ∃ e ∈ es, e.key = k
      · rcases hp with ⟨e0, he0, hk0⟩
        rcases insert_present hr hml1 e0 he0 hk0 v rnd with ⟨s1, hins, -⟩
        exact ⟨s1, _, hins⟩
      · rcases insert_absent hr hml1 (fun e he hk => hp ⟨e, he, hk⟩) v rnd with
          ⟨s1, l, d, -, -, -, hins, -⟩
        exact ⟨s1, _, hins⟩
    · by_cases hp : ∃ e ∈ es, e.key = k
      · rcases hp with ⟨e0, he0, hk0⟩
        rcases remove_present hr hml1 e0 he0 hk0 with ⟨s1, hrem, -⟩
        exact ⟨s1, _, hrem⟩
      · exact ⟨s, _, remove_absent hr (fun e he hk => hp ⟨e, he, hk⟩)⟩
  · rcases flat_run_rep hml (by omega) hrun with ⟨es, hf, -, -, -⟩
    rcases flat_insert hf k v rnd with ⟨s1, hins, -⟩
    exact ⟨⟨_, flat_find hf k⟩, ⟨s1, _, hins⟩, ⟨s, _, flat_remove hf k⟩, hzero⟩

/-- A run of C18 on a concrete state. -/
theorem C18_links_in_bounds_witness :
    1 ≤ 2 ∧ run 2 sampleOps = .ok sampleState ∧
      (∃ it, find sampleState 5 = .ok it) ∧
      (∃ s1 it, insert sampleState 5 50 (fun _ => 0) = .ok (s1, it)) ∧
      (∃ s1 it, remove sampleState 5 = .ok (s1, it)) ∧
      insert (construct 0 : SkipList Nat Nat) 5 50 (fun _ => 0) = .error .outOfBounds :=
  ⟨by decide, by decide,
    C18_links_in_bounds 2 (by decide) sampleOps sampleState (by decide) 5 50 (fun _ => 0)⟩

end SkipList

namespace SkipList

variable {K V : Type}

theorem mem_insert_entries [LinearOrder K] (es : List (Entry K V)) (k : K) (e1 e : Entry K V)
    (hk1 : e1.key = k) (hne : e.key ≠ k) :
    e ∈ es.filter (fun x => decide (x.key < k)) ++
        e1 :: es.filter (fun x => decide (k < x.key)) ↔ e ∈ es := by
  constructor
  · intro h
    rcases List.mem_append.mp h with h | h
    · exact (List.mem_filter.mp h).1
    · rcases List.mem_cons.mp h with h | h
      · rw [h] at hne
        exact absurd hk1 hne
      · exact (List.mem_filter.mp h).1
  · intro h
    rcases lt_or_gt_of_ne hne with hlt | hgt
    · exact List.mem_append_left _ (List.mem_filter.mpr ⟨h, by simpa using hlt⟩)
    · exact List.mem_append_right _
        (List.mem_cons_of_mem _ (List.mem_filter.mpr ⟨h, by simpa using hgt⟩))

end SkipList

/-! Which heap slots hold a node -/

namespace SkipList

variable {K V : Type}

theorem live_setForward {s s1 : SkipList K V} {r : NodeRef} {L : Nat} {p : Option Nat}
    (h : setForward s r L p = .ok s1) (a : Nat) : Live s1 a ↔ Live s a := by
  rcases setForward_ok h with ⟨n, hn, -, hd, hoth, -⟩
  unfold Live
  by_cases hr : NodeRef.heap a = r
  · rw [hr, hd, hn]
    exact ⟨fun _ => ⟨_, rfl⟩, fun _ => ⟨_, rfl⟩⟩
  · rw [hoth _ hr]

theorem live_splice {s s2 : SkipList K V} {node node1 : NodeRef} {L new_node : Nat}
    {fwd : Option Nat} (h : splice s node L new_node fwd = .ok (s2, node1)) (a : Nat) :
    Live s2 a ↔ Live s a := by
  unfold splice at h
  split at h
  · cases h
  · rename_i s1 h1
    split at h
    · cases h
    · rename_i s3 h3
      cases h
      rw [live_setForward h3, live_setForward h1]

theorem live_insertScan [LinearOrder K] {key : K} {L new_node : Nat} :
    ∀ (fuel : Nat) (s s2 : SkipList K V) (node node1 : NodeRef),
      insertScan s key L new_node fuel node = .ok (s2, node1) → ∀ a, Live s2 a ↔ Live s a
  | 0, _, _, _, _, h, _ => by cases h
  | fuel + 1, s, s2, node, node1, h, a => by
    unfold insertScan at h
    split at h
    · cases h
    · exact live_splice h a
    · split at h
      · cases h
      · split at h
        · exact live_splice h a
        · exact live_insertScan fuel s s2 _ node1 h a

theorem live_insertLevels [LinearOrder K] {key : K} {new_node fuel : Nat} :
    ∀ (n : Nat) (s s2 : SkipList K V) (node : NodeRef),
      insertLevels key new_node fuel n s node = .ok s2 → ∀ a, Live s2 a ↔ Live s a
  | 0, s, s2, _, h, a => by
    cases h
    exact Iff.rfl
  | n + 1, s, s2, node, h, a => by
    unfold insertLevels at h
    split at h
    · cases h
    · rename_i s1 node1 h1
      rw [live_insertLevels n s1 s2 node1 h a, live_insertScan _ _ _ _ _ h1 a]

theorem live_setValue {s s1 : SkipList K V} {a0 : Nat} {value : V}
    (h : setValue s a0 value = .ok s1) (a : Nat) : Live s1 a ↔ Live s a := by
  unfold setValue at h
  split at h
  · cases h
  · rename_i n hn
    rcases setValue_ok hn value with ⟨s2, hset, hd, hoth, -, -⟩
    have hs : s1 = s2 := by
      have h2 : setValue s a0 value = .ok s1 := by
        simp only [setValue, hn]
        exact h
      rw [hset] at h2
      cases h2
      rfl
    subst hs
    unfold Live
    by_cases hr : NodeRef.heap a = .heap a0
    · rw [hr, hd, hn]
      exact ⟨fun _ => ⟨_, rfl⟩, fun _ => ⟨_, rfl⟩⟩
    · rw [hoth _ hr]

theorem live_alloc (s : SkipList K V) (h : Nat) (item : K × V) (a : Nat) :
    Live (alloc s h item).1 a ↔ Live s a ∨ a = s.heap.length := by
  unfold Live
  by_cases ha : a = s.heap.length
  · subst ha
    rw [deref_alloc_new]
    exact ⟨fun _ => Or.inr rfl, fun _ => ⟨_, rfl⟩⟩
  · rw [deref_alloc_old s h item _ (fun e => ha (NodeRef.heap.inj e))]
    exact ⟨fun h1 => Or.inl h1, fun h1 => h1.resolve_right ha⟩

theorem live_size (s : SkipList K V) (x : Nat) (a : Nat) :
    Live { s with _size := x } a ↔ Live s a := by
  unfold Live
  simp only [deref]

/-- A node that is live after `insert` was live before or is the node the
returned iterator is at. -/
theorem live_insert [LinearOrder K] {s s2 : SkipList K V} {key : K} {value : V}
    {rnd : Nat → Nat} {it : Iterator} (h : insert s key value rnd = .ok (s2, it)) (a : Nat)
    (ha : Live s2 a) : Live s a ∨ it._node = some a := by
  unfold insert at h
  split at h
  · cases h
  · rename_i a0 hfind
    split at h
    · cases h
    · rename_i s1 hset
      cases h
      exact Or.inl ((live_setValue hset a).mp ha)
  · rename_i hfind
    split at h
    · cases h
    · rename_i level d hloop
      simp only at h
      split at h
      · cases h
      · rename_i s3 hlv
        cases h
        rw [live_size] at ha
        rw [live_insertLevels _ _ _ _ hlv a, live_alloc] at ha
        rcases ha with ha | ha
        · exact Or.inl ha
        · right
          rw [ha]
          rfl

theorem live_removeScan [LinearOrder K] {key : K} {L : Nat} :
    ∀ (fuel : Nat) (s s2 : SkipList K V) (node node1 : NodeRef) (t : Option Nat),
      removeScan s key L fuel node = .ok (s2, node1, t) → ∀ a, Live s2 a ↔ Live s a
  | 0, _, _, _, _, _, h, _ => by cases h
  | fuel + 1, s, s2, node, node1, t, h, a => by
    unfold removeScan at h
    split at h
    · cases h
    · cases h
      exact Iff.rfl
    · split at h
      · cases h
      · split at h
        · split at h
          · cases h
          · split at h
            · cases h
            · rename_i s1 h1
              cases h
              exact live_setForward h1 a
        · split at h
          · cases h
            exact Iff.rfl
          · exact live_removeScan fuel s s2 _ node1 t h a

theorem live_removeLevels [LinearOrder K] {key : K} {fuel : Nat} :
    ∀ (n : Nat) (s s2 : SkipList K V) (node : NodeRef) (t t2 : Option Nat),
      removeLevels key fuel n s node t = .ok (s2, t2) → ∀ a, Live s2 a ↔ Live s a
  | 0, s, s2, _, t, t2, h, a => by
    cases h
    exact Iff.rfl
  | n + 1, s, s2, node, t, t2, h, a => by
    unfold removeLevels at h
    split at h
    · cases h
    · rename_i s1 node1 a1 h1
      rw [live_removeLevels n s1 s2 node1 _ t2 h a, live_removeScan _ _ _ _ _ _ h1 a]
    · rename_i s1 node1 h1
      rw [live_removeLevels n s1 s2 node1 _ t2 h a, live_removeScan _ _ _ _ _ _ h1 a]

end SkipList

namespace SkipList

variable {K V : Type}

theorem live_free (s : SkipList K V) (t a : Nat) : Live (free s t) a ↔ Live s a ∧ a ≠ t := by
  unfold Live
  by_cases hat : a = t
  · subst hat
    constructor
    · rintro ⟨n, hn⟩
      have hg := deref_heap_lt hn
      simp only [free] at hg
      by_cases hlt : a < s.heap.length
      · rw [List.getElem?_set_self hlt] at hg
        cases hg
      · rw [List.getElem?_eq_none (by simp; omega)] at hg
        cases hg
    · rintro ⟨-, hne⟩
      exact absurd rfl hne
  · rw [deref_free s t _ (fun e => hat (NodeRef.heap.inj e))]
    exact ⟨fun h => ⟨h, hat⟩, fun h => h.1⟩

/-- After `remove` of a present key the node of the key is gone and no
other slot has come to life. -/
theorem live_remove_present [LinearOrder K] {s s2 : SkipList K V} {es : List (Entry K V)}
    {key : K} {it : Iterator} (hr : Rep s es) (_hml : 1 ≤ max_level s) (e0 : Entry K V)
    (he0 : e0 ∈ es) (hk0 : e0.key = key) (h : remove s key = .ok (s2, it)) (a : Nat)
    (ha : Live s2 a) : Live s a ∧ a ≠ e0.addr := by
  have hlk := linked_start hr key
  rcases removeLevels_present hr.sorted he0 hk0 (hr.nodes e0 he0).2.1 rfl (s.heap.length + 1)
      (Nat.lt_succ_of_le (rep_length_le hr)) (loopLevels (max_level s)) s .head none
      (loopLevels_le _) hlk (cursorOK_head _ _ _) with ⟨s1, hrun, hlk1, -, -, -, -⟩
  simp only [hr.reach, if_true] at hrun
  rcases forward_of_nodeAt (hlk1.nodes e0 (Or.inl he0)).1 (hr.nodes e0 he0).2.1 with ⟨nxt, hnxt⟩
  simp only [remove, hrun, hnxt, Except.ok.injEq, Prod.mk.injEq] at h
  rcases h with ⟨hs2, -⟩
  rw [← hs2, live_size, live_free, live_removeLevels _ _ _ _ _ _ hrun a] at ha
  exact ha

/-- One operation keeps the heap free of nodes that are not entries. -/
theorem step_live [LinearOrder K] {s : SkipList K V} {es : List (Entry K V)}
    (hr : Rep s es) (hml : 1 ≤ max_level s) (hlive : ∀ a, Live s a → a ∈ addrs es)
    (op : Op K V) :
    ∃ s1 es1, step s op = .ok s1 ∧ Rep s1 es1 ∧ max_level s1 = max_level s ∧
      ∀ a, Live s1 a → a ∈ addrs es1 := by
  cases op with
  | insert key value rnd =>
    by_cases hp : ∃ e ∈ es, e.key = key
    · rcases hp with ⟨e0, he0, hk0⟩
      rcases insert_present hr hml e0 he0 hk0 value rnd with ⟨s2, hins, hrep, -, hml2⟩
      refine ⟨s2, _, by simp only [step, hins], hrep, hml2, ?_⟩
      intro a ha
      rcases live_insert hins a ha with h | h
      · rcases mem_addrs.mp (hlive a h) with ⟨e, he, hea⟩
        by_cases hek : e.key = key
        · have : e = e0 := sorted_key_inj es hr.sorted e he e0 he0 (by rw [hek, hk0])
          rw [this] at hea
          exact mem_addrs.mpr ⟨⟨e0.addr, key, value, e0.height⟩, by simp, hea⟩
        · exact mem_addrs.mpr ⟨e, (mem_insert_entries es key
            ⟨e0.addr, key, value, e0.height⟩ e rfl hek).mpr he, hea⟩
      · have hea : e0.addr = a := Option.some.inj h
        exact mem_addrs.mpr ⟨⟨e0.addr, key, value, e0.height⟩, by simp, hea⟩
    · have habs : ∀ e ∈ es, e.key ≠ key := fun e he hk => hp ⟨e, he, hk⟩
      rcases insert_absent hr hml habs value rnd with ⟨s2, l, d, -, -, -, hins, hrep, -, hml2⟩
      refine ⟨s2, _, by simp only [step, hins], hrep, hml2, ?_⟩
      intro a ha
      rcases live_insert hins a ha with h | h
      · rcases mem_addrs.mp (hlive a h) with ⟨e, he, hea⟩
        exact mem_addrs.mpr ⟨e, (mem_insert_entries es key
          ⟨s.heap.length, key, value, l + 1⟩ e rfl (habs e he)).mpr he, hea⟩
      · have hea : s.heap.length = a := Option.some.inj h
        exact mem_addrs.mpr ⟨⟨s.heap.length, key, value, l + 1⟩, by simp, hea⟩
  | remove key =>
    by_cases hp : ∃ e ∈ es, e.key = key
    · rcases hp with ⟨e0, he0, hk0⟩
      rcases remove_present hr hml e0 he0 hk0 with ⟨s2, hrem, hrep, -, hml2⟩
      refine ⟨s2, _, by simp only [step, hrem], hrep, hml2, ?_⟩
      intro a ha
      rcases live_remove_present hr hml e0 he0 hk0 hrem a ha with ⟨h1, h2⟩
      rcases mem_addrs.mp (hlive a h1) with ⟨e, he, hea⟩
      refine mem_addrs.mpr ⟨e, List.mem_filter.mpr ⟨he, ?_⟩, hea⟩
      simp only [ne_eq, decide_eq_true_eq]
      intro hek
      have : e = e0 := sorted_key_inj es hr.sorted e he e0 he0 (by rw [hek, hk0])
      rw [this] at hea
      exact h2 hea.symm
    · have habs : ∀ e ∈ es, e.key ≠ key := fun e he hk => hp ⟨e, he, hk⟩
      have hrem := remove_absent hr habs
      exact ⟨s, es, by simp only [step, hrem], hr, rfl, hlive⟩

theorem runFrom_live [LinearOrder K] :
    ∀ (ops : List (Op K V)) (s : SkipList K V) (es : List (Entry K V)),
      Rep s es → 1 ≤ max_level s → (∀ a, Live s a → a ∈ addrs es) →
      ∃ s1 es1, runFrom s ops = .ok s1 ∧ Rep s1 es1 ∧ max_level s1 = max_level s ∧
        ∀ a, Live s1 a → a ∈ addrs es1
  | [], s, es, hr, _, hlive => ⟨s, es, rfl, hr, rfl, hlive⟩
  | op :: ops, s, es, hr, hml, hlive => by
    rcases step_live hr hml hlive op with ⟨s1, es1, hstep, hr1, hml1, hlive1⟩
    rcases runFrom_live ops s1 es1 hr1 (by omega) hlive1 with ⟨s2, es2, hrun, hr2, hml2, hlive2⟩
    exact ⟨s2, es2, by simp only [runFrom, hstep, hrun], hr2, by rw [hml2, hml1], hlive2⟩

/-- The nodes on the heap of a reachable state are exactly its entries. -/
theorem run_live [LinearOrder K] [Inhabited K] [Inhabited V] (ml : Nat)
    (hg : 1 ≤ loopLevels ml) (ops : List (Op K V)) :
    ∃ (s : SkipList K V) (es : List (Entry K V)), run ml ops = .ok s ∧ Rep s es ∧
      max_level s = ml ∧ ∀ a, Live s a ↔ a ∈ addrs es := by
  have hm0 : max_level (construct ml : SkipList K V) = ml := by simp [max_level, construct]
  have hl0 : ∀ a, Live (construct ml : SkipList K V) a → a ∈ addrs ([] : List (Entry K V)) := by
    rintro a ⟨n, hn⟩
    simp [deref, construct] at hn
  have hml : 1 ≤ ml := le_trans hg (loopLevels_le ml)
  rcases runFrom_live ops (construct ml : SkipList K V) [] (rep_construct ml hg)
    (by rw [hm0]; exact hml) hl0 with ⟨s, es, hrun, hr, hmlv, hlive⟩
  refine ⟨s, es, hrun, hr, by rw [hmlv, hm0], fun a => ⟨hlive a, ?_⟩⟩
  intro ha
  rcases mem_addrs.mp ha with ⟨e, he, rfl⟩
  rcases (hr.nodes e he).1 with ⟨n, hn, -⟩
  exact ⟨n, hn⟩

/-- C16, the links of every level, for the containers whose initial level
`(int)(max_level()-1)` is not negative: a reachable state consists of the
nodes of its level-0 chain and nothing else; their keys increase strictly
along the chain; at every level `L` the links from the head run through
exactly the nodes of the chain that have more than `L` slots; and slot `L` of
the head and of every node is empty or points to the nearest following node
of the chain with more than `L` slots, whose key is greater. -/
theorem C16_level_links [LinearOrder K] [Inhabited K] [Inhabited V]
    (ml : Nat) (hml : 1 ≤ ml) (hint : 0 ≤ topLevel ml) (ops : List (Op K V)) :
    ∃ (s : SkipList K V) (es : List (Entry K V)), run ml ops = .ok s ∧
      max_level s = ml ∧ toList s = .ok (items es) ∧ ChainFrom s 0 .head (addrs es) ∧
      (∀ a, Live s a ↔ a ∈ addrs es) ∧
      (∀ e ∈ es, NodeAt s e ∧ 1 ≤ e.height ∧ e.height ≤ ml) ∧
      es.Pairwise (fun a b => a.key < b.key) ∧
      (∀ L, L < ml → ChainFrom s L .head (addrs (atLevel L es))) ∧
      (∀ L, L < ml → forward s .head L = .ok (addrs (atLevel L es)).head?) ∧
      (∀ pre e post L, es = pre ++ e :: post → L < e.height →
        forward s (.heap e.addr) L = .ok (addrs (atLevel L post)).head? ∧
        ∀ x ∈ atLevel L post, e.key < x.key) := by
  have hg : 1 ≤ loopLevels ml := (loopLevels_pos_iff ml).mpr hint
  rcases run_live ml hg ops with ⟨s, es, hrun, hr, hmlv, hlive⟩
  have hml1 : 1 ≤ max_level s := by omega
  have hle := loopLevels_le (max_level s)
  have h0 := hr.levels 0 (by omega)
  rw [atLevel_zero hr] at h0
  refine ⟨s, es, hrun, hmlv, toList_rep hr hml1, h0, hlive, ?_, hr.sorted, ?_, ?_, ?_⟩
  · intro e he
    have h1 := hr.nodes e he
    exact ⟨h1.1, h1.2.1, by omega⟩
  · intro L hL
    exact hr.levels L (by omega)
  · intro L hL
    exact chainFrom_forward (hr.levels L (by omega))
  · intro pre e post L hes hL
    have hLm : L < max_level s := by
      have := (hr.nodes e (by rw [hes]; simp)).2.2
      omega
    have hch := hr.levels L hLm
    rw [hes, atLevel_append, atLevel_cons_pos hL, addrs_append] at hch
    have hch1 : ChainFrom s L (lastRef .head (addrs (atLevel L pre)))
        (e.addr :: addrs (atLevel L post)) := chainFrom_split _ _ _ hch
    refine ⟨chainFrom_forward (chainFrom_cons.mp hch1).2, ?_⟩
    intro x hx
    have hs := hr.sorted
    rw [hes] at hs
    have hs1 := (List.pairwise_append.mp hs).2.1
    exact (List.pairwise_cons.mp hs1).1 x (mem_atLevel.mp hx).1

/-- A run of C16 on a concrete program. -/
theorem C16_level_links_witness :
    1 ≤ 2 ∧ 0 ≤ topLevel 2 ∧
      ∃ (s : SkipList Nat Nat) (es : List (Entry Nat Nat)), run 2 sampleOps = .ok s ∧
      max_level s = 2 ∧ toList s = .ok (items es) ∧ ChainFrom s 0 .head (addrs es) ∧
      (∀ a, Live s a ↔ a ∈ addrs es) ∧
      (∀ e ∈ es, NodeAt s e ∧ 1 ≤ e.height ∧ e.height ≤ 2) ∧
      es.Pairwise (fun a b => a.key < b.key) ∧
      (∀ L, L < 2 → ChainFrom s L .head (addrs (atLevel L es))) ∧
      (∀ L, L < 2 → forward s .head L = .ok (addrs (atLevel L es)).head?) ∧
      (∀ pre e post L, es = pre ++ e :: post → L < e.height →
        forward s (.heap e.addr) L = .ok (addrs (atLevel L post)).head? ∧
        ∀ x ∈ atLevel L post, e.key < x.key) :=
  ⟨by decide, by decide, C16_level_links 2 (by decide) (by decide) sampleOps⟩

/-- C16 fails for `max_level = 2 ^ 31 + 1`: after `insert(4, 40); insert(4, 41);`
slot `0` of a node of key `4` points to another node of key `4`, a key that
is not greater. -/
theorem C16_counterexample :
    ∃ (s : SkipList Nat Nat) (a b : Nat) (na nb : Node Nat Nat),
      run (2 ^ 31 + 1) [.insert 4 40 (fun _ => 0), .insert 4 41 (fun _ => 0)] = .ok s ∧
      deref s (.heap a) = .ok na ∧ forward s (.heap a) 0 = .ok (some b) ∧
      deref s (.heap b) = .ok nb ∧ na.item = (4, 40) ∧ nb.item = (4, 41) := by
  rcases flat_run (2 ^ 31 + 1) (by decide) (by decide)
    [Op.insert 4 40 (fun _ => 0), Op.insert 4 41 (fun _ => 0)] with
    ⟨s, es, hrun, hf, -, -, hit⟩
  have hit1 : items es = [(4, 40), (4, 41)] := hit
  rcases es with _ | ⟨e1, _ | ⟨e2, _ | ⟨e3, rest⟩⟩⟩
  · simp [items] at hit1
  · simp [items] at hit1
  · simp only [items, List.map_cons, List.map_nil, List.cons.injEq, and_true] at hit1
    rcases (hf.nodes e1 (by simp)).1 with ⟨n1, hn1, hi1, -⟩
    rcases (hf.nodes e2 (by simp)).1 with ⟨n2, hn2, hi2, -⟩
    have hch : ChainFrom s 0 .head (e1.addr :: [e2.addr]) := hf.chain
    have hch1 := (chainFrom_cons.mp hch).2
    have hfw := (chainFrom_cons.mp hch1).1
    exact ⟨s, e1.addr, e2.addr, n1, n2, hrun, hn1, hfw, hn2, hi1.trans hit1.1,
      hi2.trans hit1.2⟩
  · simp [items] at hit1

end SkipList

/-! Calls and what they return -/

namespace SkipList

variable {K V : Type}

theorem subscript_present [LinearOrder K] [Inhabited V] {s : SkipList K V}
    {es : List (Entry K V)} {k : K} (hr : Rep s es) (hml : 1 ≤ max_level s)
    (e0 : Entry K V) (he0 : e0 ∈ es) (hk0 : e0.key = k) (rnd : Nat → Nat) :
    subscript s k rnd = .ok (s, e0.addr) := by
  have hfind := find_found hr hml e0 he0 hk0
  have hstar := star_of_nodeAt (hr.nodes e0 he0).1
  simp [subscript, hfind, Iterator.toBool, hstar]

theorem subscript_absent [LinearOrder K] [Inhabited V] {s : SkipList K V}
    {es : List (Entry K V)} {k : K} (hr : Rep s es) (hml : 1 ≤ max_level s)
    (habs : ∀ e ∈ es, e.key ≠ k) (rnd : Nat → Nat) :
    ∃ s2 l, subscript s k rnd = .ok (s2, s.heap.length) ∧
      Rep s2 (es.filter (fun e => decide (e.key < k)) ++
        ⟨s.heap.length, k, default, l + 1⟩ :: es.filter (fun e => decide (k < e.key))) ∧
      s2._size = (s._size + 1) % 2 ^ 64 ∧ max_level s2 = max_level s := by
  have hfind := find_absent hr habs
  rcases insert_absent hr hml habs (default : V) rnd with
    ⟨s1, lv, d, -, -, -, hins, hrep, hsz1, hmlv1⟩
  have hmem : (⟨s.heap.length, k, default, lv + 1⟩ : Entry K V) ∈
      es.filter (fun e => decide (e.key < k)) ++
        ⟨s.heap.length, k, default, lv + 1⟩ :: es.filter (fun e => decide (k < e.key)) := by
    simp
  have hstar : Iterator.star s1 ⟨some s.heap.length⟩ = .ok (k, default) :=
    star_of_nodeAt (hrep.nodes ⟨s.heap.length, k, default, lv + 1⟩ hmem).1
  exact ⟨s1, lv, by simp [subscript, hfind, Iterator.toBool, hins, hstar], hrep, hsz1, hmlv1⟩

theorem observe_of_nodeAt {s : SkipList K V} {e : Entry K V} (h : NodeAt s e) :
    observe s ⟨some e.addr⟩ = .ok (some (e.key, e.val)) := by
  simp only [observe, Iterator.toBool, Option.isSome_some, if_true, star_of_nodeAt h]

theorem items_filter_above [LinearOrder K] (es : List (Entry K V)) (k : K) :
    (items es).filter (fun p => decide (k < p.1)) =
      items (es.filter (fun e => decide (k < e.key))) := by
  simp only [items, List.filter_map]
  rfl

theorem any_key_of_mem [LinearOrder K] {es : List (Entry K V)} {k : K} (e0 : Entry K V)
    (he0 : e0 ∈ es) (hk0 : e0.key = k) :
    (items es).any (fun p => decide (p.1 = k)) = true := by
  apply List.any_eq_true.mpr
  exact ⟨(e0.key, e0.val), mem_items.mpr ⟨e0, he0, rfl⟩, by simpa using hk0⟩

theorem any_key_of_absent [LinearOrder K] {es : List (Entry K V)} {k : K}
    (habs : ∀ e ∈ es, e.key ≠ k) : (items es).any (fun p => decide (p.1 = k)) = false := by
  apply Bool.eq_false_iff.mpr
  intro h
  rcases List.any_eq_true.mp h with ⟨p, hp, hpk⟩
  rcases mem_items.mp hp with ⟨e, he, rfl⟩
  exact habs e he (by simpa using hpk)

theorem find_item_of_mem [LinearOrder K] {es : List (Entry K V)} {k : K}
    (hs : es.Pairwise (fun a b => a.key < b.key)) (e0 : Entry K V) (he0 : e0 ∈ es)
    (hk0 : e0.key = k) :
    (items es).find? (fun p => decide (p.1 = k)) = some (e0.key, e0.val) := by
  have hsplit := sorted_split_mem es hs e0 he0
  have hnone : (items (es.filter (fun e => decide (e.key < e0.key)))).find?
      (fun p => decide (p.1 = k)) = none := by
    apply List.find?_eq_none.mpr
    intro p hp
    rcases mem_items.mp hp with ⟨e, he, rfl⟩
    have hlt : e.key < e0.key := by simpa using (List.mem_filter.mp he).2
    rw [hk0] at hlt
    simpa using ne_of_lt hlt
  conv_lhs => rw [hsplit]
  rw [items_append, List.find?_append, hnone]
  simp [items, hk0]

theorem find_item_of_absent [LinearOrder K] {es : List (Entry K V)} {k : K}
    (habs : ∀ e ∈ es, e.key ≠ k) :
    (items es).find? (fun p => decide (p.1 = k)) = none := by
  apply List.find?_eq_none.mpr
  intro p hp
  rcases mem_items.mp hp with ⟨e, he, rfl⟩
  simpa using habs e he

/-- One call on a represented state: the state after it is represented
again, and the sequence it holds and the value the call returns are those
computed from the sequence before, whatever the draws. -/
theorem call_spec [LinearOrder K] [Inhabited V] {s : SkipList K V} {es : List (Entry K V)}
    (hr : Rep s es) (hml : 1 ≤ max_level s) (hsz : s._size = es.length % 2 ^ 64)
    (c : Call K V) (rnd : Nat → Nat) :
    ∃ s1 es1, call s c rnd = .ok (s1, (mCall (items es) c).2) ∧ Rep s1 es1 ∧
      max_level s1 = max_level s ∧ s1._size = es1.length % 2 ^ 64 ∧
      items es1 = (mCall (items es) c).1 := by
  cases c with
  | insert key value =>
    by_cases hp : ∃ e ∈ es, e.key = key
    · rcases hp with ⟨e0, he0, hk0⟩
      rcases insert_present hr hml e0 he0 hk0 value rnd with ⟨s2, hins, hrep, hsz2, hml2⟩
      have hobs := observe_of_nodeAt
        (hrep.nodes ⟨e0.addr, key, value, e0.height⟩ (by simp)).1
      refine ⟨s2, _, ?_, hrep, hml2, ?_, items_insert _ _ _ _ _⟩
      · simp only [call, hins, hobs, mCall]
      · subst hk0
        rw [hsz2, hsz, length_insert_present hr.sorted e0 he0]
    · have habs : ∀ e ∈ es, e.key ≠ key := fun e he hk => hp ⟨e, he, hk⟩
      rcases insert_absent hr hml habs value rnd with
        ⟨s2, l, d, -, -, -, hins, hrep, hsz2, hml2⟩
      have hobs := observe_of_nodeAt
        (hrep.nodes ⟨s.heap.length, key, value, l + 1⟩ (by simp)).1
      refine ⟨s2, _, ?_, hrep, hml2, ?_, items_insert _ _ _ _ _⟩
      · simp only [call, hins, hobs, mCall]
      · rw [hsz2, hsz, length_insert_absent hr.sorted habs]
        omega
  | remove key =>
    by_cases hp : ∃ e ∈ es, e.key = key
    · rcases hp with ⟨e0, he0, hk0⟩
      rcases remove_present hr hml e0 he0 hk0 with ⟨s2, hrem, hrep, hsz2, hml2⟩
      have hlen := length_remove_present hr.sorted e0 he0
      rw [hk0] at hlen
      refine ⟨s2, _, ?_, hrep, hml2, ?_, items_remove _ _⟩
      · simp only [call, hrem, mCall, any_key_of_mem e0 he0 hk0, if_true, items_filter_above]
        cases hB : es.filter (fun e => decide (key < e.key)) with
        | nil => simp [addrs, items, observe, Iterator.toBool]
        | cons b B =>
          have hb : b ∈ es.filter (fun e => decide (e.key ≠ key)) := by
            have h1 : b ∈ es.filter (fun e => decide (key < e.key)) := by
              rw [hB]
              exact List.mem_cons_self _ _
            have hkb : key < b.key := by simpa using (List.mem_filter.mp h1).2
            exact List.mem_filter.mpr
              ⟨(List.mem_filter.mp h1).1, by simpa using (ne_of_lt hkb).symm⟩
          have hobs := observe_of_nodeAt (hrep.nodes b hb).1
          simp only [addrs, List.map_cons, List.head?_cons, hobs, items]
      · rw [hsz2, hsz]
        omega
    · have habs : ∀ e ∈ es, e.key ≠ key := fun e he hk => hp ⟨e, he, hk⟩
      have hrem := remove_absent hr habs
      refine ⟨s, es, ?_, hr, rfl, hsz, ?_⟩
      · simp [call, hrem, mCall, any_key_of_absent habs, observe, Iterator.toBool]
      · show items es = mRemove key (items es)
        rw [← items_remove, filter_ne_absent habs]
  | subscript key =>
    by_cases hp : ∃ e ∈ es, e.key = key
    · rcases hp with ⟨e0, he0, hk0⟩
      have hsub := subscript_present hr hml e0 he0 hk0 rnd
      have hobs := observe_of_nodeAt (hr.nodes e0 he0).1
      refine ⟨s, es, ?_, hr, rfl, hsz, ?_⟩
      · simp only [call, hsub, hobs, mCall, find_item_of_mem hr.sorted e0 he0 hk0]
      · simp only [mCall, find_item_of_mem hr.sorted e0 he0 hk0]
    · have habs : ∀ e ∈ es, e.key ≠ key := fun e he hk => hp ⟨e, he, hk⟩
      rcases subscript_absent hr hml habs rnd with ⟨s2, l, hsub, hrep, hsz2, hml2⟩
      have hobs := observe_of_nodeAt
        (hrep.nodes ⟨s.heap.length, key, default, l + 1⟩ (by simp)).1
      refine ⟨s2, _, ?_, hrep, hml2, ?_, ?_⟩
      · simp only [call, hsub, hobs, mCall, find_item_of_absent habs]
      · rw [hsz2, hsz, length_insert_absent hr.sorted habs]
        omega
      · simp only [mCall, find_item_of_absent habs]
        exact items_insert _ _ _ _ _

theorem callAll_spec [LinearOrder K] [Inhabited V] (draws : Nat → Nat → Nat) :
    ∀ (cs : List (Call K V)) (i : Nat) (s : SkipList K V) (es : List (Entry K V)),
      Rep s es → 1 ≤ max_level s → s._size = es.length % 2 ^ 64 →
      ∃ s1 es1, callAll draws i s cs = .ok (s1, (mCallAll (items es) cs).2) ∧ Rep s1 es1 ∧
        max_level s1 = max_level s ∧ s1._size = es1.length % 2 ^ 64 ∧
        items es1 = (mCallAll (items es) cs).1
  | [], _, s, es, hr, _, hsz => ⟨s, es, rfl, hr, rfl, hsz, rfl⟩
  | c :: cs, i, s, es, hr, hml, hsz => by
    rcases call_spec hr hml hsz c (draws i) with ⟨s1, es1, hcall, hr1, hml1, hsz1, hit1⟩
    rcases callAll_spec draws cs (i + 1) s1 es1 hr1 (by omega) hsz1 with
      ⟨s2, es2, hrun, hr2, hml2, hsz2, hit2⟩
    rw [hit1] at hrun hit2
    exact ⟨s2, es2, by simp only [callAll, hcall, hrun, mCallAll], hr2, by rw [hml2, hml1],
      hsz2, by rw [hit2]; rfl⟩

end SkipList

namespace SkipList

variable {K V : Type}

/-- Two represented states with the same sequence answer `find` alike. -/
theorem find_same_items [LinearOrder K] {s1 s2 : SkipList K V} {es1 es2 : List (Entry K V)}
    (hr1 : Rep s1 es1) (hr2 : Rep s2 es2) (hml1 : 1 ≤ max_level s1) (hml2 : 1 ≤ max_level s2)
    (hit : items es1 = items es2) (k : K) :
    ∃ it1 it2, find s1 k = .ok it1 ∧ find s2 k = .ok it2 ∧ it1.toBool = it2.toBool ∧
      it1.star s1 = it2.star s2 := by
  by_cases hp : ∃ e ∈ es1, e.key = k
  · rcases hp with ⟨e1, he1, hk1⟩
    have hmem : (e1.key, e1.val) ∈ items es2 := by
      rw [← hit]
      exact mem_items.mpr ⟨e1, he1, rfl⟩
    rcases mem_items.mp hmem with ⟨e2, he2, hkv⟩
    have hk2 : e2.key = k := by
      rw [← hk1]
      exact congrArg Prod.fst hkv
    refine ⟨_, _, find_found hr1 hml1 e1 he1 hk1, find_found hr2 hml2 e2 he2 hk2, rfl, ?_⟩
    rw [star_of_nodeAt (hr1.nodes e1 he1).1, star_of_nodeAt (hr2.nodes e2 he2).1, hkv]
  · have habs1 : ∀ e ∈ es1, e.key ≠ k := fun e he hk => hp ⟨e, he, hk⟩
    have habs2 : ∀ e ∈ es2, e.key ≠ k := by
      intro e he hk
      have hmem : (e.key, e.val) ∈ items es1 := by
        rw [hit]
        exact mem_items.mpr ⟨e, he, rfl⟩
      rcases mem_items.mp hmem with ⟨e1, he1, hkv⟩
      exact habs1 e1 he1 (by rw [← hk]; exact congrArg Prod.fst hkv)
    exact ⟨_, _, find_absent hr1 habs1, find_absent hr2 habs2, rfl, rfl⟩

/-- One call on a container whose level loops never run: what it returns and
the sequence it leaves are computed from the sequence before; no `rand()` is
called. -/
theorem flat_call [LinearOrder K] [Inhabited V] {s : SkipList K V} {es : List (Entry K V)}
    (hf : Flat s es) (hsz : s._size = es.length % 2 ^ 64) (c : Call K V) (rnd : Nat → Nat) :
    ∃ s1 es1, call s c rnd = .ok (s1, (flatCall (items es) c).2) ∧ Flat s1 es1 ∧
      s1._size = es1.length % 2 ^ 64 ∧ items es1 = (flatCall (items es) c).1 := by
  cases c with
  | insert key value =>
    rcases flat_insert hf key value rnd with ⟨s2, hins, hflat, hsz2, -⟩
    have hobs := observe_of_nodeAt
      (hflat.nodes ⟨s.heap.length, key, value, 1⟩ (by simp)).1
    refine ⟨s2, _, ?_, hflat, ?_, items_flatInsert _ _ _ _ _⟩
    · simp only [call, hins, hobs, flatCall]
    · rw [hsz2, hsz, length_flatInsert]
      omega
  | remove key =>
    refine ⟨s, es, ?_, hf, hsz, rfl⟩
    simp [call, flat_remove hf key, flatCall, observe, Iterator.toBool]
  | subscript key =>
    rcases flat_subscript hf key rnd with ⟨s2, hsub, hflat, hsz2, -⟩
    have hobs := observe_of_nodeAt
      (hflat.nodes ⟨s.heap.length, key, default, 1⟩ (by simp)).1
    refine ⟨s2, _, ?_, hflat, ?_, items_flatInsert _ _ _ _ _⟩
    · simp only [call, hsub, hobs, flatCall]
    · rw [hsz2, hsz, length_flatInsert]
      omega

theorem flat_callAll [LinearOrder K] [Inhabited V] (draws : Nat → Nat → Nat) :
    ∀ (cs : List (Call K V)) (i : Nat) (s : SkipList K V) (es : List (Entry K V)),
      Flat s es → s._size = es.length % 2 ^ 64 →
      ∃ s1 es1, callAll draws i s cs = .ok (s1, (flatCallAll (items es) cs).2) ∧ Flat s1 es1 ∧
        s1._size = es1.length % 2 ^ 64 ∧ items es1 = (flatCallAll (items es) cs).1
  | [], _, s, es, hf, hsz => ⟨s, es, rfl, hf, hsz, rfl⟩
  | c :: cs, i, s, es, hf, hsz => by
    rcases flat_call hf hsz c (draws i) with ⟨s1, es1, hcall, hf1, hsz1, hit1⟩
    rcases flat_callAll draws cs (i + 1) s1 es1 hf1 hsz1 with ⟨s2, es2, hrun, hf2, hsz2, hit2⟩
    rw [hit1] at hrun hit2
    exact ⟨s2, es2, by simp only [callAll, hcall, hrun, flatCallAll], hf2, hsz2,
      by rw [hit2]; rfl⟩

/-- C19, independence of the random heights: two runs of the same calls
(`insert`, `remove`, `operator[]`) with any two choices of the draws both
return, every call returns an iterator (or reference) at the same pair in
both, and the two final states have the same `size()`, the same iterated
sequence and, for every key, the same outcome of `find`. -/
theorem C19_results_independent_of_draws [LinearOrder K] [Inhabited K] [Inhabited V]
    (ml : Nat) (hml : 1 ≤ ml) (cs : List (Call K V)) (d1 d2 : Nat → Nat → Nat) :
    ∃ (s1 s2 : SkipList K V) (os : List (Option (K × V))) (l : List (K × V)),
      callAll d1 0 (construct ml) cs = .ok (s1, os) ∧
      callAll d2 0 (construct ml) cs = .ok (s2, os) ∧
      size s1 = size s2 ∧ toList s1 = .ok l ∧ toList s2 = .ok l ∧
      ∀ k, ∃ it1 it2, find s1 k = .ok it1 ∧ find s2 k = .ok it2 ∧
        it1.toBool = it2.toBool ∧ it1.star s1 = it2.star s2 := by
  have hm0 : max_level (construct ml : SkipList K V) = ml := max_level_construct ml
  have hml0 : 1 ≤ max_level (construct ml : SkipList K V) := by
    rw [hm0]
    exact hml
  by_cases hg : 1 ≤ loopLevels ml
  · rcases callAll_spec d1 cs 0 (construct ml : SkipList K V) [] (rep_construct ml hg) hml0
      rfl with ⟨s1, es1, hrun1, hr1, hmlv1, hsz1, hit1⟩
    rcases callAll_spec d2 cs 0 (construct ml : SkipList K V) [] (rep_construct ml hg) hml0
      rfl with ⟨s2, es2, hrun2, hr2, hmlv2, hsz2, hit2⟩
    have hit : items es1 = items es2 := by rw [hit1, hit2]
    have hlen : es1.length = es2.length := by
      rw [← items_length es1, ← items_length es2, hit]
    refine ⟨s1, s2, _, items es1, hrun1, hrun2, ?_, toList_rep hr1 (by omega), ?_, ?_⟩
    · show s1._size = s2._size
      rw [hsz1, hsz2, hlen]
    · rw [hit]
      exact toList_rep hr2 (by omega)
    · exact find_same_items hr1 hr2 (by omega) (by omega) hit
  · have hf0 : Flat (construct ml : SkipList K V) [] := flat_construct ml hml (by omega)
    rcases flat_callAll d1 cs 0 (construct ml : SkipList K V) [] hf0 rfl with
      ⟨s1, es1, hrun1, hf1, hsz1, hit1⟩
    rcases flat_callAll d2 cs 0 (construct ml : SkipList K V) [] hf0 rfl with
      ⟨s2, es2, hrun2, hf2, hsz2, hit2⟩
    have hit : items es1 = items es2 := by rw [hit1, hit2]
    have hlen : es1.length = es2.length := by
      rw [← items_length es1, ← items_length es2, hit]
    refine ⟨s1, s2, _, items es1, hrun1, hrun2, ?_, flat_toList hf1, ?_, ?_⟩
    · show s1._size = s2._size
      rw [hsz1, hsz2, hlen]
    · rw [hit]
      exact flat_toList hf2
    · intro k
      exact ⟨⟨none⟩, ⟨none⟩, flat_find hf1 k, flat_find hf2 k, rfl, rfl⟩

/-- A run of C19 on concrete calls and draws. -/
theorem C19_results_independent_of_draws_witness :
    1 ≤ 3 ∧ ∃ (s1 s2 : SkipList Nat Nat) (os : List (Option (Nat × Nat)))
        (l : List (Nat × Nat)),
      callAll (fun _ _ => 0) 0 (construct 3)
        [Call.subscript 7, Call.insert 1 10, Call.insert 7 70, Call.remove 1] = .ok (s1, os) ∧
      callAll (fun i j => i + j) 0 (construct 3)
        [Call.subscript 7, Call.insert 1 10, Call.insert 7 70, Call.remove 1] = .ok (s2, os) ∧
      size s1 = size s2 ∧ toList s1 = .ok l ∧ toList s2 = .ok l ∧
      ∀ k, ∃ it1 it2, find s1 k = .ok it1 ∧ find s2 k = .ok it2 ∧
        it1.toBool = it2.toBool ∧ it1.star s1 = it2.star s2 :=
  ⟨by decide, C19_results_independent_of_draws 3 (by decide) _ _ _⟩

end SkipList

/-! The scenario of the test driver -/

namespace SkipList

theorem scenario_model (r2 r3 r4 r5 : Nat → Nat) :
    model [Op.insert "1" (111 : Int) r2, Op.insert "9" 999 r3, Op.insert "5" 555 r4,
        Op.insert "hello" 0 r5] [("kewuaa", 1)] =
      [("1", 111), ("5", 555), ("9", 999), ("hello", 0), ("kewuaa", 1)] := by
  have h1 : ("1" : String) < "5" := by rw [String.lt_iff_toList_lt]; decide
  have h2 : ("1" : String) < "9" := by rw [String.lt_iff_toList_lt]; decide
  have h3 : ("1" : String) < "hello" := by rw [String.lt_iff_toList_lt]; decide
  have h4 : ("1" : String) < "kewuaa" := by rw [String.lt_iff_toList_lt]; decide
  have h5 : ("5" : String) < "9" := by rw [String.lt_iff_toList_lt]; decide
  have h6 : ("5" : String) < "hello" := by rw [String.lt_iff_toList_lt]; decide
  have h7 : ("5" : String) < "kewuaa" := by rw [String.lt_iff_toList_lt]; decide
  have h8 : ("9" : String) < "hello" := by rw [String.lt_iff_toList_lt]; decide
  have h9 : ("9" : String) < "kewuaa" := by rw [String.lt_iff_toList_lt]; decide
  have h10 : ("hello" : String) < "kewuaa" := by rw [String.lt_iff_toList_lt]; decide
  simp only [model, mInsert, List.filter_cons, List.filter_nil, h1, h2, h3, h4, h5, h6, h7, h8,
    h9, h10, not_lt_of_gt h1, not_lt_of_gt h2, not_lt_of_gt h3, not_lt_of_gt h4,
    not_lt_of_gt h5, not_lt_of_gt h6, not_lt_of_gt h7, not_lt_of_gt h8, not_lt_of_gt h9,
    not_lt_of_gt h10, lt_self_iff_false, decide_True, decide_False, if_true, if_false,
    Bool.false_eq_true, List.nil_append, List.cons_append, List.append_nil]

/-- From any state that holds just `("kewuaa", 1)`, the four further
inserts of the driver, then `find("5")`, `remove("5")` and `find("5")`. -/
theorem scenario_from {s0 : SkipList String Int} {es0 : List (Entry String Int)}
    (hr : Rep s0 es0) (hml : max_level s0 = 3) (hsz : s0._size = es0.length % 2 ^ 64)
    (hit : items es0 = [("kewuaa", 1)]) (r2 r3 r4 r5 : Nat → Nat) :
    ∃ (s s1 : SkipList String Int) (it0 it : Iterator),
      runFrom s0 [Op.insert "1" 111 r2, Op.insert "9" 999 r3, Op.insert "5" 555 r4,
        Op.insert "hello" 0 r5] = .ok s ∧
      toList s = .ok [("1", 111), ("5", 555), ("9", 999), ("hello", 0), ("kewuaa", 1)] ∧
      size s = 5 ∧
      find s "5" = .ok it0 ∧ it0.toBool = true ∧ it0.star s = .ok ("5", 555) ∧
      remove s "5" = .ok (s1, it) ∧ find s1 "5" = .ok ⟨none⟩ ∧
      toList s1 = .ok [("1", 111), ("9", 999), ("hello", 0), ("kewuaa", 1)] ∧
      size s1 = 4 := by
  rcases runFrom_spec [Op.insert "1" (111 : Int) r2, Op.insert "9" 999 r3,
      Op.insert "5" 555 r4, Op.insert "hello" 0 r5] s0 es0 hr (by omega) hsz with
    ⟨s, es, hrun, hrs, hmlv, hszs, hits, -⟩
  rw [hit, scenario_model] at hits
  have hml1 : 1 ≤ max_level s := by omega
  have hlen : es.length = 5 := by
    rw [← items_length, hits]
    rfl
  have hmem : (("5", 555) : String × Int) ∈ items es := by
    rw [hits]
    simp
  rcases mem_items.mp hmem with ⟨e0, he0, hkv⟩
  have hk0 : e0.key = "5" := congrArg Prod.fst hkv
  rcases remove_present hrs hml1 e0 he0 hk0 with ⟨s1, hrem, hrep1, hsz1, hmlv1⟩
  have hits1 := items_remove es "5"
  have hm : mRemove "5" [("1", (111 : Int)), ("5", 555), ("9", 999), ("hello", 0),
      ("kewuaa", 1)] = [("1", 111), ("9", 999), ("hello", 0), ("kewuaa", 1)] := by
    simp [mRemove, List.filter_cons]
  rw [hits, hm] at hits1
  refine ⟨s, s1, ⟨some e0.addr⟩, _, hrun, ?_, ?_, find_found hrs hml1 e0 he0 hk0, rfl, ?_,
    hrem, ?_, ?_, ?_⟩
  · rw [toList_rep hrs hml1, hits]
  · show s._size = 5
    rw [hszs, hlen]
    omega
  · rw [star_of_nodeAt (hrs.nodes e0 he0).1, hkv]
  · apply find_absent hrep1
    intro e he
    simpa using (List.mem_filter.mp he).2
  · rw [toList_rep hrep1 (by omega), hits1]
  · show s1._size = 4
    rw [hsz1, hszs, hlen]
    omega

/-- C15, the example scenario with `max_level = 3`: after the five inserts,
whatever the five height draws, iteration yields the five pairs in
lexicographic key order and `find("5")` yields `555`; after `remove("5")`,
`find("5")` is empty, iteration yields the other four pairs in order and
`size()` is `4`.  The same holds when the first pair is stored as the test
driver does, by `sl["kewuaa"] = 1`. -/
theorem C15_example_scenario (r1 r2 r3 r4 r5 : Nat → Nat) :
    (∃ (s s1 : SkipList String Int) (it0 it : Iterator),
      run 3 [Op.insert "kewuaa" 1 r1, Op.insert "1" 111 r2, Op.insert "9" 999 r3,
        Op.insert "5" 555 r4, Op.insert "hello" 0 r5] = .ok s ∧
      toList s = .ok [("1", 111), ("5", 555), ("9", 999), ("hello", 0), ("kewuaa", 1)] ∧
      size s = 5 ∧
      find s "5" = .ok it0 ∧ it0.toBool = true ∧ it0.star s = .ok ("5", 555) ∧
      remove s "5" = .ok (s1, it) ∧ find s1 "5" = .ok ⟨none⟩ ∧
      toList s1 = .ok [("1", 111), ("9", 999), ("hello", 0), ("kewuaa", 1)] ∧
      size s1 = 4) ∧
    ∃ (sa sb s s1 : SkipList String Int) (a : Nat) (it0 it : Iterator),
      subscript (construct 3 : SkipList String Int) "kewuaa" r1 = .ok (sa, a) ∧
      writeRef sa a 1 = .ok sb ∧
      runFrom sb [Op.insert "1" 111 r2, Op.insert "9" 999 r3, Op.insert "5" 555 r4,
        Op.insert "hello" 0 r5] = .ok s ∧
      toList s = .ok [("1", 111), ("5", 555), ("9", 999), ("hello", 0), ("kewuaa", 1)] ∧
      size s = 5 ∧
      find s "5" = .ok it0 ∧ it0.toBool = true ∧ it0.star s = .ok ("5", 555) ∧
      remove s "5" = .ok (s1, it) ∧ find s1 "5" = .ok ⟨none⟩ ∧
      toList s1 = .ok [("1", 111), ("9", 999), ("hello", 0), ("kewuaa", 1)] ∧
      size s1 = 4 := by
  have hm0 : max_level (construct 3 : SkipList String Int) = 3 := by
    simp [max_level, construct]
  have hr0 : Rep (construct 3 : SkipList String Int) [] := rep_construct 3 (by decide)
  have habs0 : ∀ e ∈ ([] : List (Entry String Int)), e.key ≠ "kewuaa" :=
    fun e he => by cases he
  constructor
  · rcases insert_absent hr0 (by rw [hm0]; decide) habs0 (1 : Int) r1 with
      ⟨s0, l, d, -, -, -, hins, hrep, hsz, hmlv⟩
    simp only [List.filter_nil, List.nil_append] at hrep
    have hsz0 : s0._size = [(⟨(construct 3 : SkipList String Int).heap.length, "kewuaa", 1,
        l + 1⟩ : Entry String Int)].length % 2 ^ 64 := by
      rw [hsz]
      simp [construct]
    rcases scenario_from hrep (by rw [hmlv, hm0]) hsz0 rfl r2 r3 r4 r5 with
      ⟨s, s1, it0, it, hrun, h⟩
    refine ⟨s, s1, it0, it, ?_, h⟩
    simp only [run, runFrom, step, hins]
    exact hrun
  · rcases subscript_absent hr0 (by rw [hm0]; decide) habs0 r1 with
      ⟨sa, l, hsub, hrepa, hsza, hmlva⟩
    simp only [List.filter_nil, List.nil_append] at hrepa
    rcases setValue_rep hrepa _ (List.mem_singleton.mpr rfl) rfl (1 : Int) with
      ⟨sb, hset, hrepb, hszb, hmlvb⟩
    simp only [List.filter_cons, List.filter_nil, lt_self_iff_false, decide_False,
      Bool.false_eq_true, if_false, List.nil_append] at hrepb
    have hszb0 : sb._size = [(⟨(construct 3 : SkipList String Int).heap.length, "kewuaa", 1,
        l + 1⟩ : Entry String Int)].length % 2 ^ 64 := by
      rw [hszb, hsza]
      simp [construct]
    rcases scenario_from hrepb (by rw [hmlvb, hmlva, hm0]) hszb0 rfl r2 r3 r4 r5 with
      ⟨s, s1, it0, it, hrun, h⟩
    exact ⟨sa, sb, s, s1, _, it0, it, hsub, hset, hrun, h⟩

end SkipList
